import Mathlib

/-! TerminalShell: tokenizer, pipeline compiler and process orchestrator.

A shallow embedding of `shelpers.cpp` (`splitOnSymbol`, `tokenize`, `getCommands`) and of the
parts of `main.cpp` that feed a line to them, run the commands of a line (`cleanUp`, the loop
over `commands`) and poll the background processes (`checkBackgroundCommands`).

Conventions of the embedding.

* A `std::string` is a `List Char`; a `std::vector<T>` is a `List T`.
* The C++ `int` indices (`pos`, `space`, `i`, `j`, `first`, `last`, `cmdNumber`) are natural
  numbers: every one of them is an index into, or the size of, a string or vector, and the
  embedding assumes those sizes stay below `2^31`, so that the conversions between `int` and
  `size_t` in the source (in particular `(pos = s.find(..)) != string::npos`) are exact.
* Indexing a vector or string outside its range is undefined behaviour in C++; the embedding
  makes it observable as the fault `outOfBounds`.
* Loops whose index is changed inside the body carry a fuel argument; running out of fuel is
  the fault `outOfFuel`, and the development proves that the fuel handed out by the callers
  always suffices (`tokenize_spec`, `getCommands_fuel_suffices`).
* The calls `exit(2)` and `exit(3)` end the process; the embedding makes them observable as
  the fault `exited`.
* The operating system is a table of open descriptors together with the record of the calls
  made. `open` and `pipe` hand out the lowest descriptor that is not open; whether an `open`
  or a `pipe` succeeds is decided by the system, a parameter. After a `pipe` that fails the
  source reads its array `fds`, which was never given a value; the embedding takes the two
  values read from the same parameter.
* The orchestrator is the shell process itself: `fork` and `waitpid` return what the kernel, a
  parameter, answers, and the calls are recorded. When `fork` returns 0 the process is the
  child, and the embedding stops there with the outcome `Stop.child`; a blocking `waitpid` is
  taken to return. The `pid_t` and `int` values of process identifiers are integers.
* The header `shelpers.h` is not among the sources. The struct `Command` is rebuilt from the
  members that the two source files use, and the value of a Command created by
  `vector<Command>(n)` is a parameter of `getCommands`.
-/

namespace TerminalShell

/-- The contents of a `std::string`. -/
abbrev Str := List Char

/-- The ways in which a run can stop without returning to its caller. -/
inductive Fault where
  | outOfBounds
  | outOfFuel
  | exited (code : Nat)
deriving DecidableEq, Repr

deriving instance DecidableEq for Except

/-! ## String and vector primitives -/

/-- The call `s.find(c, pos)`: the index of the first `c` at or after `pos`; `none` is `npos`. -/
def find (s : Str) (c : Char) (pos : Nat) : Option Nat :=
  let k := (s.drop pos).indexOf c
  if k < (s.drop pos).length then some (pos + k) else none

/-- The call `s.substr(pos, len)`; it throws when `pos > s.size()`. -/
def substr (s : Str) (pos len : Nat) : Except Fault Str :=
  if pos ≤ s.length then .ok ((s.drop pos).take len) else .error .outOfBounds

/-- The access `v[i]` of a vector. -/
def getAt {α : Type} (v : List α) (i : Nat) : Except Fault α :=
  match v[i]? with
  | some a => .ok a
  | none => .error .outOfBounds

/-- The call `v.insert(v.begin() + i, x)`. -/
def insertAt {α : Type} (v : List α) (i : Nat) (x : α) : Except Fault (List α) :=
  if i ≤ v.length then .ok (v.take i ++ x :: v.drop i) else .error .outOfBounds

/-- The assignment `v[i] = x`. -/
def setAt {α : Type} (v : List α) (i : Nat) (x : α) : Except Fault (List α) :=
  if i < v.length then .ok (v.set i x) else .error .outOfBounds

/-! ## The tokenizer -/

/-- The function `splitOnSymbol(words, i, c)`: the returned flag and the updated `words`. -/
def splitOnSymbol (words : List Str) (i : Nat) (c : Char) : Except Fault (Bool × List Str) := do
  let w ← getAt words i
  if w.length < 2 then
    return (false, words)
  match find w c 0 with
  | some pos =>
    if pos = 0 then
      -- Starts with symbol.
      let rest ← substr w 1 (w.length - 1)
      let words ← insertAt words (i + 1) rest
      let w ← getAt words i
      let head ← substr w 0 1
      let words ← setAt words i head
      return (true, words)
    else
      -- Symbol in middle or end.
      let words ← insertAt words (i + 1) [c]
      let w ← getAt words i
      let after ← substr w (pos + 1) (w.length - pos - 1)
      let words ← if after ≠ [] then insertAt words (i + 2) after else pure words
      let w ← getAt words i
      let before ← substr w 0 pos
      let words ← setAt words i before
      return (true, words)
  | none => return (false, words)

/-- The metacharacters in the order in which `tokenize` tries them. -/
def symbols : List Char := ['&', '<', '>', '|']

/-- The inner loop of `tokenize`, `for (char c : symbols)`, at index `i`: it stops at the first
symbol on which `splitOnSymbol` succeeds. -/
def trySymbols (words : List Str) (i : Nat) : List Char → Except Fault (Bool × List Str)
  | [] => .ok (false, words)
  | c :: cs => do
    let r ← splitOnSymbol words i c
    if r.1 then return (true, r.2) else trySymbols r.2 i cs

/-- The loop `for (int i = 0; i < ret.size(); ++i)` of `tokenize`. After a successful split the
source decrements `i` before the increment, so the same index is examined again. -/
def splitLoop : Nat → List Str → Nat → Except Fault (List Str)
  | fuel, ret, i =>
    if i < ret.length then
      match fuel with
      | 0 => .error .outOfFuel
      | fuel + 1 => do
        let r ← trySymbols ret i symbols
        if r.1 then splitLoop fuel r.2 i else splitLoop fuel r.2 (i + 1)
    else .ok ret

/-- The loop `while ((space = s.find(' ', pos)) != npos)` of `tokenize`, followed by the
handling of `lastWord`. -/
def spaceLoop (s : Str) : Nat → Nat → List Str → Except Fault (List Str)
  | fuel, pos, ret =>
    match find s ' ' pos with
    | some space =>
      match fuel with
      | 0 => .error .outOfFuel
      | fuel + 1 => do
        let word ← substr s pos (space - pos)
        let ret := if word ≠ [] then ret ++ [word] else ret
        spaceLoop s fuel (space + 1) ret
    | none => do
      let lastWord ← substr s pos (s.length - pos)
      return (if lastWord ≠ [] then ret ++ [lastWord] else ret)

/-- The function `tokenize(s)`. The space loop runs at most once per character and the split
loop at most twice per character, which is the fuel they are given. -/
def tokenize (s : Str) : Except Fault (List Str) := do
  let ret ← spaceLoop s s.length 0 []
  splitLoop (2 * s.length) ret 0

/-! ## Words of a line, for the statements about `tokenize` -/

/-- The maximal runs of characters of `s` that are not separators, in order: `s` is cut at
every separator and the empty pieces are dropped. -/
def wordsBy (sep : Char → Bool) (s : Str) : List Str :=
  (s.splitOnP sep).filter (fun w => decide (w ≠ []))

/-- The separator of `tokenize`: the space character. -/
def isSpace (c : Char) : Bool := c == ' '

/-! ## The operating system, as far as `getCommands` uses it -/

/-- The access mode given to `open`. -/
inductive AccessMode where
  | rdonly
  | wronly
  | rdwr
deriving DecidableEq, Repr

/-- The flags given to `open`: the access mode, `O_CREAT` and `O_TRUNC`. -/
structure OpenFlags where
  access : AccessMode
  creat : Bool
  trunc : Bool
deriving DecidableEq, Repr

/-- What the process does to the outside world, in the order in which it does it. -/
inductive Event where
  | opened (path : Str) (flags : OpenFlags) (mode : Option Nat) (result : Int)
  | piped (readEnd writeEnd : Int)
  | pipeFailed
  | closed (fd : Int)
  | perror (what : Str)
  | cout (text : Str)
deriving DecidableEq, Repr

/-- The descriptor table of the shell process and the record of what it has done so far. -/
structure OS where
  openFds : List Nat
  log : List Event
deriving DecidableEq, Repr

/-- The system as the process meets it: whether an `open` of a path with given flags succeeds,
and whether a call of `pipe` succeeds. The answers may depend on what the process has done
before (a file created by an earlier `open` exists afterwards). The pair `unsetFds` is what the
local array `int fds[2]` of `getCommands`, which has no initial value, holds when a `pipe` that
fails leaves it as it is. -/
structure Env where
  canOpen : List Event → Str → OpenFlags → Bool
  canPipe : List Event → Bool
  unsetFds : Int × Int

/-- Search for the lowest descriptor number that is not in use, starting at `n`. -/
def lowestFreeFrom (fds : List Nat) : Nat → Nat → Nat
  | 0, n => n
  | fuel + 1, n => if n ∈ fds then lowestFreeFrom fds fuel (n + 1) else n

/-- The descriptor handed out next: POSIX gives the lowest number that is not open. -/
def lowestFree (fds : List Nat) : Nat := lowestFreeFrom fds fds.length 0

/-- The call `open(path, flags, mode)`: the returned descriptor, or `-1`. -/
def sysOpen (env : Env) (path : Str) (flags : OpenFlags) (mode : Option Nat) (os : OS) :
    Int × OS :=
  if env.canOpen os.log path flags then
    let fd := lowestFree os.openFds
    ((fd : Int), { openFds := fd :: os.openFds,
                   log := os.log ++ [Event.opened path flags mode (fd : Int)] })
  else
    (-1, { os with log := os.log ++ [Event.opened path flags mode (-1)] })

/-- The call `pipe(fds)` together with the two reads `fds[0]` and `fds[1]` that follow it in
`getCommands`. When the call succeeds these are the read end and the write end of the new pipe.
When it fails it returns `-1` and opens nothing; the source does not look at the return code
and reads the array all the same, which then holds `unsetFds`. -/
def sysPipe (env : Env) (os : OS) : (Int × Int) × OS :=
  if env.canPipe os.log then
    let r := lowestFree os.openFds
    let w := lowestFree (r :: os.openFds)
    (((r : Int), (w : Int)),
     { openFds := w :: r :: os.openFds, log := os.log ++ [Event.piped (r : Int) (w : Int)] })
  else
    (env.unsetFds, { os with log := os.log ++ [Event.pipeFailed] })

/-- The call `close(fd)`; closing a number that is not open changes nothing in the table. -/
def sysClose (fd : Int) (os : OS) : OS :=
  { openFds := os.openFds.filter (fun n => decide ((n : Int) ≠ fd)),
    log := os.log ++ [Event.closed fd] }

/-- The call `perror(what)`. -/
def sysPerror (what : Str) (os : OS) : OS :=
  { os with log := os.log ++ [Event.perror what] }

/-- Output sent to `std::cout`. -/
def sysCout (text : Str) (os : OS) : OS :=
  { os with log := os.log ++ [Event.cout text] }

/-! ## Commands -/

/-- The struct `Command`; an entry of `argv` is a string or the null pointer (`none`). -/
structure Command where
  execName : Str
  argv : List (Option Str)
  inputFd : Int
  outputFd : Int
  background : Bool
deriving DecidableEq, Repr

/-- The token `"&"`. -/
def amp : Str := ['&']
/-- The token `"<"`. -/
def lt : Str := ['<']
/-- The token `">"`. -/
def gt : Str := ['>']
/-- The token `"|"`. -/
def bar : Str := ['|']

/-- The flags `O_RDWR` of the input redirection. -/
def inputFlags : OpenFlags := { access := .rdwr, creat := false, trunc := false }
/-- The flags `O_CREAT | O_RDWR | O_TRUNC` of the output redirection. -/
def outputFlags : OpenFlags := { access := .rdwr, creat := true, trunc := true }

/-- The expression `find(tokens.begin() + first, tokens.end(), "|") - tokens.begin()`. -/
def findBar (tokens : List Str) (first : Nat) : Nat :=
  first + (tokens.drop first).findIdx (fun t => decide (t = bar))

/-- The loop `for (int j = first + 1; j < last; ++j)` of `getCommands`, from index `j` on, for
the Command `command` (a reference to `commands[cmdNumber]` in the source) and the flag
`error`. A `break` ends the loop with the flag set. -/
def argLoop (env : Env) (tokens : List Str) (cmdNumber size last : Nat) :
    Nat → Nat → Command → Bool → OS → Except Fault (Command × Bool) × OS
  | fuel, j, command, error, os =>
    if j < last then
      match fuel with
      | 0 => (.error .outOfFuel, os)
      | fuel + 1 =>
        match getAt tokens j with
        | .error f => (.error f, os)
        | .ok tj =>
          if tj = gt ∨ tj = lt then
            if cmdNumber = 0 ∧ tj = lt then
              match getAt tokens (j + 1) with
              | .error f => (.error f, os)
              | .ok file =>
                let r := sysOpen env file inputFlags none os
                if r.1 < 0 then
                  (.error (.exited 2), sysPerror "open".toList r.2)
                else
                  argLoop env tokens cmdNumber size last fuel (j + 1 + 1)
                    { command with inputFd := r.1 } error r.2
            else if cmdNumber = size - 1 ∧ tj = gt then
              match getAt tokens (j + 1) with
              | .error f => (.error f, os)
              | .ok file =>
                let r := sysOpen env file outputFlags (some 0o666) os
                if r.1 < 0 then
                  (.error (.exited 3), sysPerror "open".toList r.2)
                else
                  argLoop env tokens cmdNumber size last fuel (j + 1 + 1)
                    { command with outputFd := r.1 } error r.2
            else
              (.ok (command, true), sysCout "\ni/o redirection error\n".toList os)
          else if tj = amp then
            argLoop env tokens cmdNumber size last fuel (j + 1)
              { command with background := true } error os
          else
            argLoop env tokens cmdNumber size last fuel (j + 1)
              { command with argv := command.argv ++ [some tj] } error os
    else (.ok (command, error), os)

/-- The variables of `getCommands` that live across iterations of its outer loop. -/
structure Locals where
  commands : List Command
  first : Nat
  last : Nat
  error : Bool
deriving DecidableEq, Repr

/-- Apply `f` to `v[i]` in place. -/
def modifyAt {α : Type} (v : List α) (i : Nat) (f : α → α) : List α :=
  match v[i]? with
  | some a => v.set i (f a)
  | none => v

/-- The pipe wiring of `getCommands` for stage `cmdNumber`. -/
def wirePipe (env : Env) (cmdNumber : Nat) (commands : List Command) (os : OS) :
    List Command × OS :=
  if cmdNumber > 0 then
    let p := sysPipe env os
    let commands := modifyAt commands cmdNumber (fun c => { c with inputFd := p.1.1 })
    let commands := modifyAt commands (cmdNumber - 1) (fun c => { c with outputFd := p.1.2 })
    (commands, p.2)
  else (commands, os)

/-- The loop `for (int cmdNumber = 0; cmdNumber < commands.size(); ++cmdNumber)` of
`getCommands`, from `cmdNumber` on. The `break` on a leading metacharacter leaves the loop; an
error inside the argument loop does not, and leaves `first` and `last` where they are. -/
def stageLoop (env : Env) (tokens : List Str) :
    Nat → Nat → Locals → OS → Except Fault Locals × OS
  | fuel, cmdNumber, st, os =>
    if cmdNumber < st.commands.length then
      match fuel with
      | 0 => (.error .outOfFuel, os)
      | fuel + 1 =>
        match getAt tokens st.first with
        | .error f => (.error f, os)
        | .ok token =>
          if token = amp ∨ token = lt ∨ token = gt ∨ token = bar then
            (.ok { st with error := true }, os)
          else
            match getAt st.commands cmdNumber with
            | .error f => (.error f, os)
            | .ok command =>
              let command : Command :=
                { execName := token, argv := command.argv ++ [some token],
                  inputFd := 0, outputFd := 1, background := false }
              match argLoop env tokens cmdNumber st.commands.length st.last
                  st.last (st.first + 1) command st.error os with
              | (.error f, os) => (.error f, os)
              | (.ok (command, error), os) =>
                let commands := st.commands.set cmdNumber command
                if !error then
                  let w := wirePipe env cmdNumber commands os
                  let commands := modifyAt w.1 cmdNumber
                    (fun c => { c with argv := c.argv ++ [none] })
                  let first := st.last + 1
                  let last := if first < tokens.length then findBar tokens first else st.last
                  stageLoop env tokens fuel (cmdNumber + 1)
                    { commands := commands, first := first, last := last, error := error } w.2
                else
                  stageLoop env tokens fuel (cmdNumber + 1)
                    { st with commands := commands, error := error } os
    else (.ok st, os)

/-- The error clause of `getCommands`: close what the Commands hold. -/
def closeAll : List Command → OS → OS
  | [], os => os
  | brokenCommand :: rest, os =>
    let os := if brokenCommand.inputFd ≠ 0 then sysClose brokenCommand.inputFd os else os
    let os := if brokenCommand.outputFd ≠ 1 then sysClose brokenCommand.outputFd os else os
    closeAll rest os

/-- The function `getCommands(tokens)`. The header `shelpers.h` that declares `Command` is not
part of the sources, so the value `blank` of a Command that `vector<Command>(n)` creates is a
parameter. -/
def getCommands (env : Env) (blank : Command) (tokens : List Str) (os : OS) :
    Except Fault (List Command) × OS :=
  let commands := List.replicate (tokens.count bar + 1) blank
  let first := 0
  let last := findBar tokens 0
  match stageLoop env tokens commands.length 0
      { commands := commands, first := first, last := last, error := false } os with
  | (.error f, os) => (.error f, os)
  | (.ok st, os) =>
    if st.error then
      let os := sysCout "hit the error clause\n".toList os
      (.ok [], closeAll st.commands os)
    else (.ok st.commands, os)

/-- The two calls of the read loop of `main`: `getCommands(tokenize(request))`. -/
def parseLine (env : Env) (blank : Command) (request : Str) (os : OS) :
    Except Fault (List Command) × OS :=
  match tokenize request with
  | .error f => (.error f, os)
  | .ok tokens => getCommands env blank tokens os

/-! ## The argument loop seen on the list of a stage's tokens -/

/-- The argument loop of `getCommands` on the tokens `g` of a stage that are still to be read,
followed in the token sequence by `post`. With `skip` set the first token of `g` has been taken
as a filename and is stepped over. The lemma `argLoop_eq_scan` states that `argLoop` computes
this. -/
def scan (env : Env) (cmdNumber size : Nat) (post : List Str) :
    List Str → Bool → Command → Bool → OS → Except Fault (Command × Bool) × OS
  | [], _, command, error, os => (.ok (command, error), os)
  | _ :: rest, true, command, error, os => scan env cmdNumber size post rest false command error os
  | tj :: rest, false, command, error, os =>
    if tj = gt ∨ tj = lt then
      if cmdNumber = 0 ∧ tj = lt then
        match (rest ++ post).head? with
        | none => (.error .outOfBounds, os)
        | some file =>
          let r := sysOpen env file inputFlags none os
          if r.1 < 0 then
            (.error (.exited 2), sysPerror "open".toList r.2)
          else
            scan env cmdNumber size post rest true { command with inputFd := r.1 } error r.2
      else if cmdNumber = size - 1 ∧ tj = gt then
        match (rest ++ post).head? with
        | none => (.error .outOfBounds, os)
        | some file =>
          let r := sysOpen env file outputFlags (some 0o666) os
          if r.1 < 0 then
            (.error (.exited 3), sysPerror "open".toList r.2)
          else
            scan env cmdNumber size post rest true { command with outputFd := r.1 } error r.2
      else
        (.ok (command, true), sysCout "\ni/o redirection error\n".toList os)
    else if tj = amp then
      scan env cmdNumber size post rest false { command with background := true } error os
    else
      scan env cmdNumber size post rest false
        { command with argv := command.argv ++ [some tj] } error os

/-! ## Reading the record of a run -/

/-- The events that a run from `os` to `os'` has added to the record. -/
def trace (os os' : OS) : List Event := os'.log.drop os.log.length

/-- An `open` that returned a negative value. -/
def isFailedOpen : Event → Bool
  | .opened _ _ _ r => decide (r < 0)
  | _ => false

/-- A call of `close`. -/
def isClose : Event → Bool
  | .closed _ => true
  | _ => false

/-- The ends of the pipes created, in order of creation. -/
def pipesOf : List Event → List (Int × Int)
  | [] => []
  | .piped r w :: es => (r, w) :: pipesOf es
  | _ :: es => pipesOf es

/-- The descriptors returned by the calls of `open` that succeeded. -/
def fileFds : List Event → List Int
  | [] => []
  | .opened _ _ _ r :: es => if r < 0 then fileFds es else r :: fileFds es
  | _ :: es => fileFds es

/-- The shape of the record `es` of a run with result `r`: nothing is closed; a failed `open`
occurs only as the last call before `perror` and `exit`, with status 2 for the input flags and
3 for the output flags. -/
def TraceOK {α : Type} (r : Except Fault α) (es : List Event) : Prop :=
  (∀ e ∈ es, isClose e = false) ∧
  match r with
  | .error (.exited c) => ∃ es0 path flags mode,
      es = es0 ++ [Event.opened path flags mode (-1), Event.perror "open".toList] ∧
      (∀ e ∈ es0, isFailedOpen e = false) ∧
      ((c = 2 ∧ flags = inputFlags) ∨ (c = 3 ∧ flags = outputFlags))
  | _ => ∀ e ∈ es, isFailedOpen e = false

/-! ## Stages of a token sequence -/

/-- The `|`-separated groups of a token sequence, in order. A sequence with `k` bars has
`k + 1` groups; a group may be empty. -/
def groups : List Str → List (List Str)
  | [] => [[]]
  | t :: ts =>
    if t = bar then [] :: groups ts
    else
      match groups ts with
      | g :: gs => (t :: g) :: gs
      | [] => [[t]]

/-- The token sequence whose groups are `gs`: the groups with a bar between neighbours. -/
def joinGroups : List (List Str) → List Str
  | [] => []
  | [g] => g
  | g :: g' :: gs => g ++ bar :: joinGroups (g' :: gs)

/-- The arguments that the argument loop appends to `argv` when it reads the tokens `g`. -/
def scanArgs : List Str → Bool → List Str
  | [], _ => []
  | _ :: rest, true => scanArgs rest false
  | tj :: rest, false =>
    if tj = gt ∨ tj = lt then scanArgs rest true
    else if tj = amp then scanArgs rest false
    else tj :: scanArgs rest false

/-- Whether the argument loop sets `background` when it reads the tokens `g`. -/
def scanBg : List Str → Bool → Bool
  | [], _ => false
  | _ :: rest, true => scanBg rest false
  | tj :: rest, false =>
    if tj = gt ∨ tj = lt then scanBg rest true
    else if tj = amp then true
    else scanBg rest false

/-- The tokens after `prev` that are neither one of `&`, `<`, `>` nor directly after a `<` or
`>`. -/
def specArgsFrom : Str → List Str → List Str
  | _, [] => []
  | prev, t :: ts =>
    if t = amp ∨ t = lt ∨ t = gt ∨ prev = lt ∨ prev = gt then specArgsFrom t ts
    else t :: specArgsFrom t ts

/-- The tokens of a group, after its first, that are neither a metacharacter `&`, `<`, `>` nor
the filename operand directly after a `<` or `>`. -/
def specArgs : List Str → List Str
  | [] => []
  | t :: ts => specArgsFrom t ts

/-- Every `<` and every `>` of the sequence is directly followed by a token that is none of
`&`, `<`, `>`, `|`. -/
def operandsOk : List Str → Bool
  | [] => true
  | [t] => !decide (t = lt ∨ t = gt)
  | t :: f :: ts =>
    (if t = lt ∨ t = gt then !decide (f = amp ∨ f = lt ∨ f = gt ∨ f = bar) else true) &&
      operandsOk (f :: ts)

/-- What `argv`, `execName` and `background` of a Command must be for the group `g`, according
to the reading of the argument loop. -/
def CoreRel (cmd : Command) (g : List Str) : Prop :=
  ∃ t args, g = t :: args ∧ ¬ (t = amp ∨ t = lt ∨ t = gt ∨ t = bar) ∧ cmd.execName = t ∧
    cmd.argv = some t :: (scanArgs args false).map some ++ [none] ∧
    cmd.background = scanBg args false

/-! ## Placement of redirections -/

/-- The outer loop stops without accepting: it ends with the error flag set, or the process
has exited with status 2 or 3 after an `open` that the file system refused. -/
def Rejects (env : Env) (r : Except Fault Locals × OS) : Prop :=
  (∃ st, r.1 = .ok st ∧ st.error = true) ∨
    ((r.1 = .error (.exited 2) ∨ r.1 = .error (.exited 3)) ∧
      ∃ log path flags, env.canOpen log path flags = false)

/-- The two ends of every pipe of a list. -/
def pipeEnds (ps : List (Int × Int)) : List Int := ps.flatMap (fun p => [p.1, p.2])

/-- A run from `os` to `os'` with record `es` that closes nothing: the table only grows, every
descriptor it was given is open at the end and was not open at the start, and no descriptor
returned by `open` is an end of a pipe. -/
def Alloc (os : OS) (es : List Event) (os' : OS) : Prop :=
  os'.log = os.log ++ es ∧
  (∀ n ∈ os.openFds, n ∈ os'.openFds) ∧
  (∀ x ∈ fileFds es ++ pipeEnds (pipesOf es),
    ∃ n : Nat, (n : Int) = x ∧ n ∈ os'.openFds ∧ n ∉ os.openFds) ∧
  (∀ x ∈ fileFds es, x ∉ pipeEnds (pipesOf es))

/-- The pipe `p` joins the Commands at positions `i - 1` and `i`: its write end is the output of
the first and its read end is the input of the second. -/
def Wired (cmds : List Command) (p : Int × Int) (i : Nat) : Prop :=
  ∃ a b, cmds[i - 1]? = some a ∧ cmds[i]? = some b ∧ a.outputFd = p.2 ∧ b.inputFd = p.1

/-! ## Stages that begin with a metacharacter -/

/-- A call of `fork` or of `waitpid` made by the shell process, with the value it returned;
`nohang` tells whether the option of `waitpid` was `WNOHANG`. -/
inductive ProcCall where
  | forked (result : Int)
  | waited (pid : Int) (nohang : Bool) (result : Int)
deriving DecidableEq, Repr

/-- The shell process as `main` runs it: its descriptors and output, and the calls of `fork`
and `waitpid` it has made so far. -/
structure Proc where
  os : OS
  calls : List ProcCall
deriving DecidableEq, Repr

/-- The kernel as the shell process meets it: what `fork` and `waitpid(pid, &status, options)`
return. The answers may depend on the calls made before. -/
structure Kernel where
  fork : List ProcCall → Int
  waitpid : List ProcCall → Int → Bool → Int

/-- The call `fork()`, seen from the process that makes it. -/
def sysFork (k : Kernel) (p : Proc) : Int × Proc :=
  let r := k.fork p.calls
  (r, { p with calls := p.calls ++ [ProcCall.forked r] })

/-- The call `waitpid(pid, &status, options)`. A blocking call is taken to return. -/
def sysWaitpid (k : Kernel) (pid : Int) (nohang : Bool) (p : Proc) : Int × Proc :=
  let r := k.waitpid p.calls pid nohang
  (r, { p with calls := p.calls ++ [ProcCall.waited pid nohang r] })

/-- The decimal text that `operator<<` writes for an `int`. -/
def showInt (n : Int) : Str :=
  if n < 0 then '-' :: Nat.toDigits 10 n.natAbs else Nat.toDigits 10 n.toNat

/-- The function `cleanUp(commands)` of `main.cpp`. -/
def cleanUp : List Command → OS → OS
  | [], os => os
  | command :: rest, os =>
    let os := if command.inputFd ≠ 0 then sysClose command.inputFd os else os
    let os := if command.outputFd ≠ 1 then sysClose command.outputFd os else os
    cleanUp rest os

/-- The loop of `checkBackgroundCommands`, from index `i` on, on the function's own vector
`backgroundCommands`. The process identifier given to `waitpid` is the loop index `i`; after an
`erase` the index is still incremented. The result is the vector as the loop leaves it. -/
def pollLoop (k : Kernel) : Nat → Nat → List Int → Proc → Except Fault (List Int) × Proc
  | fuel, i, backgroundCommands, p =>
    if i < backgroundCommands.length then
      match fuel with
      | 0 => (.error .outOfFuel, p)
      | fuel + 1 =>
        let w := sysWaitpid k (i : Int) true p
        if w.1 > 0 then
          match getAt backgroundCommands i with
          | .error f => (.error f, w.2)
          | .ok pid =>
            let os := sysCout
              ("Background process ".toList ++ showInt pid ++ " completed.\n".toList) w.2.os
            pollLoop k fuel (i + 1) (backgroundCommands.eraseIdx i) { w.2 with os := os }
        else pollLoop k fuel (i + 1) backgroundCommands w.2
    else (.ok backgroundCommands, p)

/-- The function `checkBackgroundCommands(backgroundCommands)`. Its parameter is a vector passed
by value: the loop works on the function's own copy, which is gone when the function returns. -/
def checkBackgroundCommands (k : Kernel) (backgroundCommands : List Int) (p : Proc) :
    Except Fault Unit × Proc :=
  match pollLoop k backgroundCommands.length 0 backgroundCommands p with
  | (.error f, p) => (.error f, p)
  | (.ok _, p) => (.ok (), p)

/-- The shell process together with the vector `backgroundCommands` of `main`. -/
structure MainState where
  proc : Proc
  backgroundCommands : List Int
deriving DecidableEq, Repr

/-- The statement `checkBackgroundCommands(backgroundCommands);` of the read loop of `main`. -/
def pollBackground (k : Kernel) (m : MainState) : Except Fault Unit × MainState :=
  match checkBackgroundCommands k m.backgroundCommands m.proc with
  | (r, p) => (r, { m with proc := p })

/-- How the loop over the commands of a line ends early: the process calls `exit(code)`, or
`fork` has returned 0 and the process is the child created for `command`, which goes on to
`dup2` and `execvp` and does not come back to the loop. -/
inductive Stop where
  | exited (code : Nat)
  | child (command : Command)
deriving DecidableEq, Repr

/-- The loop `for (Command command : commands)` of `main`, on the commands `rest` that are still
to be run; `commands` is the whole vector, which `cleanUp` is given when `fork` fails. -/
def commandLoop (k : Kernel) (commands : List Command) :
    List Command → MainState → Except Stop Unit × MainState
  | [], m => (.ok (), m)
  | command :: rest, m =>
    let f := sysFork k m.proc
    let c_pid := f.1
    if c_pid = -1 then
      (.error (.exited 1),
        { m with proc := { f.2 with os := cleanUp commands (sysPerror "fork".toList f.2.os) } })
    else if c_pid = 0 then
      (.error (.child command), { m with proc := f.2 })
    else if command.background then
      let os := sysCout
        ("Started background process ".toList ++ showInt c_pid ++ "\n".toList) f.2.os
      commandLoop k commands rest
        { proc := { f.2 with os := os }, backgroundCommands := m.backgroundCommands ++ [c_pid] }
    else
      let w := sysWaitpid k c_pid false f.2
      let os := if command.inputFd ≠ 0 then sysClose command.inputFd w.2.os else w.2.os
      let os := if command.outputFd ≠ 1 then sysClose command.outputFd os else os
      commandLoop k commands rest { m with proc := { w.2 with os := os } }

/-- The calls of `close` that the loop over the commands makes when every `fork` gives a child:
those for the descriptors of the commands that are not marked background. -/
def foregroundCloses : List Command → List Event
  | [] => []
  | command :: rest =>
    (if command.background then []
      else (if command.inputFd ≠ 0 then [Event.closed command.inputFd] else []) ++
        (if command.outputFd ≠ 1 then [Event.closed command.outputFd] else [])) ++
      foregroundCloses rest

/-- No descriptor that a Command of the list holds, other than the standard input as `inputFd`
and the standard output as `outputFd`, is open in the process. -/
def Released (commands : List Command) (os : OS) : Prop :=
  ∀ cmd ∈ commands,
    (cmd.inputFd ≠ 0 → ∀ n ∈ os.openFds, (n : Int) ≠ cmd.inputFd) ∧
    (cmd.outputFd ≠ 1 → ∀ n ∈ os.openFds, (n : Int) ≠ cmd.outputFd)

/-- An event that, if it is a call of `open`, is the one that `getCommands` makes for a `<` or
a `>` of the token sequence: the path is the token after the operator, and the flags and the
mode are those of the operator. -/
def OpenedFor (tokens : List Str) : Event → Prop
  | .opened path flags mode _ =>
    ∃ j, tokens[j + 1]? = some path ∧
      ((tokens[j]? = some lt ∧ flags = inputFlags ∧ mode = none) ∨
        (tokens[j]? = some gt ∧ flags = outputFlags ∧ mode = some 0o666))
  | _ => True

/-- The path, the flags and the mode of every call of `open` of a record, in order. -/
def opensOf : List Event → List (Str × OpenFlags × Option Nat)
  | [] => []
  | .opened path flags mode _ :: es => (path, flags, mode) :: opensOf es
  | _ :: es => opensOf es

/-- The calls of `open` that the redirections among the tokens `g` of a stage ask for, `post`
being what follows the stage in the token sequence: for every `<` operator the token after it
with the flags `O_RDWR` and no mode, and for every `>` operator the token after it with the
flags `O_CREAT | O_RDWR | O_TRUNC` and the mode `0666`. With `skip` set the first token of `g`
is the filename of the operator before it and not an operator. -/
def redirections (post : List Str) : List Str → Bool → List (Str × OpenFlags × Option Nat)
  | [], _ => []
  | _ :: rest, true => redirections post rest false
  | tj :: rest, false =>
    if tj = lt then
      match (rest ++ post).head? with
      | some file =>
        (file, { access := AccessMode.rdwr, creat := false, trunc := false }, none) ::
          redirections post rest true
      | none => []
    else if tj = gt then
      match (rest ++ post).head? with
      | some file =>
        (file, { access := AccessMode.rdwr, creat := true, trunc := true }, some 0o666) ::
          redirections post rest true
      | none => []
    else redirections post rest false

/-- The calls of `open` that the redirections of the groups of a token sequence ask for, stage
by stage; a group that is not the last is followed by a bar. -/
def expectedOpens : List (List Str) → List (Str × OpenFlags × Option Nat)
  | [] => []
  | [g] => redirections [] g.tail false
  | g :: g' :: gs => redirections [bar] g.tail false ++ expectedOpens (g' :: gs)

/-! ## Sample worlds, for evaluating the code on concrete lines -/

/-- A file system in which every `open` succeeds. -/
def everyOpenSucceeds : Env :=
  { canOpen := fun _ _ _ => true, canPipe := fun _ => true, unsetFds := (0, 0) }

/-- A file system in which every `open` succeeds except that of the path `nofile`. -/
def noSuchFile : Env :=
  { canOpen := fun _ path _ => decide (path ≠ "nofile".toList), canPipe := fun _ => true,
    unsetFds := (0, 0) }

/-- A system in which every `open` succeeds and every `pipe` fails, with 7 and 8 in the array
`fds` of `getCommands`. -/
def pipeFails : Env :=
  { canOpen := fun _ _ _ => true, canPipe := fun _ => false, unsetFds := (7, 8) }

/-- A Command as `vector<Command>(n)` creates it when the struct has no constructor and no
default member initialisers: every member is value-initialised. -/
def valueInitialized : Command :=
  { execName := [], argv := [], inputFd := 0, outputFd := 0, background := false }

/-- A shell process that has its three standard descriptors open and has done nothing yet. -/
def freshShell : OS := { openFds := [0, 1, 2], log := [] }

/-- A file system with the file `ro.txt`, which may be read but not written: an `open` of it
succeeds exactly when the access mode is `O_RDONLY`. Every other `open` succeeds. -/
def readOnlyFile : Env :=
  { canOpen := fun _ path flags =>
      decide (path ≠ "ro.txt".toList ∨ flags.access = AccessMode.rdonly),
    canPipe := fun _ => true, unsetFds := (0, 0) }

/-- A file system that holds no file at the start: an `open` with `O_CREAT` succeeds, and an
`open` without it succeeds exactly when an earlier `open` of the process has created the
path. -/
def emptyDirectory : Env :=
  { canOpen := fun log path flags =>
      flags.creat || log.any (fun e =>
        match e with
        | .opened p fl _ r => decide (p = path) && fl.creat && decide (0 ≤ r)
        | _ => false),
    canPipe := fun _ => true, unsetFds := (0, 0) }

/-- A kernel in which every `fork` gives the child 100 and every `waitpid` returns 100. -/
def everyForkSucceeds : Kernel := { fork := fun _ => 100, waitpid := fun _ _ _ => 100 }

/-- A kernel in which the first `fork` gives the child 100 and every later `fork` fails. -/
def secondForkFails : Kernel :=
  { fork := fun calls => if calls = [] then 100 else -1, waitpid := fun _ _ _ => 100 }

/-- A kernel in which `waitpid(0, ...)`, which asks for any child of the process group, returns
the terminated child 500, and `waitpid` for any other identifier returns `-1`. -/
def child500Done : Kernel :=
  { fork := fun _ => 100, waitpid := fun _ pid _ => if pid = 0 then 500 else -1 }

/-- The state of `main` with the process `os`, before any call of `fork` or `waitpid` and with
no background process tracked. -/
def mainWith (os : OS) : MainState :=
  { proc := { os := os, calls := [] }, backgroundCommands := [] }

/-- The Command sequence that `getCommands` returns for the line `cat < f &` in a fresh shell:
`f` is open as descriptor 3. -/
def catInBackground : List Command :=
  [{ execName := "cat".toList, argv := [some "cat".toList, none], inputFd := 3, outputFd := 1,
     background := true }]

/-- The Command sequence that `getCommands` returns for the line `a | b` in a fresh shell: the
pipe has the read end 3 and the write end 4. -/
def pipelineAB : List Command :=
  [{ execName := "a".toList, argv := [some "a".toList, none], inputFd := 0, outputFd := 4,
     background := false },
   { execName := "b".toList, argv := [some "b".toList, none], inputFd := 3, outputFd := 1,
     background := false }]

/-! ## Facts about the primitives -/

theorem mem_split_indexOf {α : Type} [DecidableEq α] {c : α} {w : List α} (h : c ∈ w) :
    ∃ a b, w = a ++ c :: b ∧ c ∉ a ∧ w.indexOf c = a.length := by
  obtain ⟨a, b, hw, hc⟩ := List.eq_append_cons_of_mem h
  refine ⟨a, b, hw, hc, ?_⟩
  rw [hw, List.indexOf_append_of_not_mem hc, List.indexOf_cons_self]
  simp

theorem find_of_mem {c : Char} {d : Str} (s : Str) (pos : Nat) (hd : s.drop pos = d)
    (h : c ∈ d) :
    ∃ a b, d = a ++ c :: b ∧ c ∉ a ∧ find s c pos = some (pos + a.length) := by
  obtain ⟨a, b, hw, hc, hi⟩ := mem_split_indexOf h
  refine ⟨a, b, hw, hc, ?_⟩
  have hlt : d.indexOf c < d.length := List.indexOf_lt_length.mpr h
  rw [hi] at hlt
  simp only [find, hd, hi, if_pos hlt]

theorem find_of_not_mem {c : Char} {d : Str} (s : Str) (pos : Nat) (hd : s.drop pos = d)
    (h : c ∉ d) : find s c pos = none := by
  have hlt : ¬ d.indexOf c < d.length := by
    rw [List.indexOf_lt_length]; exact h
  simp only [find, hd, hlt, if_false]

theorem getAt_append {α : Type} (pre : List α) (w : α) (post : List α) :
    getAt (pre ++ w :: post) pre.length = .ok w := by
  have h : (pre ++ w :: post)[pre.length]? = some w := by
    rw [List.getElem?_append_right (le_refl _)]
    simp
  simp only [getAt, h]

theorem insertAt_append {α : Type} (pre : List α) (w x : α) (post : List α) :
    insertAt (pre ++ w :: post) (pre.length + 1) x = .ok (pre ++ w :: x :: post) := by
  have h : (pre ++ w :: post) = (pre ++ [w]) ++ post := by simp
  have hl : pre.length + 1 = (pre ++ [w]).length := by simp
  rw [insertAt, if_pos (by simp)]
  rw [h, hl, List.take_left, List.drop_left]
  simp

theorem insertAt_append_two {α : Type} (pre : List α) (w v x : α) (post : List α) :
    insertAt (pre ++ w :: v :: post) (pre.length + 2) x = .ok (pre ++ w :: v :: x :: post) := by
  have h : (pre ++ w :: v :: post) = (pre ++ [w, v]) ++ post := by simp
  have hl : pre.length + 2 = (pre ++ [w, v]).length := by simp
  rw [insertAt, if_pos (by simp)]
  rw [h, hl, List.take_left, List.drop_left]
  simp

theorem setAt_append {α : Type} (pre : List α) (w y : α) (post : List α) :
    setAt (pre ++ w :: post) pre.length y = .ok (pre ++ y :: post) := by
  rw [setAt, if_pos (by simp)]
  simp

theorem ok_bind {α β : Type} (a : α) (f : α → Except Fault β) :
    (Except.ok a >>= f) = f a := rfl

theorem error_bind {α β : Type} (e : Fault) (f : α → Except Fault β) :
    ((Except.error e : Except Fault α) >>= f) = Except.error e := rfl

theorem pure_eq_ok {α : Type} (a : α) : (pure a : Except Fault α) = Except.ok a := rfl

theorem substr_zero (w : Str) (n : Nat) : substr w 0 n = .ok (w.take n) := by
  simp [substr]

theorem substr_to_end (a b : Str) :
    substr (a ++ b) a.length ((a ++ b).length - a.length) = .ok b := by
  simp [substr]

/-! ## `splitOnSymbol` -/

theorem splitOnSymbol_false (pre : List Str) (w : Str) (post : List Str) (c : Char)
    (h : w.length < 2 ∨ c ∉ w) :
    splitOnSymbol (pre ++ w :: post) pre.length c = .ok (false, pre ++ w :: post) := by
  unfold splitOnSymbol
  rw [getAt_append, ok_bind]
  by_cases h2 : w.length < 2
  · simp only [h2, if_true]; rfl
  · have hc : c ∉ w := h.resolve_left h2
    have hf : find w c 0 = none := find_of_not_mem w 0 rfl hc
    simp only [h2, if_false, hf]; rfl

theorem splitOnSymbol_true (pre : List Str) (w : Str) (post : List Str) (c : Char)
    (h2 : 2 ≤ w.length) (hc : c ∈ w) :
    ∃ parts, splitOnSymbol (pre ++ w :: post) pre.length c = .ok (true, pre ++ parts ++ post) ∧
      parts.flatten = w ∧ 2 ≤ parts.length ∧ ∀ p ∈ parts, p ≠ [] := by
  obtain ⟨a, b, hw, hca, hf⟩ := find_of_mem w 0 (List.drop_zero w) hc
  have h2' : ¬ w.length < 2 := by omega
  unfold splitOnSymbol
  rw [getAt_append, ok_bind]
  simp only [h2', if_false, hf, Nat.zero_add]
  cases a with
  | nil =>
    have hb : b ≠ [] := by
      intro hb; subst hb; subst hw; simp at h2
    refine ⟨[[c], b], ?_, ?_, ?_, ?_⟩
    · have hs : substr w 1 (w.length - 1) = .ok b := by
        have := substr_to_end [c] b
        simpa [hw] using this
      simp only [List.length_nil, if_true, hs, ok_bind, insertAt_append, getAt_append,
        substr_zero, setAt_append, pure_eq_ok]
      simp [hw]
    · simp [hw]
    · simp
    · simp [hb]
  | cons x a =>
    have hs : substr w ((x :: a).length + 1) (w.length - (x :: a).length - 1) = .ok b := by
      have := substr_to_end ((x :: a) ++ [c]) b
      have e : ((x :: a) ++ [c]) ++ b = w := by simp [hw]
      rw [e] at this
      rw [← this]
      simp [Nat.sub_sub]
    have hne : (x :: a).length ≠ 0 := by simp
    have htake : List.take (x :: a).length w = x :: a := by
      rw [hw]; exact List.take_left _ _
    by_cases hb : b = []
    · refine ⟨[x :: a, [c]], ?_, ?_, ?_, ?_⟩
      · simp only [hne, if_false, insertAt_append, ok_bind, getAt_append, hs, hb, ne_eq,
          not_true_eq_false, pure_eq_ok, substr_zero, setAt_append, htake]
        simp
      · simp [hw, hb]
      · simp
      · simp
    · refine ⟨[x :: a, [c], b], ?_, ?_, ?_, ?_⟩
      · simp only [hne, if_false, insertAt_append, ok_bind, getAt_append, hs, hb, ne_eq,
          not_false_eq_true, if_true, pure_eq_ok, substr_zero, setAt_append, htake,
          insertAt_append_two]
        simp
      · simp [hw]
      · simp
      · simp [hb]

/-! ## The split loop of `tokenize` -/

theorem trySymbols_spec (pre : List Str) (w : Str) (post : List Str) (cs : List Char) :
    ((∀ c ∈ cs, w.length < 2 ∨ c ∉ w) ∧
        trySymbols (pre ++ w :: post) pre.length cs = .ok (false, pre ++ w :: post)) ∨
    ((∃ c ∈ cs, c ∈ w) ∧ ∃ parts,
        trySymbols (pre ++ w :: post) pre.length cs = .ok (true, pre ++ parts ++ post) ∧
        parts.flatten = w ∧ 2 ≤ parts.length ∧ ∀ p ∈ parts, p ≠ []) := by
  induction cs with
  | nil => left; exact ⟨by simp, rfl⟩
  | cons c cs ih =>
    by_cases h : w.length < 2 ∨ c ∉ w
    · have hs := splitOnSymbol_false pre w post c h
      rcases ih with ⟨hall, hr⟩ | ⟨⟨d, hd, hdw⟩, parts, hr, hp⟩
      · left
        refine ⟨?_, ?_⟩
        · intro x hx
          rcases List.mem_cons.mp hx with rfl | hx
          · exact h
          · exact hall x hx
        · simp only [trySymbols, hs, ok_bind, hr]
          simp
      · right
        refine ⟨⟨d, List.mem_cons_of_mem _ hd, hdw⟩, parts, ?_, hp⟩
        simp only [trySymbols, hs, ok_bind, hr]
        simp
    · have h2 : 2 ≤ w.length := by
        by_contra hlt; exact h (Or.inl (by omega))
      have hc : c ∈ w := by
        by_contra hn; exact h (Or.inr hn)
      obtain ⟨parts, hs, hp⟩ := splitOnSymbol_true pre w post c h2 hc
      right
      refine ⟨⟨c, List.mem_cons_self _ _, hc⟩, parts, ?_, hp⟩
      simp only [trySymbols, hs, ok_bind]
      simp [pure_eq_ok]

theorem length_le_flatten (l : List Str) (h : ∀ w ∈ l, w ≠ []) : l.length ≤ l.flatten.length := by
  induction l with
  | nil => simp
  | cons w l ih =>
    have hw : w ≠ [] := h w (List.mem_cons_self _ _)
    have hl := ih (fun v hv => h v (List.mem_cons_of_mem _ hv))
    have : 1 ≤ w.length := List.length_pos.mpr hw
    simp only [List.length_cons, List.flatten_cons, List.length_append]
    omega

theorem splitLoop_spec : ∀ (fuel : Nat) (pre suf : List Str), (∀ w ∈ suf, w ≠ []) →
    2 * suf.flatten.length ≤ fuel + suf.length →
    ∃ out, splitLoop fuel (pre ++ suf) pre.length = .ok (pre ++ out) ∧
      out.flatten = suf.flatten ∧
      (∀ t ∈ out, t ≠ [] ∧ (t.length < 2 ∨ ∀ c ∈ symbols, c ∉ t)) ∧
      ((∀ w ∈ suf, ∀ c ∈ symbols, c ∉ w) → out = suf) := by
  intro fuel
  induction fuel with
  | zero =>
    intro pre suf hne hfuel
    have hlen := length_le_flatten suf hne
    cases suf with
    | nil =>
      refine ⟨[], ?_, rfl, by simp, fun _ => rfl⟩
      unfold splitLoop; simp
    | cons w post =>
      have hw : 1 ≤ w.length := List.length_pos.mpr (hne w (List.mem_cons_self _ _))
      simp only [List.length_cons, List.flatten_cons, List.length_append] at hfuel hlen
      omega
  | succ fuel ih =>
    intro pre suf hne hfuel
    cases suf with
    | nil =>
      refine ⟨[], ?_, rfl, by simp, fun _ => rfl⟩
      unfold splitLoop; simp
    | cons w post =>
      have hw : w ≠ [] := hne w (List.mem_cons_self _ _)
      have hw1 : 1 ≤ w.length := List.length_pos.mpr hw
      have hpost : ∀ v ∈ post, v ≠ [] := fun v hv => hne v (List.mem_cons_of_mem _ hv)
      have hlt : pre.length < (pre ++ w :: post).length := by simp
      simp only [List.length_cons, List.flatten_cons, List.length_append] at hfuel
      rcases trySymbols_spec pre w post symbols with ⟨hall, hr⟩ | ⟨⟨d, hd, hdw⟩, parts, hr, hj, hn, hp⟩
      · have hfuel' : 2 * post.flatten.length ≤ fuel + post.length := by omega
        obtain ⟨out, ho, hflat, hgood, hsame⟩ := ih (pre ++ [w]) post hpost hfuel'
        refine ⟨w :: out, ?_, ?_, ?_, ?_⟩
        · unfold splitLoop
          simp only [hlt, if_true, hr, ok_bind]
          have e : pre ++ w :: post = (pre ++ [w]) ++ post := by simp
          have el : pre.length + 1 = (pre ++ [w]).length := by simp
          simp only [Bool.false_eq_true, if_false]
          rw [e, el, ho]; simp
        · simp [hflat]
        · intro t ht
          rcases List.mem_cons.mp ht with rfl | ht
          · refine ⟨hw, ?_⟩
            by_cases h2 : t.length < 2
            · exact Or.inl h2
            · right; intro c hc
              exact (hall c hc).resolve_left h2
          · exact hgood t ht
        · intro hclean
          rw [hsame (fun v hv => hclean v (List.mem_cons_of_mem _ hv))]
      · have hsuf : ∀ v ∈ parts ++ post, v ≠ [] := by
          intro v hv
          rcases List.mem_append.mp hv with hv | hv
          · exact hp v hv
          · exact hpost v hv
        have hfuel' : 2 * (parts ++ post).flatten.length ≤ fuel + (parts ++ post).length := by
          simp only [List.flatten_append, List.length_append, hj]
          omega
        obtain ⟨out, ho, hflat, hgood, _⟩ := ih pre (parts ++ post) hsuf hfuel'
        refine ⟨out, ?_, ?_, hgood, ?_⟩
        · unfold splitLoop
          simp only [hlt, if_true, hr, ok_bind]
          rw [List.append_assoc, ho]
        · simp [hflat, hj]
        · intro hclean
          exact absurd hdw (hclean w (List.mem_cons_self _ _) d hd)

/-! ## Words of a line -/

theorem splitOnP_flatten (p : Char → Bool) (s : Str) :
    (s.splitOnP p).flatten = s.filter (fun c => !p c) := by
  induction s with
  | nil => simp [List.splitOnP_nil]
  | cons x xs ih =>
    rw [List.splitOnP_cons]
    by_cases hx : p x = true
    · simp [hx, ih]
    · have hne := List.splitOnP_ne_nil p xs
      cases hsp : List.splitOnP p xs with
      | nil => exact absurd hsp hne
      | cons h t =>
        rw [hsp] at ih
        simp only [hx, if_false, List.modifyHead_cons, List.flatten_cons, Bool.false_eq_true]
        simp only [List.flatten_cons] at ih
        simp [hx, ← ih]

theorem splitOnP_mem (p : Char → Bool) (s : Str) :
    ∀ w ∈ s.splitOnP p, ∀ c ∈ w, p c = false ∧ c ∈ s := by
  induction s with
  | nil => simp [List.splitOnP_nil]
  | cons x xs ih =>
    rw [List.splitOnP_cons]
    by_cases hx : p x = true
    · simp only [hx, if_true]
      intro w hw c hc
      rcases List.mem_cons.mp hw with rfl | hw
      · simp at hc
      · exact ⟨(ih w hw c hc).1, List.mem_cons_of_mem _ (ih w hw c hc).2⟩
    · have hne := List.splitOnP_ne_nil p xs
      cases hsp : List.splitOnP p xs with
      | nil => exact absurd hsp hne
      | cons h t =>
        rw [hsp] at ih
        simp only [hx, if_false, List.modifyHead_cons, Bool.false_eq_true]
        intro w hw c hc
        rcases List.mem_cons.mp hw with rfl | hw
        · rcases List.mem_cons.mp hc with rfl | hc
          · exact ⟨by simpa using hx, List.mem_cons_self _ _⟩
          · have := ih h (List.mem_cons_self _ _) c hc
            exact ⟨this.1, List.mem_cons_of_mem _ this.2⟩
        · have := ih w (List.mem_cons_of_mem _ hw) c hc
          exact ⟨this.1, List.mem_cons_of_mem _ this.2⟩

theorem flatten_filter_ne_nil (l : List Str) :
    (l.filter (fun w => decide (w ≠ []))).flatten = l.flatten := by
  induction l with
  | nil => rfl
  | cons w l ih =>
    by_cases hw : w = []
    · rw [List.filter_cons_of_neg (by simp [hw]), ih, hw]; simp
    · rw [List.filter_cons_of_pos (by simp [hw]), List.flatten_cons, ih, List.flatten_cons]

theorem wordsBy_flatten (p : Char → Bool) (s : Str) :
    (wordsBy p s).flatten = s.filter (fun c => !p c) := by
  rw [wordsBy, flatten_filter_ne_nil, splitOnP_flatten]

theorem wordsBy_mem (p : Char → Bool) (s : Str) :
    ∀ w ∈ wordsBy p s, w ≠ [] ∧ ∀ c ∈ w, p c = false ∧ c ∈ s := by
  intro w hw
  rw [wordsBy, List.mem_filter] at hw
  exact ⟨by simpa using hw.2, splitOnP_mem p s w hw.1⟩

theorem wordsBy_sep (p : Char → Bool) (a b : Str) (x : Char) (ha : ∀ c ∈ a, ¬ p c = true)
    (hx : p x = true) :
    wordsBy p (a ++ x :: b) = (if a ≠ [] then [a] else []) ++ wordsBy p b := by
  rw [wordsBy, List.splitOnP_first p a ha x hx b]
  by_cases h : a = []
  · simp [h, wordsBy]
  · simp [h, wordsBy]

theorem wordsBy_single (p : Char → Bool) (a : Str) (ha : ∀ c ∈ a, ¬ p c = true) :
    wordsBy p a = if a ≠ [] then [a] else [] := by
  rw [wordsBy, List.splitOnP_eq_single p a ha]
  by_cases h : a = []
  · simp [h]
  · simp [h]

/-! ## The space loop of `tokenize` -/

theorem spaceLoop_spec (s : Str) : ∀ (fuel pos : Nat) (ret : List Str), pos ≤ s.length →
    s.length ≤ fuel + pos →
    spaceLoop s fuel pos ret = .ok (ret ++ wordsBy isSpace (s.drop pos)) := by
  intro fuel
  induction fuel with
  | zero =>
    intro pos ret hpos hfuel
    have hd : s.drop pos = [] := List.drop_eq_nil_of_le (by omega)
    have hf : find s ' ' pos = none := find_of_not_mem s pos hd (by simp)
    have hs : substr s pos (s.length - pos) = .ok [] := by
      simp [substr, hpos, hd]
    unfold spaceLoop
    simp only [hf, hs, ok_bind, hd]
    simp [wordsBy, pure_eq_ok, List.splitOnP_nil]
  | succ fuel ih =>
    intro pos ret hpos hfuel
    by_cases hmem : ' ' ∈ s.drop pos
    · obtain ⟨a, b, hd, ha, hf⟩ := find_of_mem s pos rfl hmem
      have hlen : (s.drop pos).length = a.length + (b.length + 1) := by
        rw [hd]; simp
      rw [List.length_drop] at hlen
      have hs : substr s pos (pos + a.length - pos) = .ok a := by
        simp [substr, hpos, hd]
      have hdrop : s.drop (pos + a.length + 1) = b := by
        have : s.drop (pos + a.length + 1) = (s.drop pos).drop (a.length + 1) := by
          rw [List.drop_drop, Nat.add_assoc]
        rw [this, hd]
        have e : a ++ ' ' :: b = (a ++ [' ']) ++ b := by simp
        have el : a.length + 1 = (a ++ [' ']).length := by simp
        rw [e, el, List.drop_left]
      have hrec := ih (pos + a.length + 1) (if a ≠ [] then ret ++ [a] else ret)
        (by omega) (by omega)
      have hsep : ∀ c ∈ a, ¬ isSpace c = true := by
        intro c hc hsp
        have : c = ' ' := by simpa [isSpace] using hsp
        exact ha (this ▸ hc)
      unfold spaceLoop
      simp only [hf, hs, ok_bind, hrec, hdrop, hd]
      rw [wordsBy_sep isSpace a b ' ' hsep (by simp [isSpace])]
      by_cases hne : a = []
      · simp [hne]
      · simp [hne]
    · have hf : find s ' ' pos = none := find_of_not_mem s pos rfl hmem
      have hs : substr s pos (s.length - pos) = .ok (s.drop pos) := by
        simp [substr, hpos]
      have hsep : ∀ c ∈ s.drop pos, ¬ isSpace c = true := by
        intro c hc hsp
        have : c = ' ' := by simpa [isSpace] using hsp
        exact hmem (this ▸ hc)
      unfold spaceLoop
      simp only [hf, hs, ok_bind, pure_eq_ok]
      rw [wordsBy_single isSpace _ hsep]
      by_cases hne : s.drop pos = []
      · simp [hne]
      · simp [hne]

/-! ## `tokenize` -/

theorem tokenize_spec (s : Str) :
    ∃ out, tokenize s = .ok out ∧ out.flatten = s.filter (fun c => !isSpace c) ∧
      (∀ t ∈ out, t ≠ [] ∧ (t.length < 2 ∨ ∀ c ∈ symbols, c ∉ t)) ∧
      ((∀ c ∈ symbols, c ∉ s) → out = wordsBy isSpace s) := by
  have hsp := spaceLoop_spec s s.length 0 [] (Nat.zero_le _) (by omega)
  simp only [List.drop_zero, List.nil_append] at hsp
  have hne : ∀ w ∈ wordsBy isSpace s, w ≠ [] := fun w hw => (wordsBy_mem isSpace s w hw).1
  have hlen : (wordsBy isSpace s).flatten.length ≤ s.length := by
    rw [wordsBy_flatten]; exact List.length_filter_le _ _
  obtain ⟨out, ho, hflat, hgood, hsame⟩ :=
    splitLoop_spec (2 * s.length) [] (wordsBy isSpace s) hne (by omega)
  simp only [List.nil_append, List.length_nil] at ho
  refine ⟨out, ?_, ?_, hgood, ?_⟩
  · unfold tokenize
    rw [hsp, ok_bind, ho]
  · rw [hflat, wordsBy_flatten]
  · intro hclean
    apply hsame
    intro w hw c hc hcw
    exact hclean c hc ((wordsBy_mem isSpace s w hw).2 c hcw).2

/-! ## The argument loop computes `scan` -/

theorem getAt_mid {α : Type} (pre : List α) (x : α) (rest : List α) :
    getAt (pre ++ x :: rest) pre.length = .ok x := getAt_append pre x rest

theorem getAt_next (pre : List Str) (x : Str) (rest : List Str) :
    getAt (pre ++ x :: rest) (pre.length + 1) =
      match rest.head? with
      | some f => .ok f
      | none => .error .outOfBounds := by
  have e : pre ++ x :: rest = (pre ++ [x]) ++ rest := by simp
  have el : pre.length + 1 = (pre ++ [x]).length := by simp
  cases rest with
  | nil =>
    have h : (pre ++ [x])[pre.length + 1]? = none := by
      rw [List.getElem?_eq_none]; simp
    simp only [getAt, h, List.head?_nil]
  | cons f rest =>
    have h : (pre ++ x :: f :: rest)[pre.length + 1]? = some f := by
      rw [e, el, List.getElem?_append_right (le_refl _)]; simp
    simp only [getAt, h, List.head?_cons]

theorem argLoop_done (env : Env) (tokens : List Str) (cmdNumber size last fuel j : Nat)
    (command : Command) (error : Bool) (os : OS) (h : ¬ j < last) :
    argLoop env tokens cmdNumber size last fuel j command error os = (.ok (command, error), os) := by
  unfold argLoop
  simp only [h, if_false]

theorem argLoop_eq_scan (env : Env) (cmdNumber size : Nat) (post : List Str) :
    ∀ (g pre : List Str) (skip : Bool) (fuel : Nat) (command : Command) (error : Bool) (os : OS),
      g.length ≤ fuel + (if skip then 1 else 0) →
      argLoop env (pre ++ g ++ post) cmdNumber size (pre.length + g.length) fuel
          (pre.length + (if skip then 1 else 0)) command error os =
        scan env cmdNumber size post g skip command error os := by
  intro g
  induction g with
  | nil =>
    intro pre skip fuel command error os _
    rw [argLoop_done _ _ _ _ _ _ _ _ _ _ (by simp)]
    cases skip <;> rfl
  | cons tj rest ih =>
    intro pre skip fuel command error os hfuel
    have e : pre ++ tj :: rest ++ post = (pre ++ [tj]) ++ rest ++ post := by simp
    have el : pre.length + (tj :: rest).length = (pre ++ [tj]).length + rest.length := by
      simp; omega
    cases skip with
    | true =>
      have := ih (pre ++ [tj]) false fuel command error os (by simpa using hfuel)
      simp only [Bool.false_eq_true, if_false, Nat.add_zero, List.length_append,
        List.length_singleton] at this
      simp only [if_true, scan]
      rw [e, el, ← this]
      simp
    | false =>
      simp only [Bool.false_eq_true, if_false, Nat.add_zero] at hfuel ⊢
      cases fuel with
      | zero => simp at hfuel
      | succ fuel =>
        have hlt : pre.length < pre.length + (tj :: rest).length := by simp
        have hget : getAt (pre ++ tj :: rest ++ post) pre.length = .ok tj := by
          rw [List.append_assoc]; exact getAt_mid pre tj (rest ++ post)
        have hnext : getAt (pre ++ tj :: rest ++ post) (pre.length + 1) =
            match (rest ++ post).head? with
            | some f => .ok f
            | none => .error .outOfBounds := by
          rw [List.append_assoc]; exact getAt_next pre tj (rest ++ post)
        have hstep : ∀ (c : Command) (er : Bool) (o : OS),
            argLoop env (pre ++ tj :: rest ++ post) cmdNumber size
              (pre.length + (tj :: rest).length) fuel (pre.length + 1) c er o =
            scan env cmdNumber size post rest false c er o := by
          intro c er o
          have := ih (pre ++ [tj]) false fuel c er o (by simpa using hfuel)
          simp only [Bool.false_eq_true, if_false, Nat.add_zero, List.length_append,
            List.length_singleton] at this
          rw [e, el, ← this]
          simp
        have hskip : ∀ (c : Command) (er : Bool) (o : OS),
            argLoop env (pre ++ tj :: rest ++ post) cmdNumber size
              (pre.length + (tj :: rest).length) fuel (pre.length + 1 + 1) c er o =
            scan env cmdNumber size post rest true c er o := by
          intro c er o
          have := ih (pre ++ [tj]) true fuel c er o (by simp at hfuel ⊢; omega)
          simp only [if_true, List.length_append, List.length_singleton] at this
          rw [e, el, ← this]
          simp
        unfold argLoop
        simp only [hlt, if_true, hget, hnext, hstep, hskip]
        conv_rhs => rw [scan]
        cases hh : (rest ++ post).head? <;> rfl

/-! ## Vectors of Commands -/

theorem modifyAt_length {α : Type} (v : List α) (k : Nat) (f : α → α) :
    (modifyAt v k f).length = v.length := by
  unfold modifyAt
  split <;> simp

theorem getElem?_modifyAt {α : Type} (v : List α) (k i : Nat) (f : α → α) :
    (modifyAt v k f)[i]? = if i = k then (v[i]?).map f else v[i]? := by
  unfold modifyAt
  cases h : v[k]? with
  | none =>
    by_cases hik : i = k
    · subst hik; simp [h]
    · simp [hik]
  | some a =>
    simp only []
    by_cases hik : i = k
    · subst hik
      have hlt : i < v.length := by
        by_contra hn
        rw [List.getElem?_eq_none (by omega)] at h
        exact Option.noConfusion h
      simp [h, List.getElem?_set_self, hlt]
    · rw [List.getElem?_set_ne (Ne.symm hik)]
      simp [hik]

theorem getAt_eq_ok {α : Type} (v : List α) (i : Nat) (a : α) (h : v[i]? = some a) :
    getAt v i = .ok a := by
  simp only [getAt, h]

theorem getAt_eq_error {α : Type} (v : List α) (i : Nat) (h : v.length ≤ i) :
    getAt v i = .error .outOfBounds := by
  have : v[i]? = none := List.getElem?_eq_none h
  simp only [getAt, this]

/-! ## Groups -/

theorem groups_ne_nil (tokens : List Str) : groups tokens ≠ [] := by
  cases tokens with
  | nil => simp [groups]
  | cons t ts =>
    unfold groups
    split
    · simp
    · split <;> simp

theorem groups_length (tokens : List Str) : (groups tokens).length = tokens.count bar + 1 := by
  induction tokens with
  | nil => simp [groups]
  | cons t ts ih =>
    unfold groups
    by_cases ht : t = bar
    · simp [ht, ih]
    · have hne := groups_ne_nil ts
      cases hg : groups ts with
      | nil => exact absurd hg hne
      | cons g gs =>
        rw [hg] at ih
        simp only [ht, if_false]
        rw [List.count_cons_of_ne (Ne.symm ht)]
        simpa using ih

theorem groups_no_bar (tokens : List Str) : ∀ g ∈ groups tokens, bar ∉ g := by
  induction tokens with
  | nil => simp [groups]
  | cons t ts ih =>
    unfold groups
    by_cases ht : t = bar
    · simp only [ht, if_true]
      intro g hg
      rcases List.mem_cons.mp hg with rfl | hg
      · simp
      · exact ih g hg
    · have hne := groups_ne_nil ts
      cases hgs : groups ts with
      | nil => exact absurd hgs hne
      | cons g gs =>
        rw [hgs] at ih
        simp only [ht, if_false]
        intro g' hg'
        rcases List.mem_cons.mp hg' with rfl | hg'
        · intro hb
          rcases List.mem_cons.mp hb with hb | hb
          · exact ht hb.symm
          · exact ih g (List.mem_cons_self _ _) hb
        · exact ih g' (List.mem_cons_of_mem _ hg')

theorem joinGroups_groups (tokens : List Str) : joinGroups (groups tokens) = tokens := by
  induction tokens with
  | nil => simp [groups, joinGroups]
  | cons t ts ih =>
    unfold groups
    have hne := groups_ne_nil ts
    cases hgs : groups ts with
    | nil => exact absurd hgs hne
    | cons g gs =>
      rw [hgs] at ih
      by_cases ht : t = bar
      · simp only [ht, if_true]
        simp [joinGroups, ih]
      · simp only [ht, if_false]
        cases gs with
        | nil => simp only [joinGroups] at ih ⊢; rw [ih]
        | cons g' gs' => simp only [joinGroups] at ih ⊢; rw [← ih]; simp

theorem findBar_group (pre g post : List Str) (hg : bar ∉ g)
    (hpost : post = [] ∨ ∃ r, post = bar :: r) :
    findBar (pre ++ g ++ post) pre.length = pre.length + g.length := by
  unfold findBar
  rw [List.append_assoc, List.drop_left]
  congr 1
  induction g with
  | nil =>
    rcases hpost with rfl | ⟨r, rfl⟩
    · rfl
    · simp [List.findIdx_cons]
  | cons t g ih =>
    have ht : ¬ t = bar := fun h => hg (h ▸ List.mem_cons_self _ _)
    have := ih (fun h => hg (List.mem_cons_of_mem _ h))
    simp only [List.cons_append, List.findIdx_cons, ht, decide_False, cond_false, this,
      List.length_cons]

theorem joinGroups_cons (g : List Str) (gs : List (List Str)) :
    joinGroups (g :: gs) = g ++ (match gs with | [] => [] | g' :: gs' => bar :: joinGroups (g' :: gs')) := by
  cases gs with
  | nil => simp [joinGroups]
  | cons g' gs' => simp [joinGroups]

/-! ## Once set, the error flag stays set -/

theorem argLoop_sticky (env : Env) (tokens : List Str) (cmdNumber size last : Nat) :
    ∀ (fuel j : Nat) (command : Command) (os : OS) (c : Command) (e : Bool) (os' : OS),
      argLoop env tokens cmdNumber size last fuel j command true os = (.ok (c, e), os') →
      e = true := by
  intro fuel
  induction fuel with
  | zero =>
    intro j command os c e os' h
    unfold argLoop at h
    split at h
    · simp at h
    · simp only [Prod.mk.injEq, Except.ok.injEq] at h
      exact h.1.2.symm
  | succ fuel ih =>
    intro j command os c e os' h
    unfold argLoop at h
    split at h
    · simp only [] at h
      split at h
      · simp at h
      · split at h
        · split at h
          · split at h
            · simp at h
            · split at h
              · simp at h
              · exact ih _ _ _ _ _ _ h
          · split at h
            · split at h
              · simp at h
              · split at h
                · simp at h
                · exact ih _ _ _ _ _ _ h
            · simp only [Prod.mk.injEq, Except.ok.injEq] at h
              exact h.1.2.symm
        · split at h
          · exact ih _ _ _ _ _ _ h
          · exact ih _ _ _ _ _ _ h
    · simp only [Prod.mk.injEq, Except.ok.injEq] at h
      exact h.1.2.symm

theorem stageLoop_sticky (env : Env) (tokens : List Str) :
    ∀ (fuel c : Nat) (st : Locals) (os : OS) (st' : Locals) (os' : OS),
      st.error = true →
      stageLoop env tokens fuel c st os = (.ok st', os') → st'.error = true := by
  intro fuel
  induction fuel with
  | zero =>
    intro c st os st' os' he h
    unfold stageLoop at h
    split at h
    · simp at h
    · simp only [Prod.mk.injEq, Except.ok.injEq] at h
      rw [← h.1]; exact he
  | succ fuel ih =>
    intro c st os st' os' he h
    unfold stageLoop at h
    split at h
    · simp only [] at h
      split at h
      · simp at h
      · split at h
        · simp only [Prod.mk.injEq, Except.ok.injEq] at h
          rw [← h.1]
        · split at h
          · simp at h
          · split at h
            · simp at h
            · rename_i command1 error1 os1 harg
              rw [he] at harg
              have := argLoop_sticky _ _ _ _ _ _ _ _ _ _ _ _ harg
              subst this
              simp only [Bool.not_true, Bool.false_eq_true, if_false] at h
              exact ih _ _ _ _ _ rfl h
    · simp only [Prod.mk.injEq, Except.ok.injEq] at h
      rw [← h.1]; exact he

/-! ## What later stages leave alone -/

theorem wirePipe_length (env : Env) (c : Nat) (cmds : List Command) (os : OS) :
    (wirePipe env c cmds os).1.length = cmds.length := by
  unfold wirePipe
  split
  · simp [modifyAt_length]
  · rfl

theorem wirePipe_below (env : Env) (c : Nat) (cmds : List Command) (os : OS) (i : Nat) (cmd : Command)
    (hi : i < c) (hcmd : cmds[i]? = some cmd) :
    ∃ x, (wirePipe env c cmds os).1[i]? = some { cmd with outputFd := x } ∧
      (i + 1 < c → x = cmd.outputFd) := by
  unfold wirePipe
  have hc : c > 0 := by omega
  simp only [hc, if_true]
  rw [getElem?_modifyAt, getElem?_modifyAt]
  have hne : i ≠ c := by omega
  by_cases hic : i = c - 1
  · refine ⟨(sysPipe env os).1.2, ?_, ?_⟩
    · rw [if_pos hic, if_neg hne, hcmd]
      rfl
    · intro h; omega
  · refine ⟨cmd.outputFd, ?_, fun _ => rfl⟩
    rw [if_neg hic, if_neg hne, hcmd]

theorem stageLoop_frame (env : Env) (tokens : List Str) :
    ∀ (fuel c : Nat) (st : Locals) (os : OS) (st' : Locals) (os' : OS),
      stageLoop env tokens fuel c st os = (.ok st', os') →
      st'.commands.length = st.commands.length ∧
      ∀ i cmd, i < c → st.commands[i]? = some cmd →
        ∃ x, st'.commands[i]? = some { cmd with outputFd := x } ∧
          (i + 1 < c → x = cmd.outputFd) := by
  intro fuel
  induction fuel with
  | zero =>
    intro c st os st' os' h
    unfold stageLoop at h
    split at h
    · simp at h
    · simp only [Prod.mk.injEq, Except.ok.injEq] at h
      rw [← h.1]
      exact ⟨rfl, fun i cmd _ hcmd => ⟨cmd.outputFd, hcmd, fun _ => rfl⟩⟩
  | succ fuel ih =>
    intro c st os st' os' h
    unfold stageLoop at h
    split at h
    · simp only [] at h
      split at h
      · simp at h
      · split at h
        · simp only [Prod.mk.injEq, Except.ok.injEq] at h
          rw [← h.1]
          exact ⟨rfl, fun i cmd _ hcmd => ⟨cmd.outputFd, hcmd, fun _ => rfl⟩⟩
        · split at h
          · simp at h
          · split at h
            · simp at h
            · rename_i command1 error1 os1 harg
              split at h
              · obtain ⟨hlen, hfr⟩ := ih _ _ _ _ _ h
                simp only [modifyAt_length, wirePipe_length, List.length_set] at hlen
                refine ⟨hlen, ?_⟩
                intro i cmd hi hcmd
                have hset : (st.commands.set c command1)[i]? = some cmd := by
                  rw [List.getElem?_set_ne (by omega)]; exact hcmd
                obtain ⟨x1, hx1, hx1'⟩ := wirePipe_below env c (st.commands.set c command1) os1 i cmd
                  hi hset
                have h1 : (modifyAt (wirePipe env c (st.commands.set c command1) os1).1 c
                    (fun c => { c with argv := c.argv ++ [none] }))[i]? =
                    some { cmd with outputFd := x1 } := by
                  rw [getElem?_modifyAt]
                  simp only [show i ≠ c by omega, if_false, hx1]
                obtain ⟨x2, hx2, hx2'⟩ := hfr i _ (by omega) h1
                have hx : x2 = x1 := hx2' (by omega)
                subst hx
                exact ⟨x2, hx2, hx1'⟩
              · obtain ⟨hlen, hfr⟩ := ih _ _ _ _ _ h
                simp only [List.length_set] at hlen
                refine ⟨hlen, ?_⟩
                intro i cmd hi hcmd
                have hset : (st.commands.set c command1)[i]? = some cmd := by
                  rw [List.getElem?_set_ne (by omega)]; exact hcmd
                obtain ⟨x2, hx2, hx2'⟩ := hfr i _ (by omega) hset
                have hx : x2 = cmd.outputFd := hx2' (by omega)
                exact ⟨x2, hx2, fun _ => hx⟩
    · simp only [Prod.mk.injEq, Except.ok.injEq] at h
      rw [← h.1]
      exact ⟨rfl, fun i cmd _ hcmd => ⟨cmd.outputFd, hcmd, fun _ => rfl⟩⟩

/-! ## One stage of the outer loop, on an aligned token sequence -/

theorem stageLoop_step (env : Env) (pre : List Str) (t : Str) (args post : List Str)
    (fuel c : Nat) (st : Locals) (os : OS) (command : Command)
    (hfirst : st.first = pre.length) (hlast : st.last = pre.length + 1 + args.length)
    (ht : ¬ (t = amp ∨ t = lt ∨ t = gt ∨ t = bar)) (hcmd : st.commands[c]? = some command) :
    stageLoop env (pre ++ t :: args ++ post) (fuel + 1) c st os =
      match scan env c st.commands.length post args false
          { execName := t, argv := command.argv ++ [some t], inputFd := 0, outputFd := 1,
            background := false } st.error os with
      | (.error f, os) => (.error f, os)
      | (.ok (command, error), os) =>
        if !error then
          stageLoop env (pre ++ t :: args ++ post) fuel (c + 1)
            { commands := modifyAt (wirePipe env c (st.commands.set c command) os).1 c
                (fun c => { c with argv := c.argv ++ [none] }),
              first := st.last + 1,
              last := if st.last + 1 < (pre ++ t :: args ++ post).length then
                findBar (pre ++ t :: args ++ post) (st.last + 1) else st.last,
              error := error }
            (wirePipe env c (st.commands.set c command) os).2
        else
          stageLoop env (pre ++ t :: args ++ post) fuel (c + 1)
            { st with commands := st.commands.set c command, error := error } os := by
  have hc : c < st.commands.length := by
    by_contra hn
    rw [List.getElem?_eq_none (by omega)] at hcmd
    exact Option.noConfusion hcmd
  have hget : getAt (pre ++ t :: args ++ post) st.first = .ok t := by
    rw [hfirst, List.append_assoc]; exact getAt_mid pre t (args ++ post)
  have harg : ∀ (cm : Command) (er : Bool) (o : OS),
      argLoop env (pre ++ t :: args ++ post) c st.commands.length st.last st.last
        (st.first + 1) cm er o = scan env c st.commands.length post args false cm er o := by
    intro cm er o
    have := argLoop_eq_scan env c st.commands.length post args (pre ++ [t]) false st.last cm er o
      (by simp [hlast])
    simp only [Bool.false_eq_true, if_false, Nat.add_zero, List.length_append,
      List.length_singleton] at this
    rw [← this, hfirst, hlast]
    simp
  conv_lhs => unfold stageLoop
  simp only [hc, if_true, hget, if_neg ht, getAt_eq_ok _ _ _ hcmd, harg]

/-! ## The fuel of the loops of `getCommands` suffices -/

theorem argLoop_fuel (env : Env) (tokens : List Str) (cmdNumber size last : Nat) :
    ∀ (fuel j : Nat) (command : Command) (error : Bool) (os : OS), last ≤ fuel + j →
      (argLoop env tokens cmdNumber size last fuel j command error os).1 ≠ .error .outOfFuel := by
  intro fuel
  induction fuel with
  | zero =>
    intro j command error os hle
    unfold argLoop
    rw [if_neg (by omega)]
    simp
  | succ fuel ih =>
    intro j command error os hle
    unfold argLoop
    split
    · simp only []
      split
      · rename_i f hget
        simp only [getAt] at hget
        split at hget
        · simp at hget
        · simp only [Except.error.injEq] at hget
          rw [← hget]; simp
      · split
        · split
          · split
            · rename_i f hget
              simp only [getAt] at hget
              split at hget
              · simp at hget
              · simp only [Except.error.injEq] at hget
                rw [← hget]; simp
            · split
              · simp
              · exact ih _ _ _ _ (by omega)
          · split
            · split
              · rename_i f hget
                simp only [getAt] at hget
                split at hget
                · simp at hget
                · simp only [Except.error.injEq] at hget
                  rw [← hget]; simp
              · split
                · simp
                · exact ih _ _ _ _ (by omega)
            · simp
        · split
          · exact ih _ _ _ _ (by omega)
          · exact ih _ _ _ _ (by omega)
    · simp

theorem stageLoop_fuel (env : Env) (tokens : List Str) :
    ∀ (fuel c : Nat) (st : Locals) (os : OS), st.commands.length ≤ fuel + c →
      (stageLoop env tokens fuel c st os).1 ≠ .error .outOfFuel := by
  intro fuel
  induction fuel with
  | zero =>
    intro c st os hle
    unfold stageLoop
    rw [if_neg (by omega)]
    simp
  | succ fuel ih =>
    intro c st os hle
    unfold stageLoop
    split
    · simp only []
      split
      · rename_i f hget
        simp only [getAt] at hget
        split at hget
        · simp at hget
        · simp only [Except.error.injEq] at hget
          rw [← hget]; simp
      · rename_i token htok
        split
        · simp
        · split
          · rename_i f hget
            simp only [getAt] at hget
            split at hget
            · simp at hget
            · simp only [Except.error.injEq] at hget
              rw [← hget]; simp
          · rename_i command _
            have harg := argLoop_fuel env tokens c st.commands.length st.last st.last
              (st.first + 1)
              { execName := token, argv := command.argv ++ [some token], inputFd := 0,
                outputFd := 1, background := false } st.error os (by omega)
            split
            · rename_i f os1 hres
              rw [hres] at harg
              simpa using harg
            · split
              · exact ih _ _ _ (by
                  simp only [modifyAt_length, wirePipe_length, List.length_set]; omega)
              · exact ih _ _ _ (by simp only [List.length_set]; omega)
    · simp

/-- The call `getCommands(tokens)` never runs out of the fuel that the embedding gives to its
loops: the model stops only where the source returns, exits, or reads past the end of
`tokens`. -/
theorem getCommands_fuel_suffices (env : Env) (blank : Command) (tokens : List Str) (os : OS) :
    (getCommands env blank tokens os).1 ≠ .error .outOfFuel := by
  have h := stageLoop_fuel env tokens
    (List.replicate (tokens.count bar + 1) blank).length 0
    { commands := List.replicate (tokens.count bar + 1) blank, first := 0,
      last := findBar tokens 0, error := false } os (by simp)
  unfold getCommands
  simp only []
  split
  · rename_i f os1 hres
    rw [hres] at h
    simpa using h
  · split <;> simp

/-! ## The fields that the argument loop fills in -/

theorem scan_core (env : Env) (c size : Nat) (post : List Str) :
    ∀ (g : List Str) (skip : Bool) (command : Command) (error : Bool) (os : OS)
      (cmd' : Command) (os' : OS),
      scan env c size post g skip command error os = (.ok (cmd', false), os') →
      cmd'.execName = command.execName ∧
      cmd'.argv = command.argv ++ (scanArgs g skip).map some ∧
      cmd'.background = (command.background || scanBg g skip) := by
  intro g
  induction g with
  | nil =>
    intro skip command error os cmd' os' h
    rw [scan] at h
    simp only [Prod.mk.injEq, Except.ok.injEq] at h
    rw [← h.1.1]
    simp [scanArgs, scanBg]
  | cons tj rest ih =>
    intro skip command error os cmd' os' h
    cases skip with
    | true =>
      rw [scan] at h
      simpa [scanArgs, scanBg] using ih false command error os cmd' os' h
    | false =>
      rw [scan] at h
      rw [scanArgs, scanBg]
      split at h
      · rename_i hred
        rw [if_pos hred, if_pos hred]
        split at h
        · split at h
          · simp at h
          · dsimp only at h
            split at h
            · simp at h
            · have := ih true _ _ _ _ _ h
              exact this
        · split at h
          · split at h
            · simp at h
            · dsimp only at h
              split at h
              · simp at h
              · have := ih true _ _ _ _ _ h
                exact this
          · simp at h
      · rename_i hred
        rw [if_neg hred, if_neg hred]
        split at h
        · rename_i hamp
          rw [if_pos hamp, if_pos hamp]
          have := ih false _ _ _ _ _ h
          simpa using this
        · rename_i hamp
          rw [if_neg hamp, if_neg hamp]
          have := ih false _ _ _ _ _ h
          simpa using this

theorem wirePipe_at (env : Env) (c : Nat) (cmds : List Command) (os : OS) (cmd : Command)
    (hcmd : cmds[c]? = some cmd) :
    ∃ x, (wirePipe env c cmds os).1[c]? = some { cmd with inputFd := x } ∧
      (c = 0 → x = cmd.inputFd) ∧ (0 < c → x = (sysPipe env os).1.1) := by
  unfold wirePipe
  by_cases hc : c > 0
  · refine ⟨(sysPipe env os).1.1, ?_, fun h => by omega, fun _ => rfl⟩
    simp only [hc, if_true]
    rw [getElem?_modifyAt, getElem?_modifyAt, if_neg (by omega), if_pos rfl, hcmd]
    rfl
  · refine ⟨cmd.inputFd, ?_, fun _ => rfl, fun h => absurd h hc⟩
    simp only [hc, if_false]
    exact hcmd

theorem wirePipe_above (env : Env) (c : Nat) (cmds : List Command) (os : OS) (i : Nat) (hi : c < i) :
    (wirePipe env c cmds os).1[i]? = cmds[i]? := by
  unfold wirePipe
  split
  · rw [getElem?_modifyAt, getElem?_modifyAt, if_neg (by omega), if_neg (by omega)]
  · rfl

theorem stageLoop_done (env : Env) (tokens : List Str) (fuel c : Nat) (st : Locals) (os : OS)
    (h : ¬ c < st.commands.length) :
    stageLoop env tokens fuel c st os = (.ok st, os) := by
  unfold stageLoop
  simp only [h, if_false]

theorem stageLoop_meta (env : Env) (pre : List Str) (t : Str) (rest : List Str)
    (fuel c : Nat) (st : Locals) (os : OS) (hfirst : st.first = pre.length)
    (hc : c < st.commands.length) (ht : t = amp ∨ t = lt ∨ t = gt ∨ t = bar) :
    stageLoop env (pre ++ t :: rest) (fuel + 1) c st os = (.ok { st with error := true }, os) := by
  unfold stageLoop
  have hget : getAt (pre ++ t :: rest) st.first = .ok t := by
    rw [hfirst]; exact getAt_mid pre t rest
  simp only [hc, if_true, hget, if_pos ht]

theorem stageLoop_oob (env : Env) (tokens : List Str)
    (fuel c : Nat) (st : Locals) (os : OS) (hfirst : tokens.length ≤ st.first)
    (hc : c < st.commands.length) :
    stageLoop env tokens (fuel + 1) c st os = (.error .outOfBounds, os) := by
  unfold stageLoop
  simp only [hc, if_true, getAt_eq_error _ _ hfirst]

theorem drop_of_getElem? {α : Type} (l : List α) (n : Nat) (x : α) (h : l[n]? = some x) :
    l.drop n = x :: l.drop (n + 1) := by
  have hlt : n < l.length := by
    by_contra hn
    rw [List.getElem?_eq_none (by omega)] at h
    exact Option.noConfusion h
  rw [List.getElem?_eq_getElem hlt] at h
  simp only [Option.some.injEq] at h
  rw [List.drop_eq_getElem_cons hlt, h]

theorem joinGroups_align (pre : List Str) (t : Str) (args : List Str) (gs : List (List Str)) :
    pre ++ joinGroups ((t :: args) :: gs) =
      pre ++ t :: args ++
        (match gs with | [] => [] | g' :: gs' => bar :: joinGroups (g' :: gs')) := by
  cases gs with
  | nil => simp [joinGroups]
  | cons g' gs' => simp [joinGroups]

theorem stageLoop_core (env : Env) :
    ∀ (gs : List (List Str)) (g pre : List Str) (c fuel : Nat) (st : Locals) (os : OS)
      (st' : Locals) (os' : OS),
      bar ∉ g → (∀ g' ∈ gs, bar ∉ g') → st.first = pre.length →
      (g ≠ [] → st.last = pre.length + g.length) →
      st.commands.length = c + 1 + gs.length → gs.length + 1 ≤ fuel →
      (∀ i cmd, c ≤ i → st.commands[i]? = some cmd → cmd.argv = []) →
      stageLoop env (pre ++ joinGroups (g :: gs)) fuel c st os = (.ok st', os') →
      st'.error = false →
      List.Forall₂ CoreRel (st'.commands.drop c) (g :: gs) := by
  intro gs
  induction gs with
  | nil =>
    intro g pre c fuel st os st' os' hg _ hfirst hlast hlen hfuel hargv h herr
    have hc : c < st.commands.length := by rw [hlen]; omega
    obtain ⟨fuel, rfl⟩ : ∃ f, fuel = f + 1 := ⟨fuel - 1, by simp at hfuel; omega⟩
    cases g with
    | nil =>
      rw [stageLoop_oob env _ fuel c st os (by simp [joinGroups, hfirst]) hc] at h
      simp at h
    | cons t args =>
      by_cases ht : t = amp ∨ t = lt ∨ t = gt ∨ t = bar
      · simp only [joinGroups] at h
        rw [stageLoop_meta env pre t args fuel c st os hfirst hc ht] at h
        simp only [Prod.mk.injEq, Except.ok.injEq] at h
        rw [← h.1] at herr
        simp at herr
      · obtain ⟨command, hcmd⟩ : ∃ command, st.commands[c]? = some command :=
          ⟨st.commands[c], List.getElem?_eq_getElem hc⟩
        have hl := hlast (by simp)
        have hl' : st.last = pre.length + 1 + args.length := by
          rw [hl, List.length_cons]; omega
        have hlen0 : st.commands.length = c + 1 := by simpa using hlen
        rw [joinGroups_align, stageLoop_step env pre t args [] fuel c st os command hfirst
          hl' ht hcmd] at h
        split at h
        · simp at h
        · rename_i cmd1 error1 os1 hscan
          cases error1 with
          | true =>
            simp only [Bool.not_true, Bool.false_eq_true, if_false] at h
            have := stageLoop_sticky env _ _ _ _ _ _ _ rfl h
            rw [this] at herr
            simp at herr
          | false =>
            simp only [Bool.not_false, if_true] at h
            rw [stageLoop_done _ _ _ _ _ _ (by
              simp only [modifyAt_length, wirePipe_length, List.length_set]; omega)] at h
            simp only [Prod.mk.injEq, Except.ok.injEq] at h
            obtain ⟨hex, hav, hbg⟩ := scan_core env c _ [] args false _ _ _ _ _ hscan
            have hset : (st.commands.set c cmd1)[c]? = some cmd1 := by
              rw [List.getElem?_set_self hc]
            obtain ⟨x, hx, -⟩ := wirePipe_at env c (st.commands.set c cmd1) os1 cmd1 hset
            have hfin : st'.commands[c]? =
                some { cmd1 with inputFd := x, argv := cmd1.argv ++ [none] } := by
              rw [← h.1]
              simp only []
              rw [getElem?_modifyAt, if_pos rfl, hx]
              rfl
            have hlen' : st'.commands.length = c + 1 := by
              rw [← h.1]
              simp only [modifyAt_length, wirePipe_length, List.length_set]
              simpa using hlen
            rw [drop_of_getElem? _ _ _ hfin, List.drop_eq_nil_of_le (by omega)]
            refine List.Forall₂.cons ⟨t, args, rfl, ht, ?_, ?_, ?_⟩ List.Forall₂.nil
            · exact hex
            · simp only [hav, hargv c command (le_refl _) hcmd]
              simp
            · simp only [hbg]; simp
  | cons g' gs' ih =>
    intro g pre c fuel st os st' os' hg hgs hfirst hlast hlen hfuel hargv h herr
    have hc : c < st.commands.length := by rw [hlen]; omega
    obtain ⟨fuel, rfl⟩ : ∃ f, fuel = f + 1 := ⟨fuel - 1, by simp at hfuel; omega⟩
    cases g with
    | nil =>
      simp only [joinGroups, List.nil_append] at h
      rw [stageLoop_meta env pre bar _ fuel c st os hfirst hc (by simp)] at h
      simp only [Prod.mk.injEq, Except.ok.injEq] at h
      rw [← h.1] at herr
      simp at herr
    | cons t args =>
      by_cases ht : t = amp ∨ t = lt ∨ t = gt ∨ t = bar
      · simp only [joinGroups, List.cons_append] at h
        rw [stageLoop_meta env pre t _ fuel c st os hfirst hc ht] at h
        simp only [Prod.mk.injEq, Except.ok.injEq] at h
        rw [← h.1] at herr
        simp at herr
      · obtain ⟨command, hcmd⟩ : ∃ command, st.commands[c]? = some command :=
          ⟨st.commands[c], List.getElem?_eq_getElem hc⟩
        have hl := hlast (by simp)
        have hl' : st.last = pre.length + 1 + args.length := by
          rw [hl, List.length_cons]; omega
        rw [joinGroups_align, stageLoop_step env pre t args _ fuel c st os command hfirst
          hl' ht hcmd] at h
        split at h
        · simp at h
        · rename_i cmd1 error1 os1 hscan
          cases error1 with
          | true =>
            simp only [Bool.not_true, Bool.false_eq_true, if_false] at h
            have := stageLoop_sticky env _ _ _ _ _ _ _ rfl h
            rw [this] at herr
            simp at herr
          | false =>
            simp only [Bool.not_false, if_true] at h
            obtain ⟨hex, hav, hbg⟩ := scan_core env c _ _ args false _ _ _ _ _ hscan
            have hset : (st.commands.set c cmd1)[c]? = some cmd1 := by
              rw [List.getElem?_set_self hc]
            obtain ⟨x, hx, -⟩ := wirePipe_at env c (st.commands.set c cmd1) os1 cmd1 hset
            have htok : pre ++ t :: args ++ bar :: joinGroups (g' :: gs') =
                (pre ++ t :: args ++ [bar]) ++ joinGroups (g' :: gs') := by simp
            have hplen : (pre ++ t :: args ++ [bar]).length = st.last + 1 := by
              rw [hl']; simp; omega
            rw [htok] at h
            have h1 : (modifyAt (wirePipe env c (st.commands.set c cmd1) os1).1 c
                (fun c => { c with argv := c.argv ++ [none] }))[c]? =
                some { cmd1 with inputFd := x, argv := cmd1.argv ++ [none] } := by
              rw [getElem?_modifyAt, if_pos rfl, hx]
              rfl
            have hrest := ih g' (pre ++ t :: args ++ [bar]) (c + 1) fuel _ _ st' os'
              (hgs g' (List.mem_cons_self _ _))
              (fun g'' hg'' => hgs g'' (List.mem_cons_of_mem _ hg''))
              hplen.symm
              (by
                intro hne
                have hpos : 0 < (joinGroups (g' :: gs')).length := by
                  rw [joinGroups_cons]
                  have : 0 < g'.length := List.length_pos.mpr hne
                  simp only [List.length_append]; omega
                simp only []
                rw [if_pos (by rw [List.length_append, hplen]; omega), joinGroups_cons,
                  ← List.append_assoc, ← hplen]
                apply findBar_group _ _ _ (hgs g' (List.mem_cons_self _ _))
                cases gs' with
                | nil => left; rfl
                | cons a b => right; exact ⟨_, rfl⟩)
              (by
                simp only [modifyAt_length, wirePipe_length, List.length_set]
                rw [hlen]; simp; omega)
              (by simp at hfuel ⊢; omega)
              (by
                intro i cmd hi hicmd
                simp only [] at hicmd
                rw [getElem?_modifyAt, if_neg (by omega), wirePipe_above _ _ _ _ _ (by omega),
                  List.getElem?_set_ne (by omega)] at hicmd
                exact hargv i cmd (by omega) hicmd)
              h herr
            obtain ⟨-, hfr⟩ := stageLoop_frame env _ _ _ _ _ _ _ h
            obtain ⟨x2, hx2, -⟩ := hfr c _ (by omega) h1
            rw [drop_of_getElem? _ _ _ hx2]
            refine List.Forall₂.cons ⟨t, args, rfl, ht, ?_, ?_, ?_⟩ hrest
            · exact hex
            · simp only [hav, hargv c command (le_refl _) hcmd]
              simp
            · simp only [hbg]; simp

theorem findBar_zero (tokens : List Str) (g : List Str)
    (hne : (groups tokens).head? = some g) : findBar tokens 0 = g.length := by
  have hj := joinGroups_groups tokens
  have hb := groups_no_bar tokens
  cases hgs : groups tokens with
  | nil => rw [hgs] at hne; simp at hne
  | cons g0 gs =>
    rw [hgs] at hne hj hb
    simp only [List.head?_cons, Option.some.injEq] at hne
    subst hne
    have hg0 := hb g0 (List.mem_cons_self _ _)
    cases gs with
    | nil =>
      have := findBar_group [] g0 [] hg0 (Or.inl rfl)
      simp only [joinGroups] at hj
      simpa [hj] using this
    | cons a b =>
      have := findBar_group [] g0 (bar :: joinGroups (a :: b)) hg0 (Or.inr ⟨_, rfl⟩)
      simp only [joinGroups] at hj
      simpa [hj] using this

theorem getCommands_core (env : Env) (blank : Command) (tokens : List Str) (os : OS)
    (cmds : List Command) (os' : OS) (hblank : blank.argv = [])
    (h : getCommands env blank tokens os = (.ok cmds, os')) (hne : cmds ≠ []) :
    List.Forall₂ CoreRel cmds (groups tokens) := by
  unfold getCommands at h
  simp only [] at h
  split at h
  · simp at h
  · rename_i st os1 hloop
    split at h
    · simp only [Prod.mk.injEq, Except.ok.injEq] at h
      exact absurd h.1.symm hne
    · rename_i herr
      simp only [Prod.mk.injEq, Except.ok.injEq] at h
      rw [← h.1]
      have hgl := groups_length tokens
      have hj := joinGroups_groups tokens
      have hb := groups_no_bar tokens
      cases hgs : groups tokens with
      | nil => exact absurd hgs (groups_ne_nil tokens)
      | cons g gs =>
        rw [hgs] at hgl hj hb
        have key := stageLoop_core env gs g [] 0
          (List.replicate (tokens.count bar + 1) blank).length
          { commands := List.replicate (tokens.count bar + 1) blank, first := 0,
            last := findBar tokens 0, error := false } os st os1
          (hb g (List.mem_cons_self _ _))
          (fun g' hg' => hb g' (List.mem_cons_of_mem _ hg'))
          rfl
          (by
            intro hg
            simp only [List.length_nil, Nat.zero_add]
            exact findBar_zero tokens g (by rw [hgs]; rfl))
          (by simp only [List.length_replicate, ← hgl, List.length_cons]; omega)
          (by simp only [List.length_replicate, ← hgl, List.length_cons]; omega)
          (by
            intro i cmd _ hi
            simp only [] at hi
            rw [List.getElem?_replicate] at hi
            split at hi
            · simp only [Option.some.injEq] at hi
              rw [← hi]; exact hblank
            · exact Option.noConfusion hi)
          (by rw [List.nil_append, hj]; exact hloop)
          (by simpa using herr)
        simpa using key

theorem forall₂_getElem? {α β : Type} {R : α → β → Prop} :
    ∀ {l₁ : List α} {l₂ : List β}, List.Forall₂ R l₁ l₂ →
      ∀ (i : Nat) (a : α) (b : β), l₁[i]? = some a → l₂[i]? = some b → R a b := by
  intro l₁ l₂ h
  induction h with
  | nil => intro i a b ha; simp at ha
  | cons hab _ ih =>
    intro i a b ha hb
    cases i with
    | zero =>
      simp only [List.getElem?_cons_zero, Option.some.injEq] at ha hb
      subst ha; subst hb; exact hab
    | succ i =>
      simp only [List.getElem?_cons_succ] at ha hb
      exact ih i a b ha hb

theorem scan_spec_agree : ∀ (ts : List Str) (prev : Str), operandsOk (prev :: ts) = true →
    scanArgs ts (decide (prev = lt ∨ prev = gt)) = specArgsFrom prev ts ∧
    scanBg ts (decide (prev = lt ∨ prev = gt)) = decide (amp ∈ ts) := by
  intro ts
  induction ts with
  | nil => intro prev _; simp [scanArgs, scanBg, specArgsFrom]
  | cons t ts ih =>
    intro prev hok
    simp only [operandsOk, Bool.and_eq_true] at hok
    obtain ⟨hadj, hrest⟩ := hok
    obtain ⟨ihA, ihB⟩ := ih t hrest
    by_cases hp : prev = lt ∨ prev = gt
    · simp only [hp, if_true, Bool.not_eq_true', decide_eq_false_iff_not] at hadj
      have ht : ¬ (t = lt ∨ t = gt) := fun h => hadj (by tauto)
      have hta : ¬ t = amp := fun h => hadj (Or.inl h)
      simp only [ht, decide_False] at ihA ihB
      simp only [hp, decide_True, scanArgs, scanBg, specArgsFrom, ihA, ihB]
      constructor
      · rw [if_pos (by tauto)]
      · simp [List.mem_cons, Ne.symm hta]
    · have hp' : ¬ (prev = lt ∨ prev = gt) := hp
      simp only [hp, decide_False, scanArgs, scanBg, specArgsFrom]
      by_cases ht : t = gt ∨ t = lt
      · have ht' : t = lt ∨ t = gt := by tauto
        simp only [ht', decide_True] at ihA ihB
        have hta : ¬ t = amp := by
          rcases ht with h | h <;> (rw [h]; decide)
        rw [if_pos ht, if_pos ht, if_pos (by tauto), ihA, ihB]
        simp [List.mem_cons, Ne.symm hta]
      · have ht' : ¬ (t = lt ∨ t = gt) := by tauto
        simp only [ht', decide_False] at ihA ihB
        rw [if_neg ht, if_neg ht]
        by_cases hta : t = amp
        · rw [if_pos hta, if_pos hta, if_pos (Or.inl hta), ihA]
          simp [hta]
        · rw [if_neg hta, if_neg hta, if_neg (by tauto), ihA, ihB]
          simp [List.mem_cons, Ne.symm hta]

/-! ## Lines without metacharacters -/

theorem scan_plain (env : Env) (c size : Nat) (post : List Str) :
    ∀ (g : List Str) (command : Command) (error : Bool) (os : OS),
      (∀ t ∈ g, ¬ (t = gt ∨ t = lt) ∧ ¬ t = amp) →
      scan env c size post g false command error os =
        (.ok ({ command with argv := command.argv ++ g.map some }, error), os) := by
  intro g
  induction g with
  | nil => intro command error os _; simp [scan]
  | cons t g ih =>
    intro command error os h
    obtain ⟨h1, h2⟩ := h t (List.mem_cons_self _ _)
    rw [scan, if_neg h1, if_neg h2, ih _ _ _ (fun u hu => h u (List.mem_cons_of_mem _ hu))]
    simp

theorem getCommands_plain (env : Env) (blank : Command) (t : Str) (args : List Str) (os : OS)
    (h : ∀ u ∈ t :: args, ¬ (u = amp ∨ u = lt ∨ u = gt ∨ u = bar)) :
    getCommands env blank (t :: args) os =
      (.ok [{ execName := t, argv := blank.argv ++ [some t] ++ args.map some ++ [none],
              inputFd := 0, outputFd := 1, background := false }], os) := by
  have hbar : bar ∉ t :: args := fun hb => (h bar hb) (by simp)
  have hcount : (t :: args).count bar = 0 := List.count_eq_zero.mpr hbar
  have hfind : findBar (t :: args) 0 = (t :: args).length := by
    have := findBar_group [] (t :: args) [] hbar (Or.inl rfl)
    simpa using this
  have hstep := stageLoop_step env [] t args [] 0 0
    { commands := [blank], first := 0, last := (t :: args).length, error := false } os blank rfl
    (by simp; omega) (h t (List.mem_cons_self _ _)) rfl
  have hscan := scan_plain env 0 1 [] args
    { execName := t, argv := blank.argv ++ [some t], inputFd := 0, outputFd := 1,
      background := false } false os
    (fun u hu => by
      have := h u (List.mem_cons_of_mem _ hu)
      exact ⟨fun hh => this (by tauto), fun hh => this (Or.inl hh)⟩)
  simp only [List.nil_append, List.append_nil, List.length_singleton] at hstep
  unfold getCommands
  simp only [hcount, hfind, Nat.zero_add, List.replicate_one, List.length_singleton]
  rw [hstep, hscan]
  simp only [Bool.not_false, if_true]
  rw [stageLoop_done _ _ _ _ _ _ (by simp [modifyAt_length, wirePipe_length])]
  simp [wirePipe, modifyAt]

/-- For every line without metacharacter that has a character other than the space, the two
calls of the read loop return exactly one Command: its name is the first word, its arguments
are the words, its input is descriptor 0, its output descriptor 1, and it is not marked
background; nothing is opened or closed. -/
theorem parseLine_plain (env : Env) (blank : Command) (s : Str) (os : OS)
    (h : '&' ∉ s ∧ '<' ∉ s ∧ '>' ∉ s ∧ '|' ∉ s) (hne : ∃ c ∈ s, c ≠ ' ') :
    ∃ t args, wordsBy isSpace s = t :: args ∧
      parseLine env blank s os =
        (.ok [{ execName := t, argv := blank.argv ++ [some t] ++ args.map some ++ [none],
                inputFd := 0, outputFd := 1, background := false }], os) := by
  obtain ⟨out, ho, -, -, hsame⟩ := tokenize_spec s
  have hclean : ∀ c ∈ symbols, c ∉ s := by
    intro c hc
    simp only [symbols, List.mem_cons, List.mem_singleton] at hc
    rcases hc with rfl | rfl | rfl | hc
    · exact h.1
    · exact h.2.1
    · exact h.2.2.1
    · simp at hc; subst hc; exact h.2.2.2
  rw [hsame hclean] at ho
  have hwords : wordsBy isSpace s ≠ [] := by
    intro hnil
    obtain ⟨c, hc, hcs⟩ := hne
    have hfl := wordsBy_flatten isSpace s
    rw [hnil] at hfl
    have : c ∈ s.filter (fun c => !isSpace c) := by
      rw [List.mem_filter]; exact ⟨hc, by simpa [isSpace] using hcs⟩
    rw [← hfl] at this
    simp at this
  cases hw : wordsBy isSpace s with
  | nil => exact absurd hw hwords
  | cons t args =>
    refine ⟨t, args, rfl, ?_⟩
    have hmem := wordsBy_mem isSpace s
    rw [hw] at hmem ho
    unfold parseLine
    rw [ho]
    simp only []
    apply getCommands_plain
    intro u hu hmeta
    obtain ⟨-, hchars⟩ := hmem u hu
    have hin : ∀ x, u = [x] → x ∈ s := fun x hx => (hchars x (by rw [hx]; simp)).2
    rcases hmeta with hm | hm | hm | hm
    · exact h.1 (hin _ hm)
    · exact h.2.1 (hin _ hm)
    · exact h.2.2.1 (hin _ hm)
    · exact h.2.2.2 (hin _ hm)

/-! ## What a run records: failed opens end the process -/

theorem TraceOK.nil_of_not_exit {α : Type} (r : Except Fault α)
    (h : ∀ c, r ≠ .error (.exited c)) : TraceOK r [] := by
  refine ⟨by simp, ?_⟩
  match r, h with
  | .ok _, _ => simp
  | .error .outOfBounds, _ => simp
  | .error .outOfFuel, _ => simp
  | .error (.exited c), h => exact absurd rfl (h c)

theorem TraceOK.prepend {α : Type} (r : Except Fault α) (pre es : List Event)
    (hc : ∀ e ∈ pre, isClose e = false) (hf : ∀ e ∈ pre, isFailedOpen e = false)
    (h : TraceOK r es) : TraceOK r (pre ++ es) := by
  obtain ⟨h1, h2⟩ := h
  refine ⟨?_, ?_⟩
  · intro e he
    rcases List.mem_append.mp he with he | he
    · exact hc e he
    · exact h1 e he
  · match r, h2 with
    | .ok _, h2 =>
      intro e he
      rcases List.mem_append.mp he with he | he
      · exact hf e he
      · exact h2 e he
    | .error .outOfBounds, h2 =>
      intro e he
      rcases List.mem_append.mp he with he | he
      · exact hf e he
      · exact h2 e he
    | .error .outOfFuel, h2 =>
      intro e he
      rcases List.mem_append.mp he with he | he
      · exact hf e he
      · exact h2 e he
    | .error (.exited c), h2 =>
      obtain ⟨es0, path, flags, mode, hes, hes0, hcode⟩ := h2
      refine ⟨pre ++ es0, path, flags, mode, ?_, ?_, hcode⟩
      · rw [hes]; simp
      · intro e he
        rcases List.mem_append.mp he with he | he
        · exact hf e he
        · exact hes0 e he

theorem sysOpen_log (env : Env) (path : Str) (flags : OpenFlags) (mode : Option Nat) (os : OS) :
    (sysOpen env path flags mode os).2.log =
      os.log ++ [Event.opened path flags mode (sysOpen env path flags mode os).1] := by
  unfold sysOpen
  split <;> rfl

theorem sysOpen_neg (env : Env) (path : Str) (flags : OpenFlags) (mode : Option Nat) (os : OS)
    (h : (sysOpen env path flags mode os).1 < 0) :
    (sysOpen env path flags mode os).1 = -1 := by
  unfold sysOpen at h ⊢
  split
  · rename_i hc
    simp only [hc, if_true] at h
    omega
  · rfl

theorem argLoop_trace (env : Env) (tokens : List Str) (cmdNumber size last : Nat) :
    ∀ (fuel j : Nat) (command : Command) (error : Bool) (os : OS),
      ∃ es, (argLoop env tokens cmdNumber size last fuel j command error os).2.log = os.log ++ es ∧
        TraceOK (argLoop env tokens cmdNumber size last fuel j command error os).1 es := by
  intro fuel
  induction fuel with
  | zero =>
    intro j command error os
    refine ⟨[], ?_, ?_⟩
    · unfold argLoop; split <;> simp
    · apply TraceOK.nil_of_not_exit
      intro c; unfold argLoop; split <;> simp
  | succ fuel ih =>
    intro j command error os
    unfold argLoop
    by_cases hj : j < last
    · simp only [hj, if_true]
      cases hget : getAt tokens j with
      | error f =>
        refine ⟨[], by simp, ?_⟩
        apply TraceOK.nil_of_not_exit
        intro c hc
        simp only [getAt] at hget
        split at hget <;> simp_all
      | ok tj =>
        simp only []
        by_cases hred : tj = gt ∨ tj = lt
        · rw [if_pos hred]
          by_cases hin : cmdNumber = 0 ∧ tj = lt
          · rw [if_pos hin]
            cases hfile : getAt tokens (j + 1) with
            | error f =>
              refine ⟨[], by simp, ?_⟩
              apply TraceOK.nil_of_not_exit
              intro c hc
              simp only [getAt] at hfile
              split at hfile <;> simp_all
            | ok file =>
              simp only []
              by_cases hneg : (sysOpen env file inputFlags none os).1 < 0
              · simp only [hneg, if_true]
                refine ⟨[Event.opened file inputFlags none (-1), Event.perror "open".toList],
                  ?_, ?_, ?_⟩
                · simp [sysPerror, sysOpen_log, sysOpen_neg _ _ _ _ _ hneg]
                · intro e he; simp at he; rcases he with rfl | rfl <;> rfl
                · exact ⟨[], file, inputFlags, none, rfl, by simp, Or.inl ⟨rfl, rfl⟩⟩
              · simp only [hneg, if_false]
                obtain ⟨es, hlog, htr⟩ := ih (j + 1 + 1)
                  { command with inputFd := (sysOpen env file inputFlags none os).1 } error
                  (sysOpen env file inputFlags none os).2
                refine ⟨Event.opened file inputFlags none (sysOpen env file inputFlags none os).1
                  :: es, ?_, ?_⟩
                · rw [hlog, sysOpen_log]; simp
                · apply TraceOK.prepend _ [_] es _ _ htr
                  · intro e he; simp at he; subst he; rfl
                  · intro e he; simp at he; subst he; simp [isFailedOpen, hneg]
          · rw [if_neg hin]
            by_cases hout : cmdNumber = size - 1 ∧ tj = gt
            · rw [if_pos hout]
              cases hfile : getAt tokens (j + 1) with
              | error f =>
                refine ⟨[], by simp, ?_⟩
                apply TraceOK.nil_of_not_exit
                intro c hc
                simp only [getAt] at hfile
                split at hfile <;> simp_all
              | ok file =>
                simp only []
                by_cases hneg : (sysOpen env file outputFlags (some 0o666) os).1 < 0
                · simp only [hneg, if_true]
                  refine ⟨[Event.opened file outputFlags (some 0o666) (-1),
                    Event.perror "open".toList], ?_, ?_, ?_⟩
                  · simp [sysPerror, sysOpen_log, sysOpen_neg _ _ _ _ _ hneg]
                  · intro e he; simp at he; rcases he with rfl | rfl <;> rfl
                  · exact ⟨[], file, outputFlags, some 0o666, rfl, by simp, Or.inr ⟨rfl, rfl⟩⟩
                · simp only [hneg, if_false]
                  obtain ⟨es, hlog, htr⟩ := ih (j + 1 + 1)
                    { command with outputFd := (sysOpen env file outputFlags (some 0o666) os).1 }
                    error (sysOpen env file outputFlags (some 0o666) os).2
                  refine ⟨Event.opened file outputFlags (some 0o666)
                    (sysOpen env file outputFlags (some 0o666) os).1 :: es, ?_, ?_⟩
                  · rw [hlog, sysOpen_log]; simp
                  · apply TraceOK.prepend _ [_] es _ _ htr
                    · intro e he; simp at he; subst he; rfl
                    · intro e he; simp at he; subst he; simp [isFailedOpen, hneg]
            · rw [if_neg hout]
              refine ⟨[Event.cout "\ni/o redirection error\n".toList], rfl, ?_, ?_⟩
              · intro e he; simp at he; subst he; rfl
              · intro e he; simp at he; subst he; rfl
        · rw [if_neg hred]
          by_cases hamp : tj = amp
          · rw [if_pos hamp]
            exact ih _ _ _ _
          · rw [if_neg hamp]
            exact ih _ _ _ _
    · simp only [hj, if_false]
      exact ⟨[], by simp, TraceOK.nil_of_not_exit _ (by simp)⟩

theorem TraceOK.error_cast {α β : Type} (f : Fault) (es : List Event)
    (h : TraceOK (.error f : Except Fault α) es) : TraceOK (.error f : Except Fault β) es := by
  cases f <;> exact h

theorem TraceOK.ok_iff {α : Type} (a : α) (es : List Event) :
    TraceOK (.ok a : Except Fault α) es ↔
      (∀ e ∈ es, isClose e = false) ∧ (∀ e ∈ es, isFailedOpen e = false) := Iff.rfl

theorem wirePipe_log (env : Env) (cmdNumber : Nat) (commands : List Command) (os : OS) :
    ∃ es, (wirePipe env cmdNumber commands os).2.log = os.log ++ es ∧
      (∀ e ∈ es, isClose e = false) ∧ (∀ e ∈ es, isFailedOpen e = false) := by
  unfold wirePipe sysPipe
  split
  · split
    · refine ⟨[Event.piped (lowestFree os.openFds)
          (lowestFree (lowestFree os.openFds :: os.openFds))], rfl, ?_, ?_⟩ <;>
        (intro e he; simp at he; subst he; rfl)
    · refine ⟨[Event.pipeFailed], rfl, ?_, ?_⟩ <;> (intro e he; simp at he; subst he; rfl)
  · exact ⟨[], by simp, by simp, by simp⟩

theorem stageLoop_trace (env : Env) (tokens : List Str) :
    ∀ (fuel cmdNumber : Nat) (st : Locals) (os : OS),
      ∃ es, (stageLoop env tokens fuel cmdNumber st os).2.log = os.log ++ es ∧
        TraceOK (stageLoop env tokens fuel cmdNumber st os).1 es := by
  intro fuel
  induction fuel with
  | zero =>
    intro c st os
    refine ⟨[], ?_, ?_⟩
    · unfold stageLoop; split <;> simp
    · apply TraceOK.nil_of_not_exit
      intro c; unfold stageLoop; split <;> simp
  | succ fuel ih =>
    intro c st os
    unfold stageLoop
    by_cases hc : c < st.commands.length
    · rw [if_pos hc]
      simp only []
      cases hget : getAt tokens st.first with
      | error f =>
        refine ⟨[], by simp, ?_⟩
        apply TraceOK.nil_of_not_exit
        intro c hc
        simp only [getAt] at hget
        split at hget <;> simp_all
      | ok token =>
        simp only []
        by_cases hmeta : token = amp ∨ token = lt ∨ token = gt ∨ token = bar
        · rw [if_pos hmeta]
          exact ⟨[], by simp, TraceOK.nil_of_not_exit _ (by simp)⟩
        · rw [if_neg hmeta]
          cases hcmd : getAt st.commands c with
          | error f =>
            refine ⟨[], by simp, ?_⟩
            apply TraceOK.nil_of_not_exit
            intro c hc
            simp only [getAt] at hcmd
            split at hcmd <;> simp_all
          | ok command =>
            simp only []
            obtain ⟨es1, hlog1, htr1⟩ := argLoop_trace env tokens c st.commands.length st.last
              st.last (st.first + 1)
              { execName := token, argv := command.argv ++ [some token],
                inputFd := 0, outputFd := 1, background := false } st.error os
            generalize argLoop env tokens c st.commands.length st.last st.last (st.first + 1)
              { execName := token, argv := command.argv ++ [some token],
                inputFd := 0, outputFd := 1, background := false } st.error os = res
              at hlog1 htr1
            obtain ⟨r, os1⟩ := res
            cases r with
            | error f => exact ⟨es1, hlog1, TraceOK.error_cast f es1 htr1⟩
            | ok ce =>
              obtain ⟨command1, error1⟩ := ce
              simp only []
              rw [TraceOK.ok_iff] at htr1
              cases error1 with
              | true =>
                simp only [Bool.not_true, Bool.false_eq_true, if_false]
                obtain ⟨es2, hlog2, htr2⟩ := ih (c + 1)
                  { st with commands := st.commands.set c command1, error := true } os1
                refine ⟨es1 ++ es2, ?_, TraceOK.prepend _ es1 es2 htr1.1 htr1.2 htr2⟩
                rw [hlog2, hlog1]; simp
              | false =>
                simp only [Bool.not_false, if_true]
                obtain ⟨esp, hlogp, hpc, hpf⟩ := wirePipe_log env c (st.commands.set c command1) os1
                obtain ⟨es2, hlog2, htr2⟩ := ih (c + 1)
                  { commands := modifyAt (wirePipe env c (st.commands.set c command1) os1).1 c
                      (fun c => { c with argv := c.argv ++ [none] }),
                    first := st.last + 1,
                    last := if st.last + 1 < tokens.length then findBar tokens (st.last + 1)
                      else st.last,
                    error := false }
                  (wirePipe env c (st.commands.set c command1) os1).2
                refine ⟨es1 ++ (esp ++ es2), ?_, ?_⟩
                · rw [hlog2, hlogp, hlog1]; simp
                · exact TraceOK.prepend _ es1 _ htr1.1 htr1.2
                    (TraceOK.prepend _ esp es2 hpc hpf htr2)
    · rw [if_neg hc]
      exact ⟨[], by simp, TraceOK.nil_of_not_exit _ (by simp)⟩

theorem closeAll_log : ∀ (cmds : List Command) (os : OS),
    ∃ es, (closeAll cmds os).log = os.log ++ es ∧ ∀ e ∈ es, isFailedOpen e = false := by
  intro cmds
  induction cmds with
  | nil => intro os; exact ⟨[], by simp [closeAll], by simp⟩
  | cons c cmds ih =>
    intro os
    unfold closeAll
    simp only []
    obtain ⟨es, hlog, hes⟩ := ih
      (if c.outputFd ≠ 1 then sysClose c.outputFd
          (if c.inputFd ≠ 0 then sysClose c.inputFd os else os)
        else (if c.inputFd ≠ 0 then sysClose c.inputFd os else os))
    by_cases h0 : c.inputFd ≠ 0 <;> by_cases h1 : c.outputFd ≠ 1
    · refine ⟨[Event.closed c.inputFd, Event.closed c.outputFd] ++ es, ?_, ?_⟩
      · rw [hlog]; simp [h0, h1, sysClose]
      · intro e he; simp at he
        rcases he with rfl | rfl | he
        · rfl
        · rfl
        · exact hes e he
    · refine ⟨[Event.closed c.inputFd] ++ es, ?_, ?_⟩
      · rw [hlog]; simp [h0, h1, sysClose]
      · intro e he; simp at he
        rcases he with rfl | he
        · rfl
        · exact hes e he
    · refine ⟨[Event.closed c.outputFd] ++ es, ?_, ?_⟩
      · rw [hlog]; simp [h0, h1, sysClose]
      · intro e he; simp at he
        rcases he with rfl | he
        · rfl
        · exact hes e he
    · refine ⟨es, ?_, hes⟩
      rw [hlog]; simp [h0, h1]

theorem trace_of_log (os os' : OS) (es : List Event) (h : os'.log = os.log ++ es) :
    trace os os' = es := by
  simp [trace, h]

theorem sysOpen_refused (env : Env) (path : Str) (flags : OpenFlags) (mode : Option Nat)
    (os : OS) (h : (sysOpen env path flags mode os).1 < 0) :
    ∃ log p f, env.canOpen log p f = false := by
  refine ⟨os.log, path, flags, ?_⟩
  unfold sysOpen at h
  by_cases hc : env.canOpen os.log path flags = true
  · simp only [hc, if_true] at h
    omega
  · simpa using hc

/-- The faults of the argument loop: an exit after a refused `open`, or an access past the end
of the tokens, which needs that no token follows the stage. -/
theorem scan_fault (env : Env) (c size : Nat) (post : List Str) :
    ∀ (g : List Str) (skip : Bool) (command : Command) (error : Bool) (os : OS) (f : Fault),
      (scan env c size post g skip command error os).1 = .error f →
      (f = .outOfBounds ∧ post = []) ∨
        ((f = .exited 2 ∨ f = .exited 3) ∧ ∃ log p fl, env.canOpen log p fl = false) := by
  intro g
  induction g with
  | nil => intro skip command error os f h; rw [scan] at h; simp at h
  | cons tj rest ih =>
    intro skip command error os f h
    cases skip with
    | true => rw [scan] at h; exact ih false _ _ _ f h
    | false =>
      rw [scan] at h
      split at h
      · split at h
        · split at h
          · rename_i hnone
            simp only [Except.error.injEq] at h
            refine Or.inl ⟨h.symm, ?_⟩
            cases post with
            | nil => rfl
            | cons p ps => cases rest <;> simp at hnone
          · dsimp only at h
            split at h
            · rename_i hneg
              simp only [Except.error.injEq] at h
              exact Or.inr ⟨Or.inl h.symm, sysOpen_refused _ _ _ _ _ hneg⟩
            · exact ih true _ _ _ f h
        · split at h
          · split at h
            · rename_i hnone
              simp only [Except.error.injEq] at h
              refine Or.inl ⟨h.symm, ?_⟩
              cases post with
              | nil => rfl
              | cons p ps => cases rest <;> simp at hnone
            · dsimp only at h
              split at h
              · rename_i hneg
                simp only [Except.error.injEq] at h
                exact Or.inr ⟨Or.inr h.symm, sysOpen_refused _ _ _ _ _ hneg⟩
              · exact ih true _ _ _ f h
          · simp at h
      · split at h
        · exact ih false _ _ _ f h
        · exact ih false _ _ _ f h

theorem scan_sticky (env : Env) (c size : Nat) (post : List Str) :
    ∀ (g : List Str) (skip : Bool) (command : Command) (os : OS) (cmd : Command) (e : Bool),
      (scan env c size post g skip command true os).1 = .ok (cmd, e) → e = true := by
  intro g
  induction g with
  | nil =>
    intro skip command os cmd e h
    rw [scan] at h
    simp only [Except.ok.injEq, Prod.mk.injEq] at h
    exact h.2.symm
  | cons tj rest ih =>
    intro skip command os cmd e h
    cases skip with
    | true => rw [scan] at h; exact ih false _ _ _ _ h
    | false =>
      rw [scan] at h
      split at h
      · split at h
        · split at h
          · simp at h
          · dsimp only at h
            split at h
            · simp at h
            · exact ih true _ _ _ _ h
        · split at h
          · split at h
            · simp at h
            · dsimp only at h
              split at h
              · simp at h
              · exact ih true _ _ _ _ h
          · simp only [Except.ok.injEq, Prod.mk.injEq] at h
            exact h.2.symm
      · split at h
        · exact ih false _ _ _ _ h
        · exact ih false _ _ _ _ h

theorem next_last (pre : List Str) (t : Str) (args g' : List Str) (gs' : List (List Str))
    (last : Nat) (hl : last = pre.length + 1 + args.length) (hb : bar ∉ g') (hne : g' ≠ []) :
    (if last + 1 < ((pre ++ t :: args ++ [bar]) ++ joinGroups (g' :: gs')).length then
        findBar ((pre ++ t :: args ++ [bar]) ++ joinGroups (g' :: gs')) (last + 1)
      else last) = (pre ++ t :: args ++ [bar]).length + g'.length := by
  have hplen : (pre ++ t :: args ++ [bar]).length = last + 1 := by
    rw [hl]; simp; omega
  have hpos : 0 < (joinGroups (g' :: gs')).length := by
    rw [joinGroups_cons]
    have : 0 < g'.length := List.length_pos.mpr hne
    simp only [List.length_append]; omega
  rw [if_pos (by rw [List.length_append, hplen]; omega), joinGroups_cons,
    ← List.append_assoc, ← hplen]
  apply findBar_group _ _ _ hb
  cases gs' with
  | nil => left; rfl
  | cons a b => right; exact ⟨_, rfl⟩

theorem stageLoop_error_mode (env : Env) (pre : List Str) (t : Str) (args post : List Str)
    (hpost : post ≠ []) :
    ∀ (fuel c : Nat) (st : Locals) (os : OS), st.first = pre.length →
      st.last = pre.length + 1 + args.length → st.error = true →
      st.commands.length ≤ c + fuel →
      Rejects env (stageLoop env (pre ++ t :: args ++ post) fuel c st os) := by
  intro fuel
  induction fuel with
  | zero =>
    intro c st os _ _ herr hlen
    rw [stageLoop_done _ _ _ _ _ _ (by omega)]
    exact Or.inl ⟨st, rfl, herr⟩
  | succ fuel ih =>
    intro c st os hfirst hlast herr hlen
    by_cases hc : c < st.commands.length
    · by_cases ht : t = amp ∨ t = lt ∨ t = gt ∨ t = bar
      · rw [List.append_assoc, List.cons_append,
          stageLoop_meta env pre t _ fuel c st os hfirst hc ht]
        exact Or.inl ⟨_, rfl, rfl⟩
      · obtain ⟨command, hcmd⟩ : ∃ command, st.commands[c]? = some command :=
          ⟨st.commands[c], List.getElem?_eq_getElem hc⟩
        rw [stageLoop_step env pre t args post fuel c st os command hfirst hlast ht hcmd]
        have hfault := scan_fault env c st.commands.length post args false
          { execName := t, argv := command.argv ++ [some t], inputFd := 0, outputFd := 1,
            background := false } st.error os
        have hst := scan_sticky env c st.commands.length post args false
          { execName := t, argv := command.argv ++ [some t], inputFd := 0, outputFd := 1,
            background := false } os
        rw [herr] at hfault ⊢
        generalize scan env c st.commands.length post args false
          { execName := t, argv := command.argv ++ [some t], inputFd := 0, outputFd := 1,
            background := false } true os = res at hfault hst
        obtain ⟨r1, os1⟩ := res
        cases r1 with
        | error f =>
          rcases hfault f rfl with ⟨-, hp⟩ | ⟨hex, hco⟩
          · exact absurd hp hpost
          · refine Or.inr ⟨?_, hco⟩
            rcases hex with rfl | rfl
            · left; rfl
            · right; rfl
        | ok ce =>
          obtain ⟨cmd1, e1⟩ := ce
          have he : e1 = true := hst cmd1 e1 rfl
          subst he
          simp only [Bool.not_true, Bool.false_eq_true, if_false]
          exact ih (c + 1) _ os1 hfirst hlast rfl (by simp only [List.length_set]; omega)
    · rw [stageLoop_done _ _ _ _ _ _ hc]
      exact Or.inl ⟨st, rfl, herr⟩

theorem lowestFreeFrom_spec (fds : List Nat) :
    ∀ (fuel n : Nat), lowestFreeFrom fds fuel n ∉ fds ∨
      (lowestFreeFrom fds fuel n = n + fuel ∧ ∀ k, n ≤ k → k < n + fuel → k ∈ fds) := by
  intro fuel
  induction fuel with
  | zero =>
    intro n
    right
    exact ⟨rfl, fun k h1 h2 => by omega⟩
  | succ fuel ih =>
    intro n
    rw [lowestFreeFrom]
    by_cases hn : n ∈ fds
    · rw [if_pos hn]
      rcases ih (n + 1) with h | ⟨h1, h2⟩
      · exact Or.inl h
      · right
        refine ⟨by rw [h1]; omega, ?_⟩
        intro k hk1 hk2
        by_cases hkn : k = n
        · rw [hkn]; exact hn
        · exact h2 k (by omega) (by omega)
    · rw [if_neg hn]
      exact Or.inl hn

theorem not_mem_of_initial_segment (fds : List Nat) (h : ∀ k, k < fds.length → k ∈ fds) :
    fds.length ∉ fds := by
  intro hmem
  have hsub : Finset.range fds.length ⊆ fds.toFinset := by
    intro k hk
    rw [List.mem_toFinset]
    exact h k (Finset.mem_range.mp hk)
  have hcard : fds.toFinset.card ≤ (Finset.range fds.length).card := by
    rw [Finset.card_range]
    exact List.toFinset_card_le fds
  have heq := Finset.eq_of_subset_of_card_le hsub hcard
  have : fds.length ∈ Finset.range fds.length := by
    rw [heq, List.mem_toFinset]; exact hmem
  simp at this

theorem lowestFree_not_mem (fds : List Nat) : lowestFree fds ∉ fds := by
  unfold lowestFree
  rcases lowestFreeFrom_spec fds fds.length 0 with h | ⟨h1, h2⟩
  · exact h
  · rw [h1, Nat.zero_add]
    exact not_mem_of_initial_segment fds (fun k hk => h2 k (Nat.zero_le _) (by omega))

/-! ## Records of runs that close nothing -/

theorem fileFds_append (a b : List Event) : fileFds (a ++ b) = fileFds a ++ fileFds b := by
  induction a with
  | nil => rfl
  | cons e a ih =>
    cases e with
    | opened p f m r =>
      simp only [List.cons_append, fileFds]
      split <;> simp [ih]
    | piped r w => simpa [fileFds] using ih
    | pipeFailed => simpa [fileFds] using ih
    | closed fd => simpa [fileFds] using ih
    | perror w => simpa [fileFds] using ih
    | cout t => simpa [fileFds] using ih

theorem pipesOf_append (a b : List Event) : pipesOf (a ++ b) = pipesOf a ++ pipesOf b := by
  induction a with
  | nil => rfl
  | cons e a ih =>
    cases e with
    | opened p f m r => simpa [pipesOf] using ih
    | piped r w => simp [pipesOf, ih]
    | pipeFailed => simpa [pipesOf] using ih
    | closed fd => simpa [pipesOf] using ih
    | perror w => simpa [pipesOf] using ih
    | cout t => simpa [pipesOf] using ih

theorem pipeEnds_append (a b : List (Int × Int)) :
    pipeEnds (a ++ b) = pipeEnds a ++ pipeEnds b := by
  simp [pipeEnds]

theorem Alloc.refl (os : OS) : Alloc os [] os := by
  refine ⟨by simp, fun n h => h, ?_, ?_⟩
  · intro x hx; simp [fileFds, pipesOf, pipeEnds] at hx
  · intro x hx; simp [fileFds] at hx

theorem Alloc.trans {os os1 os2 : OS} {es1 es2 : List Event}
    (h1 : Alloc os es1 os1) (h2 : Alloc os1 es2 os2) : Alloc os (es1 ++ es2) os2 := by
  obtain ⟨hl1, hm1, hf1, hd1⟩ := h1
  obtain ⟨hl2, hm2, hf2, hd2⟩ := h2
  have hnew : ∀ x ∈ fileFds (es1 ++ es2) ++ pipeEnds (pipesOf (es1 ++ es2)),
      ∃ n : Nat, (n : Int) = x ∧ n ∈ os2.openFds ∧ n ∉ os.openFds := by
    intro x hx
    rw [fileFds_append, pipesOf_append, pipeEnds_append] at hx
    have hx' : x ∈ (fileFds es1 ++ pipeEnds (pipesOf es1)) ∨
        x ∈ (fileFds es2 ++ pipeEnds (pipesOf es2)) := by
      simp only [List.mem_append] at hx ⊢
      tauto
    rcases hx' with hx' | hx'
    · obtain ⟨n, hn, hn1, hn0⟩ := hf1 x hx'
      exact ⟨n, hn, hm2 n hn1, hn0⟩
    · obtain ⟨n, hn, hn2, hn1⟩ := hf2 x hx'
      exact ⟨n, hn, hn2, fun h => hn1 (hm1 n h)⟩
  refine ⟨by rw [hl2, hl1]; simp, fun n h => hm2 n (hm1 n h), hnew, ?_⟩
  intro x hx hp
  rw [fileFds_append] at hx
  rw [pipesOf_append, pipeEnds_append] at hp
  rcases List.mem_append.mp hx with hx | hx <;> rcases List.mem_append.mp hp with hp | hp
  · exact hd1 x hx hp
  · obtain ⟨n, hn, hn1, -⟩ := hf1 x (List.mem_append_left _ hx)
    obtain ⟨m, hm, -, hm1'⟩ := hf2 x (List.mem_append_right _ hp)
    have : n = m := by omega
    exact hm1' (this ▸ hn1)
  · obtain ⟨n, hn, -, hn1⟩ := hf2 x (List.mem_append_left _ hx)
    obtain ⟨m, hm, hm1', -⟩ := hf1 x (List.mem_append_right _ hp)
    have : n = m := by omega
    exact hn1 (this ▸ hm1')
  · exact hd2 x hx hp

theorem Alloc.open (env : Env) (path : Str) (flags : OpenFlags) (mode : Option Nat) (os : OS)
    (h : ¬ (sysOpen env path flags mode os).1 < 0) :
    Alloc os [Event.opened path flags mode (sysOpen env path flags mode os).1]
      (sysOpen env path flags mode os).2 ∧
    fileFds [Event.opened path flags mode (sysOpen env path flags mode os).1] =
      [(sysOpen env path flags mode os).1] := by
  have hfree := lowestFree_not_mem os.openFds
  unfold sysOpen at h ⊢
  by_cases hc : env.canOpen os.log path flags = true
  · simp only [hc, if_true] at h ⊢
    refine ⟨⟨rfl, fun n hn => List.mem_cons_of_mem _ hn, ?_, ?_⟩, ?_⟩
    · intro x hx
      simp only [fileFds, h, if_false, pipesOf, pipeEnds, List.flatMap_nil, List.append_nil,
        List.mem_singleton] at hx
      exact ⟨lowestFree os.openFds, hx.symm, List.mem_cons_self _ _, hfree⟩
    · intro x _ hp
      simp [pipesOf, pipeEnds] at hp
    · simp only [fileFds, h, if_false]
  · have hc' : env.canOpen os.log path flags = false := by simpa using hc
    simp [hc'] at h

theorem Alloc.pipe (env : Env) (os : OS) (hp : env.canPipe os.log = true) :
    Alloc os [Event.piped (sysPipe env os).1.1 (sysPipe env os).1.2] (sysPipe env os).2 := by
  have hr := lowestFree_not_mem os.openFds
  have hw := lowestFree_not_mem (lowestFree os.openFds :: os.openFds)
  unfold sysPipe
  simp only [hp, if_true]
  refine ⟨rfl, ?_, ?_, ?_⟩
  · intro n hn
    exact List.mem_cons_of_mem _ (List.mem_cons_of_mem _ hn)
  · intro x hx
    simp only [fileFds, pipesOf, pipeEnds, List.nil_append, List.flatMap_cons, List.flatMap_nil,
      List.append_nil, List.mem_cons, List.mem_singleton, List.not_mem_nil, or_false] at hx
    rcases hx with rfl | rfl
    · exact ⟨lowestFree os.openFds, rfl, by simp, hr⟩
    · refine ⟨lowestFree (lowestFree os.openFds :: os.openFds), rfl, by simp, ?_⟩
      intro h
      exact hw (List.mem_cons_of_mem _ h)
  · intro x hx
    simp [fileFds] at hx

theorem Alloc.cout (text : Str) (os : OS) : Alloc os [Event.cout text] (sysCout text os) := by
  refine ⟨rfl, fun n h => h, ?_, ?_⟩
  · intro x hx; simp [fileFds, pipesOf, pipeEnds] at hx
  · intro x hx; simp [fileFds] at hx

theorem argLoop_alloc (env : Env) (tokens : List Str) (cmdNumber size last : Nat) :
    ∀ (fuel j : Nat) (command : Command) (error : Bool) (os : OS) (cmd' : Command) (e : Bool)
      (os' : OS),
      argLoop env tokens cmdNumber size last fuel j command error os = (.ok (cmd', e), os') →
      ∃ es, Alloc os es os' ∧ pipesOf es = [] ∧
        (cmd'.inputFd = command.inputFd ∨ cmd'.inputFd ∈ fileFds es) ∧
        (cmd'.outputFd = command.outputFd ∨ cmd'.outputFd ∈ fileFds es) := by
  intro fuel
  induction fuel with
  | zero =>
    intro j command error os cmd' e os' h
    unfold argLoop at h
    split at h
    · simp at h
    · simp only [Prod.mk.injEq, Except.ok.injEq] at h
      obtain ⟨⟨rfl, -⟩, rfl⟩ := h
      exact ⟨[], Alloc.refl os, rfl, Or.inl rfl, Or.inl rfl⟩
  | succ fuel ih =>
    intro j command error os cmd' e os' h
    unfold argLoop at h
    split at h
    · simp only [] at h
      split at h
      · simp at h
      · split at h
        · split at h
          · split at h
            · simp at h
            · rename_i file _
              try dsimp only at h
              split at h
              · simp at h
              · rename_i hneg
                obtain ⟨es, hal, hp, hin, hout⟩ := ih _ _ _ _ _ _ _ h
                obtain ⟨hopen, hfile⟩ := Alloc.open env file inputFlags none os hneg
                refine ⟨_ ++ es, Alloc.trans hopen hal, ?_, ?_, ?_⟩
                · rw [pipesOf_append, hp]; rfl
                · right
                  rw [fileFds_append, hfile]
                  rcases hin with hin | hin
                  · rw [hin]; simp
                  · exact List.mem_append_right _ hin
                · rcases hout with hout | hout
                  · exact Or.inl hout
                  · right; rw [fileFds_append]; exact List.mem_append_right _ hout
          · split at h
            · split at h
              · simp at h
              · rename_i file _
                try dsimp only at h
                split at h
                · simp at h
                · rename_i hneg
                  obtain ⟨es, hal, hp, hin, hout⟩ := ih _ _ _ _ _ _ _ h
                  obtain ⟨hopen, hfile⟩ := Alloc.open env file outputFlags (some 0o666) os hneg
                  refine ⟨_ ++ es, Alloc.trans hopen hal, ?_, ?_, ?_⟩
                  · rw [pipesOf_append, hp]; rfl
                  · rcases hin with hin | hin
                    · exact Or.inl hin
                    · right; rw [fileFds_append]; exact List.mem_append_right _ hin
                  · right
                    rw [fileFds_append, hfile]
                    rcases hout with hout | hout
                    · rw [hout]; simp
                    · exact List.mem_append_right _ hout
            · simp only [Prod.mk.injEq, Except.ok.injEq] at h
              obtain ⟨⟨rfl, -⟩, rfl⟩ := h
              exact ⟨_, Alloc.cout _ os, rfl, Or.inl rfl, Or.inl rfl⟩
        · split at h
          · have := ih _ _ _ _ _ _ _ h
            exact this
          · have := ih _ _ _ _ _ _ _ h
            exact this
    · simp only [Prod.mk.injEq, Except.ok.injEq] at h
      obtain ⟨⟨rfl, -⟩, rfl⟩ := h
      exact ⟨[], Alloc.refl os, rfl, Or.inl rfl, Or.inl rfl⟩

theorem wirePipe_prev (env : Env) (c : Nat) (cmds : List Command) (os : OS) (cmd : Command)
    (hc : 0 < c) (hcmd : cmds[c - 1]? = some cmd) :
    (wirePipe env c cmds os).1[c - 1]? = some { cmd with outputFd := (sysPipe env os).1.2 } := by
  unfold wirePipe
  simp only [gt_iff_lt, hc, if_true]
  rw [getElem?_modifyAt, getElem?_modifyAt, if_pos rfl, if_neg (by omega), hcmd]
  rfl

theorem wirePipe_alloc (env : Env) (hp : ∀ log, env.canPipe log = true) (c : Nat)
    (cmds : List Command) (os : OS) :
    ∃ es, Alloc os es (wirePipe env c cmds os).2 ∧ fileFds es = [] ∧
      pipesOf es = if 0 < c then [(sysPipe env os).1] else [] := by
  unfold wirePipe
  by_cases hc : 0 < c
  · simp only [gt_iff_lt, hc, if_true]
    exact ⟨_, Alloc.pipe env os (hp _), rfl, rfl⟩
  · simp only [gt_iff_lt, hc, if_false]
    exact ⟨[], Alloc.refl os, rfl, rfl⟩

/-! ## Pipes between neighbours -/

theorem stageLoop_wiring (env : Env) (hp : ∀ log, env.canPipe log = true) (tokens : List Str) :
    ∀ (fuel c : Nat) (st : Locals) (os : OS) (st' : Locals) (os' : OS),
      stageLoop env tokens fuel c st os = (.ok st', os') → st'.error = false →
      ∃ es, Alloc os es os' ∧
        List.Forall₂ (Wired st'.commands) (pipesOf es)
          (List.range' (max c 1) (st.commands.length - max c 1)) ∧
        (c < st.commands.length → ∃ l, st'.commands[st.commands.length - 1]? = some l ∧
          (l.outputFd = 1 ∨ l.outputFd ∈ fileFds es)) ∧
        (c = 0 → 0 < st.commands.length → ∃ f, st'.commands[0]? = some f ∧
          (f.inputFd = 0 ∨ f.inputFd ∈ fileFds es)) := by
  intro fuel
  induction fuel with
  | zero =>
    intro c st os st' os' h herr
    unfold stageLoop at h
    split at h
    · simp at h
    · rename_i hc
      simp only [Prod.mk.injEq, Except.ok.injEq] at h
      obtain ⟨rfl, rfl⟩ := h
      refine ⟨[], Alloc.refl os, ?_, fun h => absurd h hc, fun h0 hpos => ?_⟩
      · have : st.commands.length - max c 1 = 0 := by omega
        rw [this]; exact List.Forall₂.nil
      · subst h0; exact absurd hpos hc
  | succ fuel ih =>
    intro c st os st' os' h herr
    unfold stageLoop at h
    split at h
    · rename_i hc
      simp only [] at h
      split at h
      · simp at h
      · split at h
        · simp only [Prod.mk.injEq, Except.ok.injEq] at h
          rw [← h.1] at herr
          simp at herr
        · split at h
          · simp at h
          · rename_i command hcommand
            split at h
            · simp at h
            · rename_i cmd1 e1 os1 harg
              split at h
              · rename_i he1
                have he : e1 = false := by simpa using he1
                subst he
                obtain ⟨es1, hal1, hp1, hin1, hout1⟩ := argLoop_alloc _ _ _ _ _ _ _ _ _ _ _ _ _ harg
                obtain ⟨es2, hal2, hf2, hp2⟩ := wirePipe_alloc env hp c (st.commands.set c cmd1) os1
                obtain ⟨es3, hal3, hw3, hlast3, -⟩ := ih _ _ _ _ _ h herr
                obtain ⟨hlen', hfr⟩ := stageLoop_frame env _ _ _ _ _ _ _ h
                simp only [modifyAt_length, wirePipe_length, List.length_set] at hw3 hlast3 hlen'
                have hset : (st.commands.set c cmd1)[c]? = some cmd1 := by
                  rw [List.getElem?_set_self hc]
                obtain ⟨x, hx, hx0, hxp⟩ := wirePipe_at env c (st.commands.set c cmd1) os1 cmd1 hset
                have h1c : (modifyAt (wirePipe env c (st.commands.set c cmd1) os1).1 c
                    (fun c => { c with argv := c.argv ++ [none] }))[c]? =
                    some { cmd1 with inputFd := x, argv := cmd1.argv ++ [none] } := by
                  rw [getElem?_modifyAt, if_pos rfl, hx]
                  rfl
                obtain ⟨xc, hxc, -⟩ := hfr c _ (by omega) h1c
                refine ⟨es1 ++ (es2 ++ es3), Alloc.trans hal1 (Alloc.trans hal2 hal3), ?_, ?_, ?_⟩
                · rw [pipesOf_append, pipesOf_append, hp1, hp2, List.nil_append]
                  by_cases hc0 : 0 < c
                  · rw [if_pos hc0]
                    have hmax : max c 1 = c := by omega
                    have hmax' : max (c + 1) 1 = c + 1 := by omega
                    rw [hmax]
                    rw [hmax'] at hw3
                    have hn : st.commands.length - c = (st.commands.length - (c + 1)) + 1 := by
                      omega
                    rw [hn, List.range'_succ]
                    refine List.Forall₂.cons ?_ hw3
                    obtain ⟨prev, hprev⟩ : ∃ prev, st.commands[c - 1]? = some prev :=
                      ⟨st.commands[c - 1], List.getElem?_eq_getElem (by omega)⟩
                    have hsetp : (st.commands.set c cmd1)[c - 1]? = some prev := by
                      rw [List.getElem?_set_ne (by omega)]; exact hprev
                    have h1p : (modifyAt (wirePipe env c (st.commands.set c cmd1) os1).1 c
                        (fun c => { c with argv := c.argv ++ [none] }))[c - 1]? =
                        some { prev with outputFd := (sysPipe env os1).1.2 } := by
                      rw [getElem?_modifyAt, if_neg (by omega),
                        wirePipe_prev env c _ os1 prev hc0 hsetp]
                    obtain ⟨xp, hxp1, hxp2⟩ := hfr (c - 1) _ (by omega) h1p
                    have hxpe := hxp2 (by omega)
                    refine ⟨_, _, hxp1, hxc, ?_, ?_⟩
                    · simp only [hxpe]
                    · simp only [hxp hc0]
                  · rw [if_neg hc0]
                    have h0 : c = 0 := by omega
                    subst h0
                    simpa using hw3
                · intro _
                  by_cases hl : c + 1 < st.commands.length
                  · obtain ⟨l, hl1, hl2⟩ := hlast3 hl
                    refine ⟨l, hl1, ?_⟩
                    rcases hl2 with hl2 | hl2
                    · exact Or.inl hl2
                    · right
                      rw [fileFds_append, fileFds_append]
                      exact List.mem_append_right _ (List.mem_append_right _ hl2)
                  · rw [stageLoop_done _ _ _ _ _ _ (by
                      simp only [modifyAt_length, wirePipe_length, List.length_set]; omega)] at h
                    simp only [Prod.mk.injEq, Except.ok.injEq] at h
                    have hc1 : st.commands.length - 1 = c := by omega
                    rw [hc1, ← h.1]
                    refine ⟨_, h1c, ?_⟩
                    rcases hout1 with hout1 | hout1
                    · exact Or.inl hout1
                    · right
                      rw [fileFds_append]
                      exact List.mem_append_left _ hout1
                · intro h0 _
                  subst h0
                  refine ⟨_, hxc, ?_⟩
                  have hxe : x = cmd1.inputFd := hx0 rfl
                  rcases hin1 with hin1 | hin1
                  · left; simp only [hxe]; exact hin1
                  · right
                    rw [fileFds_append]
                    simp only [hxe]
                    exact List.mem_append_left _ hin1
              · rename_i he1
                have he : e1 = true := by simpa using he1
                subst he
                have := stageLoop_sticky env _ _ _ _ _ _ _ rfl h
                rw [this] at herr
                simp at herr
    · rename_i hc
      simp only [Prod.mk.injEq, Except.ok.injEq] at h
      obtain ⟨rfl, rfl⟩ := h
      refine ⟨[], Alloc.refl os, ?_, fun h => absurd h hc, fun h0 hpos => ?_⟩
      · have : st.commands.length - max c 1 = 0 := by omega
        rw [this]; exact List.Forall₂.nil
      · subst h0; exact absurd hpos hc

/-! ## The tokenizer: claims C1 and C9 -/

/-- C1. For every input string `s`, `tokenize s` returns, and every token it returns is
non-empty, contains no space character, and is either exactly one of the one-character strings
`&`, `<`, `>`, `|` or contains none of those four characters. -/
theorem tokenize_tokens_wellformed (s : Str) :
    ∃ toks, tokenize s = .ok toks ∧ ∀ t ∈ toks, t ≠ [] ∧ ' ' ∉ t ∧
      (t = ['&'] ∨ t = ['<'] ∨ t = ['>'] ∨ t = ['|'] ∨
        ('&' ∉ t ∧ '<' ∉ t ∧ '>' ∉ t ∧ '|' ∉ t)) := by
  obtain ⟨out, ho, hflat, hgood, -⟩ := tokenize_spec s
  refine ⟨out, ho, ?_⟩
  intro t ht
  obtain ⟨hne, hmeta⟩ := hgood t ht
  refine ⟨hne, ?_, ?_⟩
  · intro hsp
    have hmem : ' ' ∈ out.flatten := List.mem_flatten.mpr ⟨t, ht, hsp⟩
    rw [hflat, List.mem_filter] at hmem
    simp [isSpace] at hmem
  · rcases hmeta with hlen | hclean
    · match t, hne, hlen with
      | [x], _, _ =>
        by_cases h1 : x = '&'
        · left; rw [h1]
        by_cases h2 : x = '<'
        · right; left; rw [h2]
        by_cases h3 : x = '>'
        · right; right; left; rw [h3]
        by_cases h4 : x = '|'
        · right; right; right; left; rw [h4]
        right; right; right; right
        simp only [List.mem_singleton]
        exact ⟨fun h => h1 h.symm, fun h => h2 h.symm, fun h => h3 h.symm, fun h => h4 h.symm⟩
      | _ :: _ :: _, _, hlen => simp only [List.length_cons] at hlen; omega
    · right; right; right; right
      simp only [symbols, List.mem_cons, List.mem_singleton, forall_eq_or_imp, forall_eq] at hclean
      simpa using hclean

/-- C9, as stated, fails: the line `a<TAB>b` contains no metacharacter, its whitespace-separated
words are `a` and `b`, and `tokenize` returns the single token `a<TAB>b`, because it cuts at
the space character only. -/
theorem tokenize_keeps_tab :
    ('&' ∉ ['a', Char.ofNat 9, 'b'] ∧ '<' ∉ ['a', Char.ofNat 9, 'b'] ∧
      '>' ∉ ['a', Char.ofNat 9, 'b'] ∧ '|' ∉ ['a', Char.ofNat 9, 'b']) ∧
    wordsBy Char.isWhitespace ['a', Char.ofNat 9, 'b'] = [['a'], ['b']] ∧
    tokenize ['a', Char.ofNat 9, 'b'] = .ok [['a', Char.ofNat 9, 'b']] ∧
    tokenize ['a', Char.ofNat 9, 'b'] ≠ .ok (wordsBy Char.isWhitespace ['a', Char.ofNat 9, 'b']) := by
  decide

/-- C9, amended. For every input line that contains none of the characters `&`, `<`, `>`, `|`,
`tokenize` returns the list of the space-separated words of the line: the maximal runs of
characters other than the space character, in order. -/
theorem tokenize_plain_line (s : Str) (h : '&' ∉ s ∧ '<' ∉ s ∧ '>' ∉ s ∧ '|' ∉ s) :
    tokenize s = .ok (wordsBy isSpace s) := by
  obtain ⟨out, ho, -, -, hsame⟩ := tokenize_spec s
  rw [ho, hsame]
  intro c hc
  simp only [symbols, List.mem_cons, List.mem_singleton] at hc
  rcases hc with rfl | rfl | rfl | hc
  · exact h.1
  · exact h.2.1
  · exact h.2.2.1
  · simp at hc; subst hc; exact h.2.2.2

/-- The amended C9 on the line `ls  -l`. -/
theorem tokenize_plain_line_witness :
    ('&' ∉ "ls  -l".toList ∧ '<' ∉ "ls  -l".toList ∧ '>' ∉ "ls  -l".toList ∧
      '|' ∉ "ls  -l".toList) ∧
    tokenize "ls  -l".toList = .ok (wordsBy isSpace "ls  -l".toList) :=
  ⟨by decide, tokenize_plain_line "ls  -l".toList (by decide)⟩

/-! ## Placement of redirections: claim C2 -/

/-- C3 fails on the tokens of `sort < a < b | nl < c`. Stage 0 opens `a` as descriptor 3 and
then `b` as descriptor 4, which replaces 3 in `inputFd`; the `<` of stage 1 makes the parse
fail; the error clause closes 4 only. The call returns the empty sequence and descriptor 3 is
still open: four descriptors are open where three were before. -/
theorem getCommands_failure_leaks :
    getCommands everyOpenSucceeds valueInitialized
        ["sort".toList, lt, "a".toList, lt, "b".toList, bar, "nl".toList, lt, "c".toList]
        freshShell =
      (.ok [],
       { openFds := [3, 0, 1, 2],
         log := [Event.opened "a".toList inputFlags none 3,
                 Event.opened "b".toList inputFlags none 4,
                 Event.cout "\ni/o redirection error\n".toList,
                 Event.cout "hit the error clause\n".toList,
                 Event.closed 4] }) := by
  decide

/-! ## Pipes: claim C4 -/

/-- The wiring of the pipes when nothing goes wrong. For every token sequence with `k` bars that
`getCommands` accepts, in a process whose descriptors 0 and 1 are open at entry and in which
every call of `pipe` succeeds: the returned sequence has `k + 1` Commands, `k` pipes are
created, the `i`-th pipe has its write end in `outputFd` of stage `i` and its read end in
`inputFd` of stage `i + 1`, and neither the input of stage 0 nor the output of the last stage
is an end of any of these pipes. -/
theorem getCommands_pipes (env : Env) (blank : Command) (tokens : List Str) (os : OS)
    (cmds : List Command) (os' : OS)
    (h : getCommands env blank tokens os = (.ok cmds, os')) (hne : cmds ≠ [])
    (h0 : 0 ∈ os.openFds) (h1 : 1 ∈ os.openFds) (hp : ∀ log, env.canPipe log = true) :
    cmds.length = tokens.count bar + 1 ∧
    (pipesOf (trace os os')).length = tokens.count bar ∧
    (∀ (i : Nat) (p : Int × Int), (pipesOf (trace os os'))[i]? = some p →
      ∃ a b, cmds[i]? = some a ∧ cmds[i + 1]? = some b ∧
        a.outputFd = p.2 ∧ b.inputFd = p.1) ∧
    (∀ (f l : Command), cmds.head? = some f → cmds.getLast? = some l →
      ∀ p ∈ pipesOf (trace os os'),
        f.inputFd ≠ p.1 ∧ f.inputFd ≠ p.2 ∧ l.outputFd ≠ p.1 ∧ l.outputFd ≠ p.2) := by
  unfold getCommands at h
  simp only [] at h
  split at h
  · simp at h
  · rename_i st os1 hloop
    split at h
    · simp only [Prod.mk.injEq, Except.ok.injEq] at h
      exact absurd h.1.symm hne
    · rename_i herr
      simp only [Prod.mk.injEq, Except.ok.injEq] at h
      obtain ⟨rfl, rfl⟩ := h
      obtain ⟨es, hal, hw, hlast, hfirst⟩ := stageLoop_wiring env hp tokens _ _ _ _ _ _ hloop
        (by simpa using herr)
      obtain ⟨hlen, -⟩ := stageLoop_frame env tokens _ _ _ _ _ _ hloop
      simp only [List.length_replicate] at hlen hw hlast hfirst
      have htr : trace os os1 = es := trace_of_log _ _ _ hal.1
      have hmax : max 0 1 = 1 := rfl
      rw [hmax] at hw
      have hplen : (pipesOf es).length = tokens.count bar := by
        rw [hw.length_eq, List.length_range']; omega
      have hends : ∀ p ∈ pipesOf es, p.1 ∈ pipeEnds (pipesOf es) ∧ p.2 ∈ pipeEnds (pipesOf es) := by
        intro p hp
        simp only [pipeEnds, List.mem_flatMap]
        exact ⟨⟨p, hp, by simp⟩, ⟨p, hp, by simp⟩⟩
      have hstd : ∀ x ∈ pipeEnds (pipesOf es), x ≠ 0 ∧ x ≠ 1 := by
        intro x hx
        obtain ⟨n, hn, -, hn0⟩ := hal.2.2.1 x (List.mem_append_right _ hx)
        constructor
        · intro hx0
          have : n = 0 := by omega
          exact hn0 (this ▸ h0)
        · intro hx1
          have : n = 1 := by omega
          exact hn0 (this ▸ h1)
      refine ⟨hlen, by rw [htr]; exact hplen, ?_, ?_⟩
      · intro i p hp
        rw [htr] at hp
        have hi : i < tokens.count bar := by
          rw [← hplen]
          by_contra hn
          rw [List.getElem?_eq_none (by omega)] at hp
          exact Option.noConfusion hp
        have hr : (List.range' 1 (tokens.count bar + 1 - 1))[i]? = some (1 + 1 * i) :=
          List.getElem?_range' 1 1 (by omega)
        obtain ⟨a, b, ha, hb, hab⟩ := forall₂_getElem? hw i p _ hp hr
        have e1 : 1 + 1 * i - 1 = i := by omega
        have e2 : 1 + 1 * i = i + 1 := by omega
        rw [e1] at ha
        rw [e2] at hb
        exact ⟨a, b, ha, hb, hab⟩
      · intro f l hf hl p hp
        rw [htr] at hp
        obtain ⟨hp1, hp2⟩ := hends p hp
        rw [List.head?_eq_getElem?] at hf
        rw [List.getLast?_eq_getElem?, hlen] at hl
        obtain ⟨f', hf', hfin⟩ := hfirst trivial (by omega)
        obtain ⟨l', hl', hlout⟩ := hlast (by omega)
        rw [hf] at hf'
        rw [hl] at hl'
        simp only [Option.some.injEq] at hf' hl'
        subst hf'; subst hl'
        have hfne : ∀ x ∈ pipeEnds (pipesOf es), f.inputFd ≠ x := by
          intro x hx hfx
          rcases hfin with hfin | hfin
          · exact (hstd x hx).1 (by rw [← hfx, hfin])
          · exact hal.2.2.2 _ hfin (hfx ▸ hx)
        have hlne : ∀ x ∈ pipeEnds (pipesOf es), l.outputFd ≠ x := by
          intro x hx hlx
          rcases hlout with hlout | hlout
          · exact (hstd x hx).2 (by rw [← hlx, hlout])
          · exact hal.2.2.2 _ hlout (hlx ▸ hx)
        exact ⟨hfne _ hp1, hfne _ hp2, hlne _ hp1, hlne _ hp2⟩

/-- The wiring on the tokens of `cat file.txt | nl` in a fresh shell: one pipe, descriptors 3
and 4. -/
theorem getCommands_pipes_witness :
    getCommands everyOpenSucceeds valueInitialized
        ["cat".toList, "file.txt".toList, bar, "nl".toList] freshShell =
      (.ok [{ execName := "cat".toList, argv := [some "cat".toList, some "file.txt".toList, none],
              inputFd := 0, outputFd := 4, background := false },
            { execName := "nl".toList, argv := [some "nl".toList, none],
              inputFd := 3, outputFd := 1, background := false }],
       { openFds := [4, 3, 0, 1, 2], log := [Event.piped 3 4] }) ∧
    pipesOf (trace freshShell { openFds := [4, 3, 0, 1, 2], log := [Event.piped 3 4] }) =
      [(3, 4)] ∧
    (pipesOf (trace freshShell { openFds := [4, 3, 0, 1, 2], log := [Event.piped 3 4] })).length =
      List.count bar ["cat".toList, "file.txt".toList, bar, "nl".toList] :=
  ⟨by decide, by decide,
    (getCommands_pipes everyOpenSucceeds valueInitialized
      ["cat".toList, "file.txt".toList, bar, "nl".toList] freshShell
      [{ execName := "cat".toList, argv := [some "cat".toList, some "file.txt".toList, none],
         inputFd := 0, outputFd := 4, background := false },
       { execName := "nl".toList, argv := [some "nl".toList, none],
         inputFd := 3, outputFd := 1, background := false }]
      { openFds := [4, 3, 0, 1, 2], log := [Event.piped 3 4] }
      (by decide) (by decide) (by decide) (by decide) (fun _ => rfl)).2.1⟩

/-- C4 fails on the tokens of `a | b`, which `getCommands` accepts with two Commands, in two
ways. When the call of `pipe` fails, no pipe exists; the source does not look at the return
code and stores what its array `fds` happens to hold, here 7 and 8, as the input of stage 1 and
the output of stage 0, and these are ends of no pipe and not open. When `pipe` succeeds in a
process whose descriptor 0 is closed at entry, the pipe has the read end 0 and the write end 3,
and the input of stage 0, which still holds the value 0 that stands for the standard input, is
the read end of that pipe. -/
theorem getCommands_ignores_failed_pipe :
    getCommands pipeFails valueInitialized ["a".toList, bar, "b".toList] freshShell =
      (.ok [{ execName := "a".toList, argv := [some "a".toList, none], inputFd := 0,
              outputFd := 8, background := false },
            { execName := "b".toList, argv := [some "b".toList, none], inputFd := 7,
              outputFd := 1, background := false }],
        { openFds := [0, 1, 2], log := [Event.pipeFailed] }) ∧
    pipesOf (trace freshShell (getCommands pipeFails valueInitialized
      ["a".toList, bar, "b".toList] freshShell).2) = [] ∧
    getCommands everyOpenSucceeds valueInitialized ["a".toList, bar, "b".toList]
        { openFds := [1, 2], log := [] } =
      (.ok [{ execName := "a".toList, argv := [some "a".toList, none], inputFd := 0,
              outputFd := 3, background := false },
            { execName := "b".toList, argv := [some "b".toList, none], inputFd := 0,
              outputFd := 1, background := false }],
        { openFds := [3, 0, 1, 2], log := [Event.piped 0 3] }) := by
  decide

/-! ## The fields of a Command: claim C5 -/

/-- C5 fails on the tokens of `a < &`. Nothing checks that the token after `<` is a filename:
the line is accepted with `&` opened as the input file; the only group contains an `&` after
its first token, and `background` of its Command is false. -/
theorem getCommands_ampersand_as_filename :
    groups ["a".toList, lt, amp] = [["a".toList, lt, amp]] ∧
    amp ∈ [lt, amp] ∧
    (getCommands everyOpenSucceeds valueInitialized ["a".toList, lt, amp] freshShell).1 =
      .ok [{ execName := "a".toList, argv := [some "a".toList, none], inputFd := 3,
             outputFd := 1, background := false }] := by
  decide

/-- The fields of the Commands when every redirection has a filename. For every token sequence
that `getCommands` accepts and in which every `<` and `>` of a stage is directly followed,
inside the stage, by a token that is none of `&`, `<`, `>`, `|`: there is one Command per
group, and the Command of a group has `execName` equal to
the group's first token, `argv` equal to that token followed, in order, by the tokens of the
group that are neither `&`, `<`, `>` nor directly after a `<` or `>`, followed by one null
entry, and `background` true exactly when the group contains an `&` after its first token.
(The argument vector of a new Command is taken to be empty.) -/
theorem getCommands_fields (env : Env) (blank : Command) (tokens : List Str) (os : OS)
    (cmds : List Command) (os' : OS) (hblank : blank.argv = [])
    (hops : ∀ g ∈ groups tokens, operandsOk g = true)
    (h : getCommands env blank tokens os = (.ok cmds, os')) (hne : cmds ≠ []) :
    cmds.length = (groups tokens).length ∧
    ∀ (i : Nat) (cmd : Command) (g : List Str),
      cmds[i]? = some cmd → (groups tokens)[i]? = some g →
      ∃ t rest, g = t :: rest ∧ cmd.execName = t ∧
        cmd.argv = some t :: (specArgs g).map some ++ [none] ∧
        cmd.background = decide (amp ∈ rest) := by
  have hcore := getCommands_core env blank tokens os cmds os' hblank h hne
  refine ⟨hcore.length_eq, ?_⟩
  intro i cmd g hcmd hg
  obtain ⟨t, args, rfl, ht, hex, hargv, hbg⟩ := forall₂_getElem? hcore i cmd g hcmd hg
  have hok := hops _ (List.getElem?_mem hg)
  obtain ⟨hA, hB⟩ := scan_spec_agree args t hok
  have htr : ¬ (t = lt ∨ t = gt) := fun h => ht (by tauto)
  simp only [htr, decide_False] at hA hB
  exact ⟨t, args, rfl, hex, by rw [hargv, hA, specArgs], by rw [hbg, hB]⟩

/-- The fields on the tokens of `sort -r < in.txt & | nl`. -/
theorem getCommands_fields_witness :
    getCommands everyOpenSucceeds valueInitialized
        ["sort".toList, "-r".toList, lt, "in.txt".toList, amp, bar, "nl".toList] freshShell =
      (.ok [{ execName := "sort".toList, argv := [some "sort".toList, some "-r".toList, none],
              inputFd := 3, outputFd := 5, background := true },
            { execName := "nl".toList, argv := [some "nl".toList, none],
              inputFd := 4, outputFd := 1, background := false }],
       { openFds := [5, 4, 3, 0, 1, 2],
         log := [Event.opened "in.txt".toList inputFlags none 3, Event.piped 4 5] }) ∧
    (2 : Nat) = (groups ["sort".toList, "-r".toList, lt, "in.txt".toList, amp, bar,
      "nl".toList]).length :=
  ⟨by decide,
    (getCommands_fields everyOpenSucceeds valueInitialized
      ["sort".toList, "-r".toList, lt, "in.txt".toList, amp, bar, "nl".toList] freshShell
      [{ execName := "sort".toList, argv := [some "sort".toList, some "-r".toList, none],
         inputFd := 3, outputFd := 5, background := true },
       { execName := "nl".toList, argv := [some "nl".toList, none],
         inputFd := 4, outputFd := 1, background := false }]
      { openFds := [5, 4, 3, 0, 1, 2],
        log := [Event.opened "in.txt".toList inputFlags none 3, Event.piped 4 5] }
      (by decide) (by decide) (by decide) (by decide)).1⟩

/-! ## Repeated redirections: claim C6 -/

/-- C6 fails on the tokens of `cmd > a.txt > b.txt`: the call opens `a.txt` as descriptor 3 and
`b.txt` as descriptor 4, returns one Command whose `outputFd` is 4, and calls `close` not once;
descriptor 3 is still open and no Command holds it. -/
theorem getCommands_repeated_redirection_leaks :
    getCommands everyOpenSucceeds valueInitialized
        ["cmd".toList, gt, "a.txt".toList, gt, "b.txt".toList] freshShell =
      (.ok [{ execName := "cmd".toList, argv := [some "cmd".toList, none],
              inputFd := 0, outputFd := 4, background := false }],
       { openFds := [4, 3, 0, 1, 2],
         log := [Event.opened "a.txt".toList outputFlags (some 0o666) 3,
                 Event.opened "b.txt".toList outputFlags (some 0o666) 4] }) := by
  decide

/-! ## A redirection without a filename: claim C7 -/

/-- C7 fails on the tokens of `cat <`: in every file system, for the single-stage sequence
`cat`, `<` the call reads `tokens[2]` of a two-element vector and does not return the empty
sequence. On the tokens of `cat < | nl` it takes the bar as the filename and accepts. -/
theorem getCommands_reads_past_end (env : Env) (blank : Command) (os : OS) :
    getCommands env blank ["cat".toList, lt] os = (.error .outOfBounds, os) ∧
    (getCommands everyOpenSucceeds valueInitialized ["cat".toList, lt, bar, "nl".toList]
        freshShell).1 =
      .ok [{ execName := "cat".toList, argv := [some "cat".toList, none], inputFd := 3,
             outputFd := 5, background := false },
           { execName := "nl".toList, argv := [some "nl".toList, none], inputFd := 4,
             outputFd := 1, background := false }] := by
  constructor
  · rfl
  · decide

/-! ## A file that cannot be opened: claim C8 -/

/-- C8, as stated, fails on the tokens of `cat < nofile` when `nofile` cannot be opened: the
call does not return the empty sequence; it ends the shell process with status 2, after
`perror`. -/
theorem getCommands_exits_on_failed_open :
    getCommands noSuchFile valueInitialized ["cat".toList, lt, "nofile".toList] freshShell =
      (.error (.exited 2),
       { openFds := [0, 1, 2],
         log := [Event.opened "nofile".toList inputFlags none (-1),
                 Event.perror "open".toList] }) := by
  decide

/-- C8, amended. For every token sequence, when an `open` that `getCommands` makes fails, the
call does not return to its caller: the failed `open` and the `perror("open")` that follows it
are the last two things the call does, then the shell process exits, with status 2 when the
file was opened for input and with status 3 when it was opened for output, and `getCommands`
has closed no descriptor. -/
theorem getCommands_failed_open (env : Env) (blank : Command) (tokens : List Str) (os : OS)
    (path : Str) (flags : OpenFlags) (mode : Option Nat) (r : Int)
    (hmem : Event.opened path flags mode r ∈ trace os (getCommands env blank tokens os).2)
    (hr : r < 0) :
    (((getCommands env blank tokens os).1 = .error (.exited 2) ∧ flags = inputFlags) ∨
      ((getCommands env blank tokens os).1 = .error (.exited 3) ∧ flags = outputFlags)) ∧
    (∀ e ∈ trace os (getCommands env blank tokens os).2, isClose e = false) ∧
    ∃ es0, trace os (getCommands env blank tokens os).2 =
      es0 ++ [Event.opened path flags mode r, Event.perror "open".toList] := by
  obtain ⟨es, hlog, htr⟩ := stageLoop_trace env tokens
    (List.replicate (tokens.count bar + 1) blank).length 0
    { commands := List.replicate (tokens.count bar + 1) blank, first := 0,
      last := findBar tokens 0, error := false } os
  unfold getCommands at hmem ⊢
  simp only [] at hmem ⊢
  generalize stageLoop env tokens (List.replicate (tokens.count bar + 1) blank).length 0
    { commands := List.replicate (tokens.count bar + 1) blank, first := 0,
      last := findBar tokens 0, error := false } os = res at hlog htr hmem ⊢
  obtain ⟨res1, os1⟩ := res
  have hfail : isFailedOpen (Event.opened path flags mode r) = true := by
    simp [isFailedOpen, hr]
  cases res1 with
  | ok st =>
    exfalso
    rw [TraceOK.ok_iff] at htr
    simp only [] at hmem
    by_cases herr : st.error = true
    · simp only [herr, if_true] at hmem
      obtain ⟨es2, hlog2, hes2⟩ := closeAll_log st.commands
        (sysCout "hit the error clause\n".toList os1)
      have hl : (closeAll st.commands (sysCout "hit the error clause\n".toList os1)).log =
          os.log ++ (es ++ Event.cout "hit the error clause\n".toList :: es2) := by
        rw [hlog2]; simp only [sysCout]; simp only [] at hlog; rw [hlog]; simp
      rw [trace_of_log _ _ _ hl] at hmem
      rcases List.mem_append.mp hmem with h | h
      · have := htr.2 _ h; rw [hfail] at this; exact Bool.noConfusion this
      · rcases List.mem_cons.mp h with h | h
        · exact Event.noConfusion h
        · have := hes2 _ h; rw [hfail] at this; exact Bool.noConfusion this
    · simp only [herr, if_false, Bool.false_eq_true] at hmem
      rw [trace_of_log _ _ _ hlog] at hmem
      have := htr.2 _ hmem; rw [hfail] at this; exact Bool.noConfusion this
  | error f =>
    simp only [] at hmem hlog ⊢
    rw [trace_of_log _ _ _ hlog] at hmem ⊢
    cases f with
    | outOfBounds =>
      have := htr.2 _ hmem; rw [hfail] at this; exact Bool.noConfusion this
    | outOfFuel =>
      have := htr.2 _ hmem; rw [hfail] at this; exact Bool.noConfusion this
    | exited c =>
      obtain ⟨hcl, es0, path', flags', mode', hes, hes0, hcode⟩ := htr
      have hm : Event.opened path flags mode r = Event.opened path' flags' mode' (-1) := by
        rw [hes] at hmem
        rcases List.mem_append.mp hmem with h | h
        · have := hes0 _ h; rw [hfail] at this; exact Bool.noConfusion this
        · simp at h; simp [h]
      refine ⟨?_, hcl, es0, by rw [hm]; exact hes⟩
      have hflags : flags = flags' := by injection hm
      rcases hcode with ⟨rfl, hf⟩ | ⟨rfl, hf⟩
      · left; exact ⟨rfl, hflags.trans hf⟩
      · right; exact ⟨rfl, hflags.trans hf⟩

/-- The amended C8 on the tokens of `cat < nofile`. -/
theorem getCommands_failed_open_witness :
    Event.opened "nofile".toList inputFlags none (-1) ∈
      trace freshShell (getCommands noSuchFile valueInitialized
        ["cat".toList, lt, "nofile".toList] freshShell).2 ∧
    ((((getCommands noSuchFile valueInitialized ["cat".toList, lt, "nofile".toList]
          freshShell).1 = .error (.exited 2) ∧ inputFlags = inputFlags) ∨
      ((getCommands noSuchFile valueInitialized ["cat".toList, lt, "nofile".toList]
          freshShell).1 = .error (.exited 3) ∧ inputFlags = outputFlags)) ∧
    (∀ e ∈ trace freshShell (getCommands noSuchFile valueInitialized
        ["cat".toList, lt, "nofile".toList] freshShell).2, isClose e = false) ∧
    ∃ es0, trace freshShell (getCommands noSuchFile valueInitialized
        ["cat".toList, lt, "nofile".toList] freshShell).2 =
      es0 ++ [Event.opened "nofile".toList inputFlags none (-1),
        Event.perror "open".toList]) :=
  ⟨by decide, getCommands_failed_open noSuchFile valueInitialized
    ["cat".toList, lt, "nofile".toList] freshShell "nofile".toList inputFlags none (-1)
    (by decide) (by decide)⟩

/-! ## Lines without metacharacters: claim C10 -/

/-- C10 fails on the empty line and on a line of spaces: `tokenize` returns no token, and
`getCommands` reads `tokens[0]` of the empty vector instead of returning one Command with
`inputFd` 0, `outputFd` 1 and `background` false. On the line `ls` the claim holds. -/
theorem parseLine_empty_line (env : Env) (blank : Command) (os : OS) :
    parseLine env blank [] os = (.error .outOfBounds, os) ∧
    parseLine env blank [' ', ' '] os = (.error .outOfBounds, os) ∧
    parseLine env blank "ls".toList os =
      (.ok [{ execName := "ls".toList, argv := blank.argv ++ [some "ls".toList] ++ [none],
              inputFd := 0, outputFd := 1, background := false }], os) := by
  exact ⟨rfl, rfl, rfl⟩

/-! ## The tokenizer: claims C12 and C18 -/

theorem splitLoop_succ : ∀ (fuel : Nat) (ret : List Str) (i : Nat) (r : List Str),
    splitLoop fuel ret i = .ok r → splitLoop (fuel + 1) ret i = .ok r := by
  intro fuel
  induction fuel with
  | zero =>
    intro ret i r h
    unfold splitLoop at h
    split at h
    · simp at h
    · rename_i hi
      unfold splitLoop
      rw [if_neg hi]
      exact h
  | succ fuel ih =>
    intro ret i r h
    unfold splitLoop at h
    split at h
    · rename_i hi
      conv_lhs => unfold splitLoop
      rw [if_pos hi]
      simp only [] at h ⊢
      cases hts : trySymbols ret i symbols with
      | error e => rw [hts] at h; simp [bind, Except.bind] at h
      | ok p =>
        rw [hts, ok_bind] at h
        rw [ok_bind]
        split at h
        · rename_i hp
          rw [if_pos hp]
          exact ih _ _ _ h
        · rename_i hp
          rw [if_neg hp]
          exact ih _ _ _ h
    · rename_i hi
      unfold splitLoop
      rw [if_neg hi]
      exact h

theorem splitLoop_mono (fuel extra : Nat) (ret : List Str) (i : Nat) (r : List Str)
    (h : splitLoop fuel ret i = .ok r) : splitLoop (fuel + extra) ret i = .ok r := by
  induction extra with
  | zero => exact h
  | succ n ih => exact splitLoop_succ _ _ _ _ ih

/-- C12. `tokenize` is total: for every input string the space loop and the split loop
terminate and a token list is returned, no index of `splitOnSymbol` or `tokenize` leaving its
range (the fault `outOfBounds` does not occur); the result does not depend on the fuel, once
there is one unit per character for the space loop and two for the split loop. -/
theorem tokenize_total (s : Str) :
    ∃ toks, tokenize s = .ok toks ∧
      ∀ f1 f2, s.length ≤ f1 → 2 * s.length ≤ f2 →
        (spaceLoop s f1 0 [] >>= fun ret => splitLoop f2 ret 0) = .ok toks := by
  obtain ⟨out, ho, -, -, -⟩ := tokenize_spec s
  refine ⟨out, ho, ?_⟩
  intro f1 f2 h1 h2
  have hsp0 := spaceLoop_spec s s.length 0 [] (Nat.zero_le _) (by omega)
  have hsp1 := spaceLoop_spec s f1 0 [] (Nat.zero_le _) (by omega)
  unfold tokenize at ho
  rw [hsp0, ok_bind] at ho
  rw [hsp1, ok_bind]
  have := splitLoop_mono (2 * s.length) (f2 - 2 * s.length) _ _ _ ho
  rw [show 2 * s.length + (f2 - 2 * s.length) = f2 by omega] at this
  exact this

/-- C18. For every input string `s`, the tokens of `tokenize s`, concatenated in order, are
exactly `s` with all space characters removed. -/
theorem tokenize_concat (s : Str) :
    ∃ toks, tokenize s = .ok toks ∧ toks.flatten = s.filter (fun c => decide (c ≠ ' ')) := by
  obtain ⟨out, ho, hflat, -, -⟩ := tokenize_spec s
  refine ⟨out, ho, ?_⟩
  rw [hflat]
  apply List.filter_congr
  intro c _
  by_cases hc : c = ' ' <;> simp [isSpace, hc]

/-! ## A stage that begins with a metacharacter: claim C11 -/

theorem getLast?_tail_of_cons (tj : Str) (rest : List Str) (t : Str)
    (h : rest.getLast? = some t) : (tj :: rest).getLast? = some t := by
  cases rest with
  | nil => simp at h
  | cons a b => rw [List.getLast?_cons_cons]; exact h

theorem scan_in_bounds (env : Env) (c size : Nat) (post : List Str) :
    ∀ (g : List Str) (skip : Bool) (command : Command) (error : Bool) (os : OS),
      (post = [] → ∀ t, g.getLast? = some t → t ≠ lt ∧ t ≠ gt) →
      (scan env c size post g skip command error os).1 ≠ .error .outOfBounds := by
  intro g
  induction g with
  | nil => intro skip command error os _; rw [scan]; simp
  | cons tj rest ih =>
    intro skip command error os H
    have H' : post = [] → ∀ t, rest.getLast? = some t → t ≠ lt ∧ t ≠ gt :=
      fun hp t ht => H hp t (getLast?_tail_of_cons tj rest t ht)
    cases skip with
    | true => rw [scan]; exact ih false _ _ _ H'
    | false =>
      rw [scan]
      split
      · rename_i hop
        have hsome : ∃ file, (rest ++ post).head? = some file := by
          cases hh : (rest ++ post).head? with
          | some file => exact ⟨file, rfl⟩
          | none =>
            exfalso
            have hnil : rest ++ post = [] := by
              cases hrp : rest ++ post with
              | nil => rfl
              | cons a b => rw [hrp] at hh; simp at hh
            obtain ⟨hr, hp⟩ := List.append_eq_nil.mp hnil
            subst hr
            have := H hp tj (by simp)
            rcases hop with h | h
            · exact this.2 h
            · exact this.1 h
        obtain ⟨file, hfile⟩ := hsome
        split
        · rw [hfile]
          dsimp only
          split
          · simp
          · exact ih true _ _ _ H'
        · split
          · rw [hfile]
            dsimp only
            split
            · simp
            · exact ih true _ _ _ H'
          · simp
      · split
        · exact ih false _ _ _ H'
        · exact ih false _ _ _ H'

theorem Rejects.in_bounds (env : Env) (r : Except Fault Locals × OS) (h : Rejects env r) :
    r.1 ≠ .error .outOfBounds := by
  rcases h with ⟨st, hst, -⟩ | ⟨hex, -⟩
  · rw [hst]; simp
  · rcases hex with h | h <;> rw [h] <;> simp

theorem stageLoop_in_bounds (env : Env) :
    ∀ (gs : List (List Str)) (g pre : List Str) (c fuel : Nat) (st : Locals) (os : OS),
      bar ∉ g → (∀ g' ∈ gs, bar ∉ g') → st.first = pre.length →
      (g ≠ [] → st.last = pre.length + g.length) →
      st.commands.length = c + 1 + gs.length → gs.length + 1 ≤ fuel →
      (∃ t, (joinGroups (g :: gs)).getLast? = some t ∧ t ≠ bar ∧ t ≠ lt ∧ t ≠ gt) →
      (stageLoop env (pre ++ joinGroups (g :: gs)) fuel c st os).1 ≠ .error .outOfBounds := by
  intro gs
  induction gs with
  | nil =>
    intro g pre c fuel st os hg _ hfirst hlast hlen hfuel hend
    have hc : c < st.commands.length := by rw [hlen]; omega
    have hlen0 : st.commands.length = c + 1 := by simpa using hlen
    obtain ⟨fuel, rfl⟩ : ∃ f, fuel = f + 1 := ⟨fuel - 1, by simp at hfuel; omega⟩
    obtain ⟨tl, htl, -, hlt, hgt⟩ := hend
    simp only [joinGroups] at htl
    cases g with
    | nil => simp at htl
    | cons t args =>
      by_cases ht : t = amp ∨ t = lt ∨ t = gt ∨ t = bar
      · simp only [joinGroups]
        rw [stageLoop_meta env pre t args fuel c st os hfirst hc ht]
        simp
      · obtain ⟨command, hcmd⟩ : ∃ command, st.commands[c]? = some command :=
          ⟨st.commands[c], List.getElem?_eq_getElem hc⟩
        have hl := hlast (by simp)
        have hl' : st.last = pre.length + 1 + args.length := by
          rw [hl, List.length_cons]; omega
        rw [joinGroups_align, stageLoop_step env pre t args [] fuel c st os command hfirst
          hl' ht hcmd]
        have hsc := scan_in_bounds env c st.commands.length [] args false
          { execName := t, argv := command.argv ++ [some t], inputFd := 0, outputFd := 1,
            background := false } st.error os
          (fun _ t' ht' => by
            have := getLast?_tail_of_cons t args t' ht'
            rw [htl] at this
            simp only [Option.some.injEq] at this
            subst this
            exact ⟨hlt, hgt⟩)
        generalize scan env c st.commands.length [] args false
          { execName := t, argv := command.argv ++ [some t], inputFd := 0, outputFd := 1,
            background := false } st.error os = res at hsc
        obtain ⟨r1, os1⟩ := res
        cases r1 with
        | error f => simpa using hsc
        | ok ce =>
          obtain ⟨cmd1, e1⟩ := ce
          cases e1 with
          | true =>
            simp only [Bool.not_true, Bool.false_eq_true, if_false]
            rw [stageLoop_done _ _ _ _ _ _ (by simp only [List.length_set]; omega)]
            simp
          | false =>
            simp only [Bool.not_false, if_true]
            rw [stageLoop_done _ _ _ _ _ _ (by
              simp only [modifyAt_length, wirePipe_length, List.length_set]; omega)]
            simp
  | cons g' gs' ih =>
    intro g pre c fuel st os hg hgs hfirst hlast hlen hfuel hend
    have hc : c < st.commands.length := by rw [hlen]; omega
    obtain ⟨fuel, rfl⟩ : ∃ f, fuel = f + 1 := ⟨fuel - 1, by simp at hfuel; omega⟩
    have hend' : ∃ t, (joinGroups (g' :: gs')).getLast? = some t ∧ t ≠ bar ∧ t ≠ lt ∧ t ≠ gt := by
      obtain ⟨tl, htl, hbar, hlt, hgt⟩ := hend
      refine ⟨tl, ?_, hbar, hlt, hgt⟩
      simp only [joinGroups] at htl
      rw [List.getLast?_append, List.getLast?_cons] at htl
      cases hj : (joinGroups (g' :: gs')).getLast? with
      | none =>
        rw [hj] at htl
        simp at htl
        exact absurd htl.symm hbar
      | some x =>
        rw [hj] at htl
        simpa using htl
    cases g with
    | nil =>
      simp only [joinGroups, List.nil_append]
      rw [stageLoop_meta env pre bar _ fuel c st os hfirst hc (by simp)]
      simp
    | cons t args =>
      by_cases ht : t = amp ∨ t = lt ∨ t = gt ∨ t = bar
      · simp only [joinGroups, List.cons_append]
        rw [stageLoop_meta env pre t _ fuel c st os hfirst hc ht]
        simp
      · obtain ⟨command, hcmd⟩ : ∃ command, st.commands[c]? = some command :=
          ⟨st.commands[c], List.getElem?_eq_getElem hc⟩
        have hl := hlast (by simp)
        have hl' : st.last = pre.length + 1 + args.length := by
          rw [hl, List.length_cons]; omega
        have hpost : bar :: joinGroups (g' :: gs') ≠ [] := by simp
        have hE := stageLoop_error_mode env pre t args (bar :: joinGroups (g' :: gs')) hpost fuel
          (c + 1)
        rw [joinGroups_align]
        simp only []
        rw [stageLoop_step env pre t args _ fuel c st os command hfirst hl' ht hcmd]
        have hsc := scan_in_bounds env c st.commands.length (bar :: joinGroups (g' :: gs')) args
          false
          { execName := t, argv := command.argv ++ [some t], inputFd := 0, outputFd := 1,
            background := false } st.error os (fun hp => absurd hp hpost)
        generalize scan env c st.commands.length (bar :: joinGroups (g' :: gs')) args false
          { execName := t, argv := command.argv ++ [some t], inputFd := 0, outputFd := 1,
            background := false } st.error os = res at hsc
        obtain ⟨r1, os1⟩ := res
        cases r1 with
        | error f => simpa using hsc
        | ok ce =>
          obtain ⟨cmd1, e1⟩ := ce
          cases e1 with
          | true =>
            simp only [Bool.not_true, Bool.false_eq_true, if_false]
            exact Rejects.in_bounds env _ (hE _ os1 hfirst hl' rfl (by
              simp only [List.length_set]; rw [hlen]; simp only [List.length_cons]
              simp only [List.length_cons] at hfuel; omega))
          | false =>
            simp only [Bool.not_false, if_true]
            have htok : pre ++ t :: args ++ bar :: joinGroups (g' :: gs') =
                (pre ++ t :: args ++ [bar]) ++ joinGroups (g' :: gs') := by simp
            have hplen : (pre ++ t :: args ++ [bar]).length = st.last + 1 := by
              rw [hl']; simp; omega
            rw [htok]
            have := ih g' (pre ++ t :: args ++ [bar]) (c + 1) fuel
              { commands := modifyAt (wirePipe env c (st.commands.set c cmd1) os1).1 c
                  (fun c => { c with argv := c.argv ++ [none] }),
                first := st.last + 1,
                last := if st.last + 1 <
                    ((pre ++ t :: args ++ [bar]) ++ joinGroups (g' :: gs')).length then
                  findBar ((pre ++ t :: args ++ [bar]) ++ joinGroups (g' :: gs')) (st.last + 1)
                  else st.last,
                error := false }
              (wirePipe env c (st.commands.set c cmd1) os1).2
              (hgs g' (List.mem_cons_self _ _))
              (fun g'' hg'' => hgs g'' (List.mem_cons_of_mem _ hg''))
              hplen.symm
              (fun hne => next_last pre t args g' gs' st.last hl'
                (hgs g' (List.mem_cons_self _ _)) hne)
              (by
                simp only [modifyAt_length, wirePipe_length, List.length_set]
                rw [hlen]; simp; omega)
              (by simp at hfuel ⊢; omega)
              hend'
            exact this

/-- C19. For every non-empty token sequence whose last token is none of `|`, `<`, `>`, no
access `tokens[first]`, `tokens[j]` or `tokens[j+1]` of `getCommands` (nor an access to
`commands`) leaves its range: the call does not end with the fault `outOfBounds`. The run
covers the path on which the stage loop goes on after an error. -/
theorem getCommands_accesses_in_bounds (env : Env) (blank : Command) (tokens : List Str)
    (os : OS) (h : ∃ t, tokens.getLast? = some t ∧ t ≠ bar ∧ t ≠ lt ∧ t ≠ gt) :
    (getCommands env blank tokens os).1 ≠ .error .outOfBounds := by
  have hgl := groups_length tokens
  have hj := joinGroups_groups tokens
  have hb := groups_no_bar tokens
  cases hgs : groups tokens with
  | nil => exact absurd hgs (groups_ne_nil tokens)
  | cons g gs =>
    rw [hgs] at hgl hj hb
    have key := stageLoop_in_bounds env gs g [] 0
      (List.replicate (tokens.count bar + 1) blank).length
      { commands := List.replicate (tokens.count bar + 1) blank, first := 0,
        last := findBar tokens 0, error := false } os
      (hb g (List.mem_cons_self _ _))
      (fun g' hg' => hb g' (List.mem_cons_of_mem _ hg'))
      rfl
      (fun _ => by
        simp only [List.length_nil, Nat.zero_add]
        exact findBar_zero tokens g (by rw [hgs]; rfl))
      (by simp only [List.length_replicate, ← hgl, List.length_cons]; omega)
      (by simp only [List.length_replicate, ← hgl, List.length_cons]; omega)
      (by rw [hj]; exact h)
    rw [List.nil_append, hj] at key
    unfold getCommands
    simp only []
    generalize stageLoop env tokens (List.replicate (tokens.count bar + 1) blank).length 0
      { commands := List.replicate (tokens.count bar + 1) blank, first := 0,
        last := findBar tokens 0, error := false } os = res at key
    obtain ⟨r1, os1⟩ := res
    cases r1 with
    | error f => simpa using key
    | ok st =>
      simp only []
      split <;> simp

/-- C19 on the tokens of `a > f | b < g | c`, where the stage loop goes on after the error of
stage 0. -/
theorem getCommands_accesses_in_bounds_witness :
    (∃ t, ["a".toList, gt, "f".toList, bar, "b".toList, lt, "g".toList, bar,
        "c".toList].getLast? = some t ∧ t ≠ bar ∧ t ≠ lt ∧ t ≠ gt) ∧
    (getCommands everyOpenSucceeds valueInitialized
      ["a".toList, gt, "f".toList, bar, "b".toList, lt, "g".toList, bar, "c".toList]
      freshShell).1 ≠ .error .outOfBounds :=
  ⟨⟨"c".toList, by decide, by decide, by decide, by decide⟩,
    getCommands_accesses_in_bounds everyOpenSucceeds valueInitialized
      ["a".toList, gt, "f".toList, bar, "b".toList, lt, "g".toList, bar, "c".toList]
      freshShell ⟨"c".toList, by decide, by decide, by decide, by decide⟩⟩

/-! ## The error clause and descriptors of untouched Commands: claim C20 -/

theorem closeAll_closes_only : ∀ (cmds : List Command) (os : OS),
    ∃ es, (closeAll cmds os).log = os.log ++ es ∧ (∀ e ∈ es, isClose e = true) ∧
      ∀ cmd ∈ cmds, (cmd.inputFd ≠ 0 → Event.closed cmd.inputFd ∈ es) ∧
        (cmd.outputFd ≠ 1 → Event.closed cmd.outputFd ∈ es) := by
  intro cmds
  induction cmds with
  | nil => intro os; exact ⟨[], by simp [closeAll], by simp, by simp⟩
  | cons c cmds ih =>
    intro os
    unfold closeAll
    simp only []
    obtain ⟨es, hlog, hes, hmem⟩ := ih
      (if c.outputFd ≠ 1 then sysClose c.outputFd
          (if c.inputFd ≠ 0 then sysClose c.inputFd os else os)
        else (if c.inputFd ≠ 0 then sysClose c.inputFd os else os))
    refine ⟨(if c.inputFd ≠ 0 then [Event.closed c.inputFd] else []) ++
      (if c.outputFd ≠ 1 then [Event.closed c.outputFd] else []) ++ es, ?_, ?_, ?_⟩
    · rw [hlog]
      by_cases h0 : c.inputFd ≠ 0 <;> by_cases h1 : c.outputFd ≠ 1 <;>
        simp [h0, h1, sysClose]
    · intro e he
      simp only [List.mem_append] at he
      rcases he with (he | he) | he
      · split at he
        · simp only [List.mem_singleton] at he; subst he; rfl
        · simp at he
      · split at he
        · simp only [List.mem_singleton] at he; subst he; rfl
        · simp at he
      · exact hes e he
    · intro cmd hcmd
      rcases List.mem_cons.mp hcmd with rfl | hcmd
      · constructor
        · intro h0
          simp [h0]
        · intro h1
          simp [h1]
      · obtain ⟨ha, hb⟩ := hmem cmd hcmd
        exact ⟨fun h => List.mem_append_right _ (ha h), fun h => List.mem_append_right _ (hb h)⟩

theorem no_descriptor_of_closes (es : List Event) (h : ∀ e ∈ es, isClose e = true) :
    fileFds es = [] ∧ pipesOf es = [] := by
  induction es with
  | nil => exact ⟨rfl, rfl⟩
  | cons e es ih =>
    have he := h e (List.mem_cons_self _ _)
    obtain ⟨h1, h2⟩ := ih (fun e' he' => h e' (List.mem_cons_of_mem _ he'))
    cases e <;> simp [isClose] at he
    exact ⟨by simp [fileFds, h1], by simp [pipesOf, h2]⟩

/-- C20 fails when the first token is a metacharacter. The stage loop stops at once, so every
entry of `commands` is still the Command that the vector was created with, and the call has
obtained no descriptor from `open` or `pipe`; the error clause nevertheless calls `close` on
the `outputFd` of these entries whenever that value is not 1. -/
theorem getCommands_error_clause_closes_unopened (env : Env) (blank : Command) (t : Str)
    (rest : List Str) (os : OS) (ht : t = amp ∨ t = lt ∨ t = gt ∨ t = bar)
    (hblank : blank.outputFd ≠ 1) :
    (getCommands env blank (t :: rest) os).1 = .ok [] ∧
    Event.closed blank.outputFd ∈ trace os (getCommands env blank (t :: rest) os).2 ∧
    fileFds (trace os (getCommands env blank (t :: rest) os).2) = [] ∧
    pipesOf (trace os (getCommands env blank (t :: rest) os).2) = [] := by
  have hstage := stageLoop_meta env [] t rest ((t :: rest).count bar)
    0 { commands := List.replicate ((t :: rest).count bar + 1) blank, first := 0,
        last := findBar (t :: rest) 0, error := false } os rfl (by simp) ht
  rw [List.nil_append] at hstage
  obtain ⟨es, hlog, hes, hmem⟩ := closeAll_closes_only
    (List.replicate ((t :: rest).count bar + 1) blank)
    (sysCout "hit the error clause\n".toList os)
  have hclosed := (hmem blank (by simp [List.mem_replicate])).2 hblank
  have hres : getCommands env blank (t :: rest) os =
      (.ok [], closeAll (List.replicate ((t :: rest).count bar + 1) blank)
        (sysCout "hit the error clause\n".toList os)) := by
    unfold getCommands
    simp only [List.length_replicate]
    rw [hstage]
    rfl
  rw [hres]
  have htrace : trace os (closeAll (List.replicate ((t :: rest).count bar + 1) blank)
      (sysCout "hit the error clause\n".toList os)) =
      Event.cout "hit the error clause\n".toList :: es := by
    apply trace_of_log
    rw [hlog]; simp [sysCout]
  rw [htrace]
  obtain ⟨h1, h2⟩ := no_descriptor_of_closes es hes
  refine ⟨rfl, ?_, ?_, ?_⟩
  · exact List.mem_cons_of_mem _ hclosed
  · simp [fileFds, h1]
  · simp [pipesOf, h2]

/-- C20 on the token `&` alone with Commands whose members are all zero at creation: the error
clause closes descriptor 0, the standard input of the shell. -/
theorem getCommands_error_clause_closes_unopened_witness :
    ((amp = amp ∨ amp = lt ∨ amp = gt ∨ amp = bar) ∧ valueInitialized.outputFd ≠ 1) ∧
    ((getCommands everyOpenSucceeds valueInitialized (amp :: []) freshShell).1 = .ok [] ∧
      Event.closed valueInitialized.outputFd ∈
        trace freshShell (getCommands everyOpenSucceeds valueInitialized (amp :: []) freshShell).2 ∧
      fileFds (trace freshShell
        (getCommands everyOpenSucceeds valueInitialized (amp :: []) freshShell).2) = [] ∧
      pipesOf (trace freshShell
        (getCommands everyOpenSucceeds valueInitialized (amp :: []) freshShell).2) = []) ∧
    (getCommands everyOpenSucceeds valueInitialized (amp :: []) freshShell).2.openFds = [1, 2] :=
  ⟨⟨Or.inl rfl, by decide⟩,
    getCommands_error_clause_closes_unopened everyOpenSucceeds valueInitialized amp [] freshShell
      (Or.inl rfl) (by decide),
    by decide⟩

/-! ## The background registry: claim C14 -/

theorem pollLoop_returns (k : Kernel) :
    ∀ (fuel i : Nat) (bc : List Int) (p : Proc), bc.length ≤ fuel + i →
      ∃ bc' p', pollLoop k fuel i bc p = (.ok bc', p') ∧
        ∃ ws, p'.calls = p.calls ++ ws ∧
          ∀ c ∈ ws, ∃ (j : Nat) (r : Int), c = ProcCall.waited (j : Int) true r ∧
            i ≤ j ∧ j < bc.length := by
  intro fuel
  induction fuel with
  | zero =>
    intro i bc p h
    unfold pollLoop
    rw [if_neg (by omega)]
    exact ⟨bc, p, rfl, [], by simp, by simp⟩
  | succ fuel ih =>
    intro i bc p h
    unfold pollLoop
    by_cases hi : i < bc.length
    · rw [if_pos hi]
      dsimp only
      split
      · rw [getAt_eq_ok bc i bc[i] (List.getElem?_eq_getElem hi)]
        dsimp only
        obtain ⟨bc', p', hrun, ws, hcalls, hws⟩ := ih (i + 1) (bc.eraseIdx i)
          { (sysWaitpid k (i : Int) true p).2 with
            os := sysCout ("Background process ".toList ++ showInt bc[i] ++
              " completed.\n".toList) (sysWaitpid k (i : Int) true p).2.os }
          (by rw [List.length_eraseIdx]; split <;> omega)
        refine ⟨bc', p', hrun, ProcCall.waited (i : Int) true (k.waitpid p.calls i true) :: ws,
          ?_, ?_⟩
        · rw [hcalls]; simp [sysWaitpid]
        · intro c hc
          rcases List.mem_cons.mp hc with rfl | hc
          · exact ⟨i, _, rfl, Nat.le_refl _, hi⟩
          · obtain ⟨j, r, hj, h1, h2⟩ := hws c hc
            rw [List.length_eraseIdx] at h2
            exact ⟨j, r, hj, by omega, by split at h2 <;> omega⟩
      · obtain ⟨bc', p', hrun, ws, hcalls, hws⟩ := ih (i + 1) bc
          (sysWaitpid k (i : Int) true p).2 (by omega)
        refine ⟨bc', p', hrun, ProcCall.waited (i : Int) true (k.waitpid p.calls i true) :: ws,
          ?_, ?_⟩
        · rw [hcalls]; simp [sysWaitpid]
        · intro c hc
          rcases List.mem_cons.mp hc with rfl | hc
          · exact ⟨i, _, rfl, Nat.le_refl _, hi⟩
          · obtain ⟨j, r, hj, h1, h2⟩ := hws c hc
            exact ⟨j, r, hj, by omega, h2⟩
    · rw [if_neg hi]
      exact ⟨bc, p, rfl, [], by simp, by simp⟩

/-- C14 fails. Whatever the kernel answers, a poll of the read loop returns and leaves the
vector `backgroundCommands` of `main` as it was (the function works on a copy), and every
`waitpid` of the poll, though non-blocking, asks for a position `0, 1, ...` of the vector
instead of the identifier stored there. With the children 500 and 501 tracked and a kernel that
answers `waitpid(0, ...)` with the terminated child 500, the poll makes this one query, reports
500, never asks about 501 (the index moves on past the element that took the erased one's
place), and the vector of `main` still holds 500 and 501. -/
theorem pollBackground_keeps_registry :
    (∀ (k : Kernel) (m : MainState),
      (pollBackground k m).1 = .ok () ∧
      (pollBackground k m).2.backgroundCommands = m.backgroundCommands ∧
      ∃ ws, (pollBackground k m).2.proc.calls = m.proc.calls ++ ws ∧
        ∀ c ∈ ws, ∃ (j : Nat) (r : Int), c = ProcCall.waited (j : Int) true r ∧
          j < m.backgroundCommands.length) ∧
    pollBackground child500Done
      { proc := { os := freshShell, calls := [] }, backgroundCommands := [500, 501] } =
    (.ok (),
      { proc :=
          { os :=
              { openFds := [0, 1, 2],
                log := [Event.cout "Background process 500 completed.\n".toList] },
            calls := [ProcCall.waited 0 true 500] },
        backgroundCommands := [500, 501] }) := by
  refine ⟨?_, by decide⟩
  intro k m
  obtain ⟨bc', p', hrun, ws, hcalls, hws⟩ := pollLoop_returns k m.backgroundCommands.length 0
    m.backgroundCommands m.proc (by omega)
  have hpoll : pollBackground k m = (.ok (), { m with proc := p' }) := by
    unfold pollBackground checkBackgroundCommands
    rw [hrun]
  rw [hpoll]
  refine ⟨rfl, rfl, ws, hcalls, ?_⟩
  intro c hc
  obtain ⟨j, r, hj, -, h2⟩ := hws c hc
  exact ⟨j, r, hj, h2⟩

/-! ## The loop over the commands of a line: claims C13 and C15 -/

theorem cleanUp_eq_closeAll : ∀ (cmds : List Command) (os : OS),
    cleanUp cmds os = closeAll cmds os := by
  intro cmds
  induction cmds with
  | nil => intro os; rfl
  | cons c cmds ih => intro os; unfold cleanUp closeAll; exact ih _

theorem mem_sysClose (fd : Int) (os : OS) (n : Nat) :
    n ∈ (sysClose fd os).openFds ↔ n ∈ os.openFds ∧ (n : Int) ≠ fd := by
  simp [sysClose, List.mem_filter]

theorem closeAll_openFds_subset : ∀ (cmds : List Command) (os : OS) (n : Nat),
    n ∈ (closeAll cmds os).openFds → n ∈ os.openFds := by
  intro cmds
  induction cmds with
  | nil => intro os n h; exact h
  | cons c cmds ih =>
    intro os n h
    unfold closeAll at h
    have h1 := ih _ n h
    by_cases hi : c.inputFd ≠ 0 <;> by_cases ho : c.outputFd ≠ 1
    · rw [if_pos ho, if_pos hi] at h1
      exact ((mem_sysClose _ _ _).mp ((mem_sysClose _ _ _).mp h1).1).1
    · rw [if_neg ho, if_pos hi] at h1
      exact ((mem_sysClose _ _ _).mp h1).1
    · rw [if_pos ho, if_neg hi] at h1
      exact ((mem_sysClose _ _ _).mp h1).1
    · rw [if_neg ho, if_neg hi] at h1
      exact h1

theorem closeAll_released : ∀ (cmds : List Command) (os : OS), Released cmds (closeAll cmds os) := by
  intro cmds
  induction cmds with
  | nil => intro os cmd h; simp at h
  | cons c cmds ih =>
    intro os cmd hcmd
    rcases List.mem_cons.mp hcmd with rfl | hcmd
    · constructor
      · intro hi n hn
        unfold closeAll at hn
        have h1 := closeAll_openFds_subset _ _ n hn
        rw [if_pos hi] at h1
        by_cases ho : cmd.outputFd ≠ 1
        · rw [if_pos ho] at h1
          exact ((mem_sysClose _ _ _).mp ((mem_sysClose _ _ _).mp h1).1).2
        · rw [if_neg ho] at h1
          exact ((mem_sysClose _ _ _).mp h1).2
      · intro ho n hn
        unfold closeAll at hn
        have h1 := closeAll_openFds_subset _ _ n hn
        rw [if_pos ho] at h1
        exact ((mem_sysClose _ _ _).mp h1).2
    · unfold closeAll
      exact ih _ cmd hcmd

theorem commandLoop_fork_fails (k : Kernel) (commands : List Command) :
    ∀ (rest : List Command) (m : MainState),
      ∃ cs es, (commandLoop k commands rest m).2.proc.calls = m.proc.calls ++ cs ∧
        (commandLoop k commands rest m).2.proc.os.log = m.proc.os.log ++ es ∧
        (ProcCall.forked (-1) ∈ cs →
          (commandLoop k commands rest m).1 = .error (.exited 1) ∧
          Event.perror "fork".toList ∈ es ∧
          Released commands (commandLoop k commands rest m).2.proc.os) := by
  intro rest
  induction rest with
  | nil =>
    intro m
    exact ⟨[], [], by simp [commandLoop], by simp [commandLoop], by simp⟩
  | cons command rest ih =>
    intro m
    have step : ∀ (M : MainState) (c0 : List ProcCall) (e0 : List Event),
        M.proc.calls = m.proc.calls ++ c0 → M.proc.os.log = m.proc.os.log ++ e0 →
        ProcCall.forked (-1) ∉ c0 →
        ∃ cs es, (commandLoop k commands rest M).2.proc.calls = m.proc.calls ++ cs ∧
          (commandLoop k commands rest M).2.proc.os.log = m.proc.os.log ++ es ∧
          (ProcCall.forked (-1) ∈ cs →
            (commandLoop k commands rest M).1 = .error (.exited 1) ∧
            Event.perror "fork".toList ∈ es ∧
            Released commands (commandLoop k commands rest M).2.proc.os) := by
      intro M c0 e0 hc he hn
      obtain ⟨cs, es, hcalls, hlog, hfail⟩ := ih M
      refine ⟨c0 ++ cs, e0 ++ es, by rw [hcalls, hc, List.append_assoc],
        by rw [hlog, he, List.append_assoc], ?_⟩
      intro hmem
      rcases List.mem_append.mp hmem with h | h
      · exact absurd h hn
      · obtain ⟨ha, hb, hc⟩ := hfail h
        exact ⟨ha, List.mem_append_right _ hb, hc⟩
    unfold commandLoop
    dsimp only
    by_cases h1 : (sysFork k m.proc).1 = -1
    · rw [if_pos h1]
      obtain ⟨es, hlog, -, -⟩ := closeAll_closes_only commands
        (sysPerror "fork".toList (sysFork k m.proc).2.os)
      refine ⟨[ProcCall.forked (k.fork m.proc.calls)],
        Event.perror "fork".toList :: es, ?_, ?_, ?_⟩
      · simp [sysFork]
      · simp only [cleanUp_eq_closeAll]
        rw [hlog]; simp [sysPerror, sysFork]
      · intro _
        refine ⟨rfl, List.mem_cons_self _ _, ?_⟩
        simp only [cleanUp_eq_closeAll]
        exact closeAll_released commands _
    · rw [if_neg h1]
      have hn1 : ProcCall.forked (-1) ∉ [ProcCall.forked (k.fork m.proc.calls)] := by
        intro hmem
        simp only [List.mem_singleton, ProcCall.forked.injEq] at hmem
        exact h1 hmem.symm
      by_cases h0 : (sysFork k m.proc).1 = 0
      · rw [if_pos h0]
        refine ⟨[ProcCall.forked (k.fork m.proc.calls)], [], ?_, ?_, ?_⟩
        · simp [sysFork]
        · simp [sysFork]
        · intro hmem
          exact absurd hmem hn1
      · rw [if_neg h0]
        by_cases hb : command.background = true
        · rw [if_pos hb]
          exact step _ [ProcCall.forked (k.fork m.proc.calls)]
            [Event.cout ("Started background process ".toList ++
              showInt (sysFork k m.proc).1 ++ "\n".toList)]
            (by simp [sysFork]) (by simp [sysFork, sysCout]) hn1
        · rw [if_neg hb]
          exact step _
            [ProcCall.forked (k.fork m.proc.calls),
              ProcCall.waited (k.fork m.proc.calls) false
                (k.waitpid (m.proc.calls ++ [ProcCall.forked (k.fork m.proc.calls)])
                  (k.fork m.proc.calls) false)]
            ((if command.inputFd ≠ 0 then [Event.closed command.inputFd] else []) ++
              (if command.outputFd ≠ 1 then [Event.closed command.outputFd] else []))
            (by simp [sysFork, sysWaitpid])
            (by
              by_cases hi : command.inputFd ≠ 0 <;> by_cases ho : command.outputFd ≠ 1 <;>
                simp [hi, ho, sysFork, sysWaitpid, sysClose])
            (by
              intro hmem
              simp only [List.mem_cons, ProcCall.forked.injEq, List.mem_singleton] at hmem
              rcases hmem with h | h | h
              · exact h1 h.symm
              · simp at h
              · simp at h)

theorem commandLoop_closes (k : Kernel) (commands : List Command)
    (hfork : ∀ calls, 0 < k.fork calls) :
    ∀ (rest : List Command) (m : MainState),
      ∃ es, (commandLoop k commands rest m).1 = .ok () ∧
        (commandLoop k commands rest m).2.proc.os.log = m.proc.os.log ++ es ∧
        es.filter isClose = foregroundCloses rest ∧
        ∀ n : Nat, n ∈ (commandLoop k commands rest m).2.proc.os.openFds ↔
          (n ∈ m.proc.os.openFds ∧ Event.closed (n : Int) ∉ foregroundCloses rest) := by
  intro rest
  induction rest with
  | nil =>
    intro m
    exact ⟨[], rfl, by simp [commandLoop], rfl, by simp [commandLoop, foregroundCloses]⟩
  | cons command rest ih =>
    intro m
    have hpos := hfork m.proc.calls
    have h1 : ¬ (sysFork k m.proc).1 = -1 := by simp only [sysFork]; omega
    have h0 : ¬ (sysFork k m.proc).1 = 0 := by simp only [sysFork]; omega
    have step : ∀ (M : MainState) (e0 : List Event),
        M.proc.os.log = m.proc.os.log ++ e0 →
        e0.filter isClose ++ foregroundCloses rest = foregroundCloses (command :: rest) →
        (∀ n : Nat, n ∈ M.proc.os.openFds ↔
          (n ∈ m.proc.os.openFds ∧ Event.closed (n : Int) ∉ e0.filter isClose)) →
        ∃ es, (commandLoop k commands rest M).1 = .ok () ∧
          (commandLoop k commands rest M).2.proc.os.log = m.proc.os.log ++ es ∧
          es.filter isClose = foregroundCloses (command :: rest) ∧
          ∀ n : Nat, n ∈ (commandLoop k commands rest M).2.proc.os.openFds ↔
            (n ∈ m.proc.os.openFds ∧
              Event.closed (n : Int) ∉ foregroundCloses (command :: rest)) := by
      intro M e0 he hf hfd
      obtain ⟨es, hok, hlog, hcl, hopen⟩ := ih M
      refine ⟨e0 ++ es, hok, by rw [hlog, he, List.append_assoc],
        by rw [List.filter_append, hcl, hf], ?_⟩
      intro n
      rw [hopen n, hfd n, ← hf, List.mem_append]
      tauto
    unfold commandLoop
    dsimp only
    rw [if_neg h1, if_neg h0]
    by_cases hb : command.background = true
    · rw [if_pos hb]
      exact step _
        [Event.cout ("Started background process ".toList ++
          showInt (sysFork k m.proc).1 ++ "\n".toList)]
        (by simp [sysFork, sysCout])
        (by simp [foregroundCloses, hb, isClose])
        (by intro n; simp [sysFork, sysCout, isClose])
    · rw [if_neg hb]
      exact step _
        ((if command.inputFd ≠ 0 then [Event.closed command.inputFd] else []) ++
          (if command.outputFd ≠ 1 then [Event.closed command.outputFd] else []))
        (by
          by_cases hi : command.inputFd ≠ 0 <;> by_cases ho : command.outputFd ≠ 1 <;>
            simp [hi, ho, sysFork, sysWaitpid, sysClose])
        (by
          by_cases hi : command.inputFd ≠ 0 <;> by_cases ho : command.outputFd ≠ 1 <;>
            simp [hi, ho, foregroundCloses, hb, isClose])
        (by
          intro n
          by_cases hi : command.inputFd ≠ 0 <;> by_cases ho : command.outputFd ≠ 1 <;>
            (simp [hi, ho, sysFork, sysWaitpid, mem_sysClose, isClose]; try tauto))

/-- C13 fails for stages marked background. When every `fork` gives a child, the loop over the
commands of a line runs to its end, and the calls of `close` it makes are exactly those for the
descriptors of the commands that are not marked background; a descriptor that was open before
the loop is open after it unless one of these calls closed it. What a background stage holds
stays open in the shell. -/
theorem commandLoop_closes_foreground_only (k : Kernel) (commands : List Command)
    (m : MainState) (hfork : ∀ calls, 0 < k.fork calls) :
    (commandLoop k commands commands m).1 = .ok () ∧
    (trace m.proc.os (commandLoop k commands commands m).2.proc.os).filter isClose =
      foregroundCloses commands ∧
    ∀ n : Nat, n ∈ (commandLoop k commands commands m).2.proc.os.openFds ↔
      (n ∈ m.proc.os.openFds ∧ Event.closed (n : Int) ∉ foregroundCloses commands) := by
  obtain ⟨es, hok, hlog, hcl, hopen⟩ := commandLoop_closes k commands hfork commands m
  rw [trace_of_log _ _ es hlog]
  exact ⟨hok, hcl, hopen⟩

/-- C13 on the line `cat < f &`: `getCommands` opens `f` as descriptor 3 for the one Command,
which is marked background; the loop of `main` starts the child and closes nothing, and
descriptor 3 is open in the shell afterwards. -/
theorem commandLoop_closes_foreground_only_witness :
    (∀ calls, 0 < everyForkSucceeds.fork calls) ∧
    ((commandLoop everyForkSucceeds catInBackground catInBackground
        (mainWith { openFds := [3, 0, 1, 2], log := [] })).1 = .ok () ∧
      (trace (mainWith { openFds := [3, 0, 1, 2], log := [] }).proc.os
        (commandLoop everyForkSucceeds catInBackground catInBackground
          (mainWith { openFds := [3, 0, 1, 2], log := [] })).2.proc.os).filter isClose =
        foregroundCloses catInBackground ∧
      ∀ n : Nat, n ∈ (commandLoop everyForkSucceeds catInBackground catInBackground
          (mainWith { openFds := [3, 0, 1, 2], log := [] })).2.proc.os.openFds ↔
        (n ∈ (mainWith { openFds := [3, 0, 1, 2], log := [] }).proc.os.openFds ∧
          Event.closed (n : Int) ∉ foregroundCloses catInBackground)) ∧
    (getCommands everyOpenSucceeds valueInitialized
        ["cat".toList, lt, "f".toList, amp] freshShell).1 = .ok catInBackground ∧
    (getCommands everyOpenSucceeds valueInitialized
        ["cat".toList, lt, "f".toList, amp] freshShell).2.openFds = [3, 0, 1, 2] ∧
    foregroundCloses catInBackground = [] ∧
    3 ∈ (commandLoop everyForkSucceeds catInBackground catInBackground
        (mainWith { openFds := [3, 0, 1, 2], log := [] })).2.proc.os.openFds :=
  ⟨fun _ => by simp [everyForkSucceeds],
    commandLoop_closes_foreground_only everyForkSucceeds catInBackground
      (mainWith { openFds := [3, 0, 1, 2], log := [] }) (fun _ => by simp [everyForkSucceeds]),
    by decide, by decide, by decide, by decide⟩

/-- C15, as stated, fails on the line `a | b` when the second `fork` fails: the loop does not
go back to the read loop but ends the shell process with `exit(1)`. -/
theorem commandLoop_exits_on_failed_fork :
    (getCommands everyOpenSucceeds valueInitialized ["a".toList, bar, "b".toList]
      freshShell).1 = .ok pipelineAB ∧
    (commandLoop secondForkFails pipelineAB pipelineAB
      (mainWith (getCommands everyOpenSucceeds valueInitialized ["a".toList, bar, "b".toList]
        freshShell).2)).1 = .error (.exited 1) := by
  decide

/-- C15, amended. When a `fork` of the loop over the commands of a line fails, the orchestrator
reports it with `perror("fork")`, calls `close` on every descriptor of every Command other than
the standard input as `inputFd` and the standard output as `outputFd`, so that none of them is
open afterwards, and ends the shell process with `exit(1)`; the read loop does not go on. -/
theorem commandLoop_fork_failure (k : Kernel) (commands : List Command) (m : MainState)
    (h : ProcCall.forked (-1) ∈
      (commandLoop k commands commands m).2.proc.calls.drop m.proc.calls.length) :
    (commandLoop k commands commands m).1 = .error (.exited 1) ∧
    Event.perror "fork".toList ∈ trace m.proc.os (commandLoop k commands commands m).2.proc.os ∧
    Released commands (commandLoop k commands commands m).2.proc.os := by
  obtain ⟨cs, es, hcalls, hlog, hfail⟩ := commandLoop_fork_fails k commands commands m
  rw [hcalls, List.drop_left] at h
  rw [trace_of_log _ _ es hlog]
  exact hfail h

/-- The amended C15 on the Commands of the line `a | b` when the second `fork` fails. -/
theorem commandLoop_fork_failure_witness :
    ProcCall.forked (-1) ∈
      (commandLoop secondForkFails pipelineAB pipelineAB
        (mainWith { openFds := [4, 3, 0, 1, 2], log := [] })).2.proc.calls.drop
        (mainWith { openFds := [4, 3, 0, 1, 2], log := [] }).proc.calls.length ∧
    ((commandLoop secondForkFails pipelineAB pipelineAB
        (mainWith { openFds := [4, 3, 0, 1, 2], log := [] })).1 = .error (.exited 1) ∧
      Event.perror "fork".toList ∈
        trace (mainWith { openFds := [4, 3, 0, 1, 2], log := [] }).proc.os
          (commandLoop secondForkFails pipelineAB pipelineAB
            (mainWith { openFds := [4, 3, 0, 1, 2], log := [] })).2.proc.os ∧
      Released pipelineAB (commandLoop secondForkFails pipelineAB pipelineAB
        (mainWith { openFds := [4, 3, 0, 1, 2], log := [] })).2.proc.os) ∧
    (commandLoop secondForkFails pipelineAB pipelineAB
      (mainWith { openFds := [4, 3, 0, 1, 2], log := [] })).2.proc.os.openFds = [0, 1, 2] :=
  ⟨by decide,
    commandLoop_fork_failure secondForkFails pipelineAB
      (mainWith { openFds := [4, 3, 0, 1, 2], log := [] }) (by decide),
    by decide⟩

/-! ## The flags of the redirections: claim C17 -/

theorem getElem?_of_getAt {α : Type} (v : List α) (i : Nat) (a : α) (h : getAt v i = .ok a) :
    v[i]? = some a := by
  unfold getAt at h
  split at h
  · simp only [Except.ok.injEq] at h
    subst h
    assumption
  · simp at h

theorem argLoop_opens (env : Env) (tokens : List Str) (cmdNumber size last : Nat) :
    ∀ (fuel j : Nat) (command : Command) (error : Bool) (os : OS),
      ∃ es, (argLoop env tokens cmdNumber size last fuel j command error os).2.log = os.log ++ es ∧
        ∀ e ∈ es, OpenedFor tokens e := by
  intro fuel
  induction fuel with
  | zero =>
    intro j command error os
    refine ⟨[], ?_, by simp⟩
    unfold argLoop; split <;> simp
  | succ fuel ih =>
    intro j command error os
    unfold argLoop
    by_cases hj : j < last
    · simp only [hj, if_true]
      cases hget : getAt tokens j with
      | error f => exact ⟨[], by simp, by simp⟩
      | ok tj =>
        have htj := getElem?_of_getAt _ _ _ hget
        simp only []
        by_cases hred : tj = gt ∨ tj = lt
        · rw [if_pos hred]
          by_cases hin : cmdNumber = 0 ∧ tj = lt
          · rw [if_pos hin]
            cases hfile : getAt tokens (j + 1) with
            | error f => exact ⟨[], by simp, by simp⟩
            | ok file =>
              have hf := getElem?_of_getAt _ _ _ hfile
              have hop : ∀ r, OpenedFor tokens (Event.opened file inputFlags none r) :=
                fun r => ⟨j, hf, Or.inl ⟨by rw [htj, hin.2], rfl, rfl⟩⟩
              simp only []
              by_cases hneg : (sysOpen env file inputFlags none os).1 < 0
              · simp only [hneg, if_true]
                refine ⟨[Event.opened file inputFlags none (-1), Event.perror "open".toList],
                  ?_, ?_⟩
                · simp [sysPerror, sysOpen_log, sysOpen_neg _ _ _ _ _ hneg]
                · intro e he; simp at he
                  rcases he with rfl | rfl
                  · exact hop _
                  · trivial
              · simp only [hneg, if_false]
                obtain ⟨es, hlog, htr⟩ := ih (j + 1 + 1)
                  { command with inputFd := (sysOpen env file inputFlags none os).1 } error
                  (sysOpen env file inputFlags none os).2
                refine ⟨Event.opened file inputFlags none (sysOpen env file inputFlags none os).1
                  :: es, ?_, ?_⟩
                · rw [hlog, sysOpen_log]; simp
                · intro e he
                  rcases List.mem_cons.mp he with rfl | he
                  · exact hop _
                  · exact htr e he
          · rw [if_neg hin]
            by_cases hout : cmdNumber = size - 1 ∧ tj = gt
            · rw [if_pos hout]
              cases hfile : getAt tokens (j + 1) with
              | error f => exact ⟨[], by simp, by simp⟩
              | ok file =>
                have hf := getElem?_of_getAt _ _ _ hfile
                have hop : ∀ r,
                    OpenedFor tokens (Event.opened file outputFlags (some 0o666) r) :=
                  fun r => ⟨j, hf, Or.inr ⟨by rw [htj, hout.2], rfl, rfl⟩⟩
                simp only []
                by_cases hneg : (sysOpen env file outputFlags (some 0o666) os).1 < 0
                · simp only [hneg, if_true]
                  refine ⟨[Event.opened file outputFlags (some 0o666) (-1),
                    Event.perror "open".toList], ?_, ?_⟩
                  · simp [sysPerror, sysOpen_log, sysOpen_neg _ _ _ _ _ hneg]
                  · intro e he; simp at he
                    rcases he with rfl | rfl
                    · exact hop _
                    · trivial
                · simp only [hneg, if_false]
                  obtain ⟨es, hlog, htr⟩ := ih (j + 1 + 1)
                    { command with outputFd := (sysOpen env file outputFlags (some 0o666) os).1 }
                    error (sysOpen env file outputFlags (some 0o666) os).2
                  refine ⟨Event.opened file outputFlags (some 0o666)
                    (sysOpen env file outputFlags (some 0o666) os).1 :: es, ?_, ?_⟩
                  · rw [hlog, sysOpen_log]; simp
                  · intro e he
                    rcases List.mem_cons.mp he with rfl | he
                    · exact hop _
                    · exact htr e he
            · rw [if_neg hout]
              refine ⟨[Event.cout "\ni/o redirection error\n".toList], rfl, ?_⟩
              intro e he; simp at he; subst he; trivial
        · rw [if_neg hred]
          by_cases hamp : tj = amp
          · rw [if_pos hamp]
            exact ih _ _ _ _
          · rw [if_neg hamp]
            exact ih _ _ _ _
    · simp only [hj, if_false]
      exact ⟨[], by simp, by simp⟩

theorem wirePipe_opens (env : Env) (tokens : List Str) (cmdNumber : Nat) (commands : List Command)
    (os : OS) :
    ∃ es, (wirePipe env cmdNumber commands os).2.log = os.log ++ es ∧
      ∀ e ∈ es, OpenedFor tokens e := by
  unfold wirePipe sysPipe
  split
  · split
    · refine ⟨[Event.piped (lowestFree os.openFds)
          (lowestFree (lowestFree os.openFds :: os.openFds))], rfl, ?_⟩
      intro e he; simp at he; subst he; trivial
    · refine ⟨[Event.pipeFailed], rfl, ?_⟩
      intro e he; simp at he; subst he; trivial
  · exact ⟨[], by simp, by simp⟩

theorem stageLoop_opens (env : Env) (tokens : List Str) :
    ∀ (fuel cmdNumber : Nat) (st : Locals) (os : OS),
      ∃ es, (stageLoop env tokens fuel cmdNumber st os).2.log = os.log ++ es ∧
        ∀ e ∈ es, OpenedFor tokens e := by
  intro fuel
  induction fuel with
  | zero =>
    intro c st os
    refine ⟨[], ?_, by simp⟩
    unfold stageLoop; split <;> simp
  | succ fuel ih =>
    intro c st os
    unfold stageLoop
    by_cases hc : c < st.commands.length
    · rw [if_pos hc]
      simp only []
      cases hget : getAt tokens st.first with
      | error f => exact ⟨[], by simp, by simp⟩
      | ok token =>
        simp only []
        by_cases hmeta : token = amp ∨ token = lt ∨ token = gt ∨ token = bar
        · rw [if_pos hmeta]
          exact ⟨[], by simp, by simp⟩
        · rw [if_neg hmeta]
          cases hcmd : getAt st.commands c with
          | error f => exact ⟨[], by simp, by simp⟩
          | ok command =>
            simp only []
            obtain ⟨es1, hlog1, htr1⟩ := argLoop_opens env tokens c st.commands.length st.last
              st.last (st.first + 1)
              { execName := token, argv := command.argv ++ [some token],
                inputFd := 0, outputFd := 1, background := false } st.error os
            generalize argLoop env tokens c st.commands.length st.last st.last (st.first + 1)
              { execName := token, argv := command.argv ++ [some token],
                inputFd := 0, outputFd := 1, background := false } st.error os = res
              at hlog1
            obtain ⟨r, os1⟩ := res
            cases r with
            | error f => exact ⟨es1, hlog1, htr1⟩
            | ok ce =>
              obtain ⟨command1, error1⟩ := ce
              simp only []
              cases error1 with
              | true =>
                simp only [Bool.not_true, Bool.false_eq_true, if_false]
                obtain ⟨es2, hlog2, htr2⟩ := ih (c + 1)
                  { st with commands := st.commands.set c command1, error := true } os1
                refine ⟨es1 ++ es2, ?_, ?_⟩
                · rw [hlog2, hlog1]; simp
                · intro e he
                  rcases List.mem_append.mp he with h | h
                  · exact htr1 e h
                  · exact htr2 e h
              | false =>
                simp only [Bool.not_false, if_true]
                obtain ⟨esp, hlogp, hp⟩ := wirePipe_opens env tokens c (st.commands.set c command1) os1
                obtain ⟨es2, hlog2, htr2⟩ := ih (c + 1)
                  { commands := modifyAt (wirePipe env c (st.commands.set c command1) os1).1 c
                      (fun c => { c with argv := c.argv ++ [none] }),
                    first := st.last + 1,
                    last := if st.last + 1 < tokens.length then findBar tokens (st.last + 1)
                      else st.last,
                    error := false }
                  (wirePipe env c (st.commands.set c command1) os1).2
                refine ⟨es1 ++ (esp ++ es2), ?_, ?_⟩
                · rw [hlog2, hlogp, hlog1]; simp
                · intro e he
                  rcases List.mem_append.mp he with h | h
                  · exact htr1 e h
                  · rcases List.mem_append.mp h with h | h
                    · exact hp e h
                    · exact htr2 e h
    · rw [if_neg hc]
      exact ⟨[], by simp, by simp⟩

theorem getCommands_opens (env : Env) (blank : Command) (tokens : List Str) (os : OS) :
    ∀ e ∈ trace os (getCommands env blank tokens os).2, OpenedFor tokens e := by
  obtain ⟨es, hlog, htr⟩ := stageLoop_opens env tokens
    (List.replicate (tokens.count bar + 1) blank).length 0
    { commands := List.replicate (tokens.count bar + 1) blank, first := 0,
      last := findBar tokens 0, error := false } os
  unfold getCommands
  simp only []
  generalize stageLoop env tokens (List.replicate (tokens.count bar + 1) blank).length 0
    { commands := List.replicate (tokens.count bar + 1) blank, first := 0,
      last := findBar tokens 0, error := false } os = res at hlog
  obtain ⟨res1, os1⟩ := res
  cases res1 with
  | error f =>
    simp only [] at hlog ⊢
    rw [trace_of_log _ _ _ hlog]
    exact htr
  | ok st =>
    simp only [] at hlog ⊢
    by_cases herr : st.error = true
    · simp only [herr, if_true]
      obtain ⟨es2, hlog2, hes2, -⟩ := closeAll_closes_only st.commands
        (sysCout "hit the error clause\n".toList os1)
      have hl : (closeAll st.commands (sysCout "hit the error clause\n".toList os1)).log =
          os.log ++ (es ++ Event.cout "hit the error clause\n".toList :: es2) := by
        rw [hlog2]; simp only [sysCout]; rw [hlog]; simp
      rw [trace_of_log _ _ _ hl]
      intro e he
      rcases List.mem_append.mp he with h | h
      · exact htr e h
      · rcases List.mem_cons.mp h with rfl | h
        · trivial
        · have := hes2 e h
          cases e <;> simp [isClose] at this
          trivial
    · simp only [herr, if_false, Bool.false_eq_true]
      rw [trace_of_log _ _ _ hlog]
      exact htr

theorem opensOf_append (a b : List Event) : opensOf (a ++ b) = opensOf a ++ opensOf b := by
  induction a with
  | nil => rfl
  | cons e a ih => cases e <;> simp [opensOf, ih]

theorem redirections_post (post post' : List Str) (h : post.head? = post'.head?) :
    ∀ (g : List Str) (skip : Bool), redirections post g skip = redirections post' g skip := by
  intro g
  induction g with
  | nil => intro skip; simp [redirections]
  | cons tj rest ih =>
    intro skip
    have hh : (rest ++ post).head? = (rest ++ post').head? := by
      cases rest with
      | nil => simpa using h
      | cons a b => rfl
    cases skip with
    | true => simp only [redirections]; exact ih false
    | false =>
      simp only [redirections]
      rw [hh, ih true, ih false]

theorem scan_opens_exact (env : Env) (c size : Nat) (post : List Str) :
    ∀ (g : List Str) (skip : Bool) (command : Command) (error : Bool) (os : OS)
      (cmd : Command) (os' : OS),
      scan env c size post g skip command error os = (.ok (cmd, false), os') →
      ∃ es, os'.log = os.log ++ es ∧ opensOf es = redirections post g skip := by
  intro g
  induction g with
  | nil =>
    intro skip command error os cmd os' h
    rw [scan] at h
    simp only [Prod.mk.injEq] at h
    exact ⟨[], by rw [← h.2]; simp, by simp [opensOf, redirections]⟩
  | cons tj rest ih =>
    intro skip command error os cmd os' h
    cases skip with
    | true =>
      rw [scan] at h
      simp only [redirections]
      exact ih false _ _ _ _ _ h
    | false =>
      rw [scan] at h
      have hgl : ¬ (gt = lt) := by decide
      split at h
      · rename_i hop
        split at h
        · rename_i hin
          split at h
          · simp at h
          · rename_i file hfile
            dsimp only at h
            split at h
            · simp at h
            · obtain ⟨es, hlog, hes⟩ := ih true _ _ _ _ _ h
              refine ⟨Event.opened file inputFlags none (sysOpen env file inputFlags none os).1
                :: es, ?_, ?_⟩
              · rw [hlog, sysOpen_log]; simp
              · simp only [redirections, if_pos hin.2, hfile, opensOf, hes]
                rfl
        · rename_i hin
          split at h
          · rename_i hout
            split at h
            · simp at h
            · rename_i file hfile
              dsimp only at h
              split at h
              · simp at h
              · obtain ⟨es, hlog, hes⟩ := ih true _ _ _ _ _ h
                refine ⟨Event.opened file outputFlags (some 0o666)
                  (sysOpen env file outputFlags (some 0o666) os).1 :: es, ?_, ?_⟩
                · rw [hlog, sysOpen_log]; simp
                · have hne : ¬ (tj = lt) := by rw [hout.2]; exact hgl
                  simp only [redirections, if_neg hne, if_pos hout.2, hfile, opensOf, hes]
                  rfl
          · simp at h
      · rename_i hop
        have hne1 : ¬ (tj = lt) := fun h' => hop (Or.inr h')
        have hne2 : ¬ (tj = gt) := fun h' => hop (Or.inl h')
        simp only [redirections, if_neg hne1, if_neg hne2]
        split at h
        · exact ih false _ _ _ _ _ h
        · exact ih false _ _ _ _ _ h

theorem wirePipe_no_open (env : Env) (c : Nat) (cmds : List Command) (os : OS) :
    ∃ es, (wirePipe env c cmds os).2.log = os.log ++ es ∧ opensOf es = [] := by
  unfold wirePipe sysPipe
  split
  · split
    · exact ⟨[Event.piped (lowestFree os.openFds)
        (lowestFree (lowestFree os.openFds :: os.openFds))], rfl, rfl⟩
    · exact ⟨[Event.pipeFailed], rfl, rfl⟩
  · exact ⟨[], by simp, rfl⟩

theorem stageLoop_opens_exact (env : Env) :
    ∀ (gs : List (List Str)) (g pre : List Str) (c fuel : Nat) (st : Locals) (os : OS)
      (st' : Locals) (os' : OS),
      bar ∉ g → (∀ g' ∈ gs, bar ∉ g') → st.first = pre.length →
      (g ≠ [] → st.last = pre.length + g.length) →
      st.commands.length = c + 1 + gs.length → gs.length + 1 ≤ fuel →
      stageLoop env (pre ++ joinGroups (g :: gs)) fuel c st os = (.ok st', os') →
      st'.error = false →
      ∃ es, os'.log = os.log ++ es ∧ opensOf es = expectedOpens (g :: gs) := by
  intro gs
  induction gs with
  | nil =>
    intro g pre c fuel st os st' os' hg _ hfirst hlast hlen hfuel h herr
    have hc : c < st.commands.length := by rw [hlen]; omega
    obtain ⟨fuel, rfl⟩ : ∃ f, fuel = f + 1 := ⟨fuel - 1, by simp at hfuel; omega⟩
    cases g with
    | nil =>
      rw [stageLoop_oob env _ fuel c st os (by simp [joinGroups, hfirst]) hc] at h
      simp at h
    | cons t args =>
      by_cases ht : t = amp ∨ t = lt ∨ t = gt ∨ t = bar
      · simp only [joinGroups] at h
        rw [stageLoop_meta env pre t args fuel c st os hfirst hc ht] at h
        simp only [Prod.mk.injEq, Except.ok.injEq] at h
        rw [← h.1] at herr
        simp at herr
      · obtain ⟨command, hcmd⟩ : ∃ command, st.commands[c]? = some command :=
          ⟨st.commands[c], List.getElem?_eq_getElem hc⟩
        have hl := hlast (by simp)
        have hl' : st.last = pre.length + 1 + args.length := by
          rw [hl, List.length_cons]; omega
        have hlen0 : st.commands.length = c + 1 := by simpa using hlen
        rw [joinGroups_align, stageLoop_step env pre t args [] fuel c st os command hfirst
          hl' ht hcmd] at h
        split at h
        · simp at h
        · rename_i cmd1 error1 os1 hscan
          cases error1 with
          | true =>
            simp only [Bool.not_true, Bool.false_eq_true, if_false] at h
            have := stageLoop_sticky env _ _ _ _ _ _ _ rfl h
            rw [this] at herr
            simp at herr
          | false =>
            simp only [Bool.not_false, if_true] at h
            rw [stageLoop_done _ _ _ _ _ _ (by
              simp only [modifyAt_length, wirePipe_length, List.length_set]; omega)] at h
            simp only [Prod.mk.injEq, Except.ok.injEq] at h
            obtain ⟨es1, hlog1, hes1⟩ := scan_opens_exact env c _ [] args false _ _ _ _ _ hscan
            obtain ⟨esp, hlogp, hesp⟩ := wirePipe_no_open env c (st.commands.set c cmd1) os1
            refine ⟨es1 ++ esp, ?_, ?_⟩
            · rw [← h.2, hlogp, hlog1, List.append_assoc]
            · rw [opensOf_append, hes1, hesp, List.append_nil]
              rfl
  | cons g' gs' ih =>
    intro g pre c fuel st os st' os' hg hgs hfirst hlast hlen hfuel h herr
    have hc : c < st.commands.length := by rw [hlen]; omega
    obtain ⟨fuel, rfl⟩ : ∃ f, fuel = f + 1 := ⟨fuel - 1, by simp at hfuel; omega⟩
    cases g with
    | nil =>
      simp only [joinGroups, List.nil_append] at h
      rw [stageLoop_meta env pre bar _ fuel c st os hfirst hc (by simp)] at h
      simp only [Prod.mk.injEq, Except.ok.injEq] at h
      rw [← h.1] at herr
      simp at herr
    | cons t args =>
      by_cases ht : t = amp ∨ t = lt ∨ t = gt ∨ t = bar
      · simp only [joinGroups, List.cons_append] at h
        rw [stageLoop_meta env pre t _ fuel c st os hfirst hc ht] at h
        simp only [Prod.mk.injEq, Except.ok.injEq] at h
        rw [← h.1] at herr
        simp at herr
      · obtain ⟨command, hcmd⟩ : ∃ command, st.commands[c]? = some command :=
          ⟨st.commands[c], List.getElem?_eq_getElem hc⟩
        have hl := hlast (by simp)
        have hl' : st.last = pre.length + 1 + args.length := by
          rw [hl, List.length_cons]; omega
        rw [joinGroups_align, stageLoop_step env pre t args _ fuel c st os command hfirst
          hl' ht hcmd] at h
        split at h
        · simp at h
        · rename_i cmd1 error1 os1 hscan
          cases error1 with
          | true =>
            simp only [Bool.not_true, Bool.false_eq_true, if_false] at h
            have := stageLoop_sticky env _ _ _ _ _ _ _ rfl h
            rw [this] at herr
            simp at herr
          | false =>
            simp only [Bool.not_false, if_true] at h
            obtain ⟨es1, hlog1, hes1⟩ := scan_opens_exact env c _ _ args false _ _ _ _ _ hscan
            obtain ⟨esp, hlogp, hesp⟩ := wirePipe_no_open env c (st.commands.set c cmd1) os1
            have htok : pre ++ t :: args ++ bar :: joinGroups (g' :: gs') =
                (pre ++ t :: args ++ [bar]) ++ joinGroups (g' :: gs') := by simp
            have hplen : (pre ++ t :: args ++ [bar]).length = st.last + 1 := by
              rw [hl']; simp; omega
            rw [htok] at h
            obtain ⟨es2, hlog2, hes2⟩ := ih g' (pre ++ t :: args ++ [bar]) (c + 1) fuel _ _
              st' os'
              (hgs g' (List.mem_cons_self _ _))
              (fun g'' hg'' => hgs g'' (List.mem_cons_of_mem _ hg''))
              hplen.symm
              (fun hne => next_last pre t args g' gs' st.last hl'
                (hgs g' (List.mem_cons_self _ _)) hne)
              (by
                simp only [modifyAt_length, wirePipe_length, List.length_set]
                rw [hlen]; simp; omega)
              (by simp at hfuel ⊢; omega)
              h herr
            refine ⟨es1 ++ (esp ++ es2), ?_, ?_⟩
            · rw [hlog2, hlogp, hlog1]; simp
            · rw [opensOf_append, opensOf_append, hes1, hesp, hes2, List.nil_append]
              simp only [expectedOpens, List.tail_cons]
              rw [redirections_post (bar :: joinGroups (g' :: gs')) [bar] rfl]

theorem getCommands_opens_exact (env : Env) (blank : Command) (tokens : List Str) (os : OS)
    (cmds : List Command) (h : (getCommands env blank tokens os).1 = .ok cmds)
    (hne : cmds ≠ []) :
    opensOf (trace os (getCommands env blank tokens os).2) = expectedOpens (groups tokens) ∧
    ∀ e ∈ trace os (getCommands env blank tokens os).2, isFailedOpen e = false := by
  have hgl := groups_length tokens
  have hj := joinGroups_groups tokens
  have hb := groups_no_bar tokens
  obtain ⟨es0, hlog0, htr0⟩ := stageLoop_trace env tokens
    (List.replicate (tokens.count bar + 1) blank).length 0
    { commands := List.replicate (tokens.count bar + 1) blank, first := 0,
      last := findBar tokens 0, error := false } os
  cases hgs : groups tokens with
  | nil => exact absurd hgs (groups_ne_nil tokens)
  | cons g gs =>
    rw [hgs] at hgl hj hb
    have key := stageLoop_opens_exact env gs g [] 0
      (List.replicate (tokens.count bar + 1) blank).length
      { commands := List.replicate (tokens.count bar + 1) blank, first := 0,
        last := findBar tokens 0, error := false } os
    rw [List.nil_append, hj] at key
    unfold getCommands at h ⊢
    simp only [] at h ⊢
    generalize stageLoop env tokens (List.replicate (tokens.count bar + 1) blank).length 0
      { commands := List.replicate (tokens.count bar + 1) blank, first := 0,
        last := findBar tokens 0, error := false } os = res at key h hlog0 htr0 ⊢
    obtain ⟨r1, os1⟩ := res
    cases r1 with
    | error f => simp at h
    | ok st =>
      simp only [] at h hlog0 ⊢
      by_cases herr : st.error = true
      · simp only [herr, if_true, Except.ok.injEq] at h
        exact absurd h.symm hne
      · simp only [herr, if_false, Bool.false_eq_true]
        obtain ⟨es, hlog, hes⟩ := key st os1
          (hb g (List.mem_cons_self _ _))
          (fun g' hg' => hb g' (List.mem_cons_of_mem _ hg'))
          rfl
          (fun _ => by
            simp only [List.length_nil, Nat.zero_add]
            exact findBar_zero tokens g (by rw [hgs]; rfl))
          (by simp only [List.length_replicate, ← hgl, List.length_cons]; omega)
          (by simp only [List.length_replicate, ← hgl, List.length_cons]; omega)
          rfl (by simpa using herr)
        rw [trace_of_log _ _ _ hlog]
        refine ⟨hes, ?_⟩
        have : es0 = es := by
          have := hlog0.symm.trans hlog
          exact List.append_cancel_left this
        rw [← this]
        exact ((TraceOK.ok_iff _ _).mp htr0).2

/-- C17, as stated, fails for the input redirection: the file after `<` is opened with
`O_RDWR`, not for reading only. With a file `ro.txt` that may be read but not written, an
`open` for reading only would succeed, yet on the tokens of `cat < ro.txt` the `open` of
`getCommands` is refused and the process exits with status 2. -/
theorem getCommands_input_needs_write_access :
    readOnlyFile.canOpen [] "ro.txt".toList
      { access := AccessMode.rdonly, creat := false, trunc := false } = true ∧
    (getCommands readOnlyFile valueInitialized ["cat".toList, lt, "ro.txt".toList]
      freshShell).1 = .error (.exited 2) ∧
    trace freshShell (getCommands readOnlyFile valueInitialized
      ["cat".toList, lt, "ro.txt".toList] freshShell).2 =
      [Event.opened "ro.txt".toList
          { access := AccessMode.rdwr, creat := false, trunc := false } none (-1),
        Event.perror "open".toList] := by
  decide

/-- C17, amended. On every token sequence that `getCommands` accepts, the calls of `open` it
makes are, in order, exactly one for every `<` and every `>` operator of the sequence, naming
the token after the operator: for `<` with the flags `O_RDWR` alone (reading and writing, no
creation) and no mode argument, and for `>` with the flags `O_CREAT | O_RDWR | O_TRUNC` and the
creation mode `0666`; and every one of them succeeds. On every token sequence, accepted or not,
every call of `open` it makes is of one of these two forms. -/
theorem getCommands_open_flags (env : Env) (blank : Command) (tokens : List Str) (os : OS) :
    (∀ cmds, (getCommands env blank tokens os).1 = .ok cmds → cmds ≠ [] →
      opensOf (trace os (getCommands env blank tokens os).2) = expectedOpens (groups tokens) ∧
      ∀ e ∈ trace os (getCommands env blank tokens os).2, isFailedOpen e = false) ∧
    ∀ (path : Str) (flags : OpenFlags) (mode : Option Nat) (r : Int),
      Event.opened path flags mode r ∈ trace os (getCommands env blank tokens os).2 →
      ∃ j, tokens[j + 1]? = some path ∧
        ((tokens[j]? = some lt ∧
            flags = { access := AccessMode.rdwr, creat := false, trunc := false } ∧
            mode = none) ∨
          (tokens[j]? = some gt ∧
            flags = { access := AccessMode.rdwr, creat := true, trunc := true } ∧
            mode = some 0o666)) :=
  ⟨fun cmds h hne => getCommands_opens_exact env blank tokens os cmds h hne,
    fun _ _ _ _ h => getCommands_opens env blank tokens os _ h⟩

/-- The amended C17 on the tokens of `sort < in.txt > out.txt`, which are accepted: the calls of
`open` are that of `in.txt` with `O_RDWR` and that of `out.txt` with
`O_CREAT | O_RDWR | O_TRUNC` and mode `0666`. -/
theorem getCommands_open_flags_witness :
    ((getCommands everyOpenSucceeds valueInitialized
        ["sort".toList, lt, "in.txt".toList, gt, "out.txt".toList] freshShell).1 =
        .ok [{ execName := "sort".toList, argv := [some "sort".toList, none], inputFd := 3,
               outputFd := 4, background := false }] ∧
      Event.opened "in.txt".toList inputFlags none 3 ∈
        trace freshShell (getCommands everyOpenSucceeds valueInitialized
          ["sort".toList, lt, "in.txt".toList, gt, "out.txt".toList] freshShell).2) ∧
    (opensOf (trace freshShell (getCommands everyOpenSucceeds valueInitialized
        ["sort".toList, lt, "in.txt".toList, gt, "out.txt".toList] freshShell).2) =
        expectedOpens (groups ["sort".toList, lt, "in.txt".toList, gt, "out.txt".toList]) ∧
      ∀ e ∈ trace freshShell (getCommands everyOpenSucceeds valueInitialized
        ["sort".toList, lt, "in.txt".toList, gt, "out.txt".toList] freshShell).2,
        isFailedOpen e = false) ∧
    (∃ j, ["sort".toList, lt, "in.txt".toList, gt, "out.txt".toList][j + 1]? =
        some "in.txt".toList ∧
      ((["sort".toList, lt, "in.txt".toList, gt, "out.txt".toList][j]? = some lt ∧
          inputFlags = { access := AccessMode.rdwr, creat := false, trunc := false } ∧
          (none : Option Nat) = none) ∨
        (["sort".toList, lt, "in.txt".toList, gt, "out.txt".toList][j]? = some gt ∧
          inputFlags = { access := AccessMode.rdwr, creat := true, trunc := true } ∧
          (none : Option Nat) = some 0o666))) ∧
    expectedOpens (groups ["sort".toList, lt, "in.txt".toList, gt, "out.txt".toList]) =
      [("in.txt".toList, { access := AccessMode.rdwr, creat := false, trunc := false }, none),
        ("out.txt".toList, { access := AccessMode.rdwr, creat := true, trunc := true },
          some 0o666)] :=
  ⟨⟨by decide, by decide⟩,
    (getCommands_open_flags everyOpenSucceeds valueInitialized
      ["sort".toList, lt, "in.txt".toList, gt, "out.txt".toList] freshShell).1
      [{ execName := "sort".toList, argv := [some "sort".toList, none], inputFd := 3,
         outputFd := 4, background := false }] (by decide) (by decide),
    (getCommands_open_flags everyOpenSucceeds valueInitialized
      ["sort".toList, lt, "in.txt".toList, gt, "out.txt".toList] freshShell).2
      "in.txt".toList inputFlags none 3 (by decide),
    by decide⟩

/-! ## The order of two redirections: claim C16 -/

/-- C16, as stated, fails when the two names are the same file that does not exist yet. With
the output redirection first, `open` creates `new.txt` and the input redirection then opens it:
one Command is returned. With the input redirection first, the `open` of the missing file is
refused and the process exits with status 2. -/
theorem getCommands_redirection_order_matters :
    (getCommands emptyDirectory valueInitialized
      ["nl".toList, gt, "new.txt".toList, lt, "new.txt".toList] freshShell).1 =
      .ok [{ execName := "nl".toList, argv := [some "nl".toList, none], inputFd := 4,
             outputFd := 3, background := false }] ∧
    (getCommands emptyDirectory valueInitialized
      ["nl".toList, lt, "new.txt".toList, gt, "new.txt".toList] freshShell).1 =
      .error (.exited 2) := by
  decide

theorem getCommands_output_then_input (env : Env) (blank : Command) (c f g : Str) (os : OS)
    (hc : ¬ (c = amp ∨ c = lt ∨ c = gt ∨ c = bar))
    (hf : ¬ (f = amp ∨ f = lt ∨ f = gt ∨ f = bar))
    (hg : ¬ (g = amp ∨ g = lt ∨ g = gt ∨ g = bar))
    (hopen : ∀ log, env.canOpen log f inputFlags = true ∧ env.canOpen log g outputFlags = true) :
    getCommands env blank [c, gt, g, lt, f] os =
      (.ok [{ execName := c, argv := blank.argv ++ [some c] ++ [none],
              inputFd := (lowestFree (lowestFree os.openFds :: os.openFds) : Nat),
              outputFd := (lowestFree os.openFds : Nat), background := false }],
        { openFds := lowestFree (lowestFree os.openFds :: os.openFds) ::
            lowestFree os.openFds :: os.openFds,
          log := os.log ++
            [Event.opened g outputFlags (some 0o666) (lowestFree os.openFds : Nat),
              Event.opened f inputFlags none
                (lowestFree (lowestFree os.openFds :: os.openFds) : Nat)] }) := by
  have hcount : [c, gt, g, lt, f].count bar = 0 := by
    simp only [not_or] at hc hf hg
    rw [List.count_eq_zero]
    simp only [List.mem_cons, List.mem_singleton, List.not_mem_nil, or_false, not_or]
    exact ⟨fun h => hc.2.2.2 h.symm, by decide, fun h => hg.2.2.2 h.symm, by decide,
      fun h => hf.2.2.2 h.symm⟩
  have hlast : findBar [c, gt, g, lt, f] 0 = 5 := by
    simp only [not_or] at hc hf hg
    have h1 : ¬ (gt = bar) := by decide
    have h2 : ¬ (lt = bar) := by decide
    simp [findBar, List.findIdx_cons, hc.2.2.2, hf.2.2.2, hg.2.2.2, h1, h2]
  have hstep := stageLoop_step env [] c [gt, g, lt, f] [] 0 0
    { commands := [blank], first := 0, last := 5, error := false } os blank rfl rfl hc rfl
  unfold getCommands
  simp only [hcount, hlast, List.replicate, List.length_cons, List.length_nil, Nat.zero_add]
  simp only [List.nil_append, List.cons_append, List.append_nil] at hstep
  rw [hstep]
  have hlt : ¬ (lt = gt) := by decide
  have hgt : ¬ (gt = lt) := by decide
  have hn : ∀ n : Nat, ¬ ((n : Int) < 0) := fun n => by omega
  simp [scan, hopen, sysOpen, hlt, hgt, wirePipe, modifyAt, stageLoop_done, hn]

theorem getCommands_input_then_output (env : Env) (blank : Command) (c f g : Str) (os : OS)
    (hc : ¬ (c = amp ∨ c = lt ∨ c = gt ∨ c = bar))
    (hf : ¬ (f = amp ∨ f = lt ∨ f = gt ∨ f = bar))
    (hg : ¬ (g = amp ∨ g = lt ∨ g = gt ∨ g = bar))
    (hopen : ∀ log, env.canOpen log f inputFlags = true ∧ env.canOpen log g outputFlags = true) :
    getCommands env blank [c, lt, f, gt, g] os =
      (.ok [{ execName := c, argv := blank.argv ++ [some c] ++ [none],
              inputFd := (lowestFree os.openFds : Nat),
              outputFd := (lowestFree (lowestFree os.openFds :: os.openFds) : Nat),
              background := false }],
        { openFds := lowestFree (lowestFree os.openFds :: os.openFds) ::
            lowestFree os.openFds :: os.openFds,
          log := os.log ++
            [Event.opened f inputFlags none (lowestFree os.openFds : Nat),
              Event.opened g outputFlags (some 0o666)
                (lowestFree (lowestFree os.openFds :: os.openFds) : Nat)] }) := by
  have hcount : [c, lt, f, gt, g].count bar = 0 := by
    simp only [not_or] at hc hf hg
    rw [List.count_eq_zero]
    simp only [List.mem_cons, List.mem_singleton, List.not_mem_nil, or_false, not_or]
    exact ⟨fun h => hc.2.2.2 h.symm, by decide, fun h => hf.2.2.2 h.symm, by decide,
      fun h => hg.2.2.2 h.symm⟩
  have hlast : findBar [c, lt, f, gt, g] 0 = 5 := by
    simp only [not_or] at hc hf hg
    have h1 : ¬ (gt = bar) := by decide
    have h2 : ¬ (lt = bar) := by decide
    simp [findBar, List.findIdx_cons, hc.2.2.2, hf.2.2.2, hg.2.2.2, h1, h2]
  have hstep := stageLoop_step env [] c [lt, f, gt, g] [] 0 0
    { commands := [blank], first := 0, last := 5, error := false } os blank rfl rfl hc rfl
  unfold getCommands
  simp only [hcount, hlast, List.replicate, List.length_cons, List.length_nil, Nat.zero_add]
  simp only [List.nil_append, List.cons_append, List.append_nil] at hstep
  rw [hstep]
  have hlt : ¬ (lt = gt) := by decide
  have hgt : ¬ (gt = lt) := by decide
  have hn : ∀ n : Nat, ¬ ((n : Int) < 0) := fun n => by omega
  simp [scan, hopen, sysOpen, hlt, hgt, wirePipe, modifyAt, stageLoop_done, hn]

/-- C16, amended. For all tokens `c`, `f`, `g` that are not metacharacters, when `f` can be
opened with the flags of the input redirection and `g` with those of the output redirection
whatever the process has done before, `getCommands` on `c > g < f` and on `c < f > g` both
return one Command with the same `execName`, `argv` and `background`, whose `inputFd` is the
descriptor that its `open` of `f` returned and whose `outputFd` is the descriptor that its
`open` of `g` returned. The two calls of `open` are made in the order of the redirections, so
the two descriptor numbers are exchanged between the two orders. -/
theorem getCommands_redirection_order (env : Env) (blank : Command) (c f g : Str) (os : OS)
    (hc : ¬ (c = amp ∨ c = lt ∨ c = gt ∨ c = bar))
    (hf : ¬ (f = amp ∨ f = lt ∨ f = gt ∨ f = bar))
    (hg : ¬ (g = amp ∨ g = lt ∨ g = gt ∨ g = bar))
    (hopen : ∀ log, env.canOpen log f inputFlags = true ∧ env.canOpen log g outputFlags = true) :
    ∃ cmd1 cmd2 : Command,
      (getCommands env blank [c, gt, g, lt, f] os).1 = .ok [cmd1] ∧
      (getCommands env blank [c, lt, f, gt, g] os).1 = .ok [cmd2] ∧
      cmd1.execName = c ∧ cmd2.execName = c ∧ cmd1.argv = blank.argv ++ [some c] ++ [none] ∧
      cmd2.argv = cmd1.argv ∧ cmd1.background = false ∧ cmd2.background = false ∧
      0 ≤ cmd1.inputFd ∧ 0 ≤ cmd1.outputFd ∧ 0 ≤ cmd2.inputFd ∧ 0 ≤ cmd2.outputFd ∧
      cmd2.inputFd = cmd1.outputFd ∧ cmd2.outputFd = cmd1.inputFd ∧
      trace os (getCommands env blank [c, gt, g, lt, f] os).2 =
        [Event.opened g outputFlags (some 0o666) cmd1.outputFd,
          Event.opened f inputFlags none cmd1.inputFd] ∧
      trace os (getCommands env blank [c, lt, f, gt, g] os).2 =
        [Event.opened f inputFlags none cmd2.inputFd,
          Event.opened g outputFlags (some 0o666) cmd2.outputFd] := by
  rw [getCommands_output_then_input env blank c f g os hc hf hg hopen,
    getCommands_input_then_output env blank c f g os hc hf hg hopen]
  refine ⟨_, _, rfl, rfl, rfl, rfl, rfl, rfl, rfl, rfl, ?_, ?_, ?_, ?_, rfl, rfl, ?_, ?_⟩
  · exact Int.ofNat_nonneg _
  · exact Int.ofNat_nonneg _
  · exact Int.ofNat_nonneg _
  · exact Int.ofNat_nonneg _
  · exact trace_of_log _ _ _ rfl
  · exact trace_of_log _ _ _ rfl

/-- The amended C16 on `nl > numbered_data.txt < data.txt` and `nl < data.txt >
numbered_data.txt`, the two lines of the header comment of `shelpers.cpp`. -/
theorem getCommands_redirection_order_witness :
    (¬ ("nl".toList = amp ∨ "nl".toList = lt ∨ "nl".toList = gt ∨ "nl".toList = bar) ∧
      ¬ ("data.txt".toList = amp ∨ "data.txt".toList = lt ∨ "data.txt".toList = gt ∨
        "data.txt".toList = bar) ∧
      ¬ ("numbered_data.txt".toList = amp ∨ "numbered_data.txt".toList = lt ∨
        "numbered_data.txt".toList = gt ∨ "numbered_data.txt".toList = bar) ∧
      ∀ log, everyOpenSucceeds.canOpen log "data.txt".toList inputFlags = true ∧
        everyOpenSucceeds.canOpen log "numbered_data.txt".toList outputFlags = true) ∧
    ∃ cmd1 cmd2 : Command,
      (getCommands everyOpenSucceeds valueInitialized
        ["nl".toList, gt, "numbered_data.txt".toList, lt, "data.txt".toList] freshShell).1 =
        .ok [cmd1] ∧
      (getCommands everyOpenSucceeds valueInitialized
        ["nl".toList, lt, "data.txt".toList, gt, "numbered_data.txt".toList] freshShell).1 =
        .ok [cmd2] ∧
      cmd1.execName = "nl".toList ∧ cmd2.execName = "nl".toList ∧
      cmd1.argv = valueInitialized.argv ++ [some "nl".toList] ++ [none] ∧
      cmd2.argv = cmd1.argv ∧ cmd1.background = false ∧ cmd2.background = false ∧
      0 ≤ cmd1.inputFd ∧ 0 ≤ cmd1.outputFd ∧ 0 ≤ cmd2.inputFd ∧ 0 ≤ cmd2.outputFd ∧
      cmd2.inputFd = cmd1.outputFd ∧ cmd2.outputFd = cmd1.inputFd ∧
      trace freshShell (getCommands everyOpenSucceeds valueInitialized
        ["nl".toList, gt, "numbered_data.txt".toList, lt, "data.txt".toList] freshShell).2 =
        [Event.opened "numbered_data.txt".toList outputFlags (some 0o666) cmd1.outputFd,
          Event.opened "data.txt".toList inputFlags none cmd1.inputFd] ∧
      trace freshShell (getCommands everyOpenSucceeds valueInitialized
        ["nl".toList, lt, "data.txt".toList, gt, "numbered_data.txt".toList] freshShell).2 =
        [Event.opened "data.txt".toList inputFlags none cmd2.inputFd,
          Event.opened "numbered_data.txt".toList outputFlags (some 0o666) cmd2.outputFd] :=
  ⟨⟨by decide, by decide, by decide, fun _ => ⟨rfl, rfl⟩⟩,
    getCommands_redirection_order everyOpenSucceeds valueInitialized "nl".toList
      "data.txt".toList "numbered_data.txt".toList freshShell (by decide) (by decide)
      (by decide) (fun _ => ⟨rfl, rfl⟩)⟩

end TerminalShell
